import Mathlib

/-!
Shallow embedding of the `turing` Go repository (machine engine, standard
table / description-number encoder, abbreviated-table compiler) and proofs
about it.  Go strings are modelled as `List Char`; Go maps (which are used
only through lookup, insert-if-absent and insertion-order-irrelevant
iteration here) are modelled as insertion-ordered association lists.
-/

namespace TuringGo

/-- A Go string, modelled as its list of characters. -/
abbrev GoStr := List Char

/-- Convenience: a Lean string literal as a `GoStr`. -/
def gs (s : String) : GoStr := s.data

/-- Fueled core of Go's `strconv.Itoa` for naturals (the repo only converts
non-negative counters).  Structural in the fuel so that the kernel can
evaluate it. -/
def itoaCore : Nat → Nat → GoStr
  | 0, _ => []
  | fuel + 1, n =>
    if n < 10 then [Char.ofNat (48 + n)]
    else itoaCore fuel (n / 10) ++ [Char.ofNat (48 + n % 10)]

/-- Go's `strconv.Itoa` on naturals. -/
def itoa (n : Nat) : GoStr := itoaCore (n + 1) n

/-- Digit value of a character, if it is a decimal digit. -/
def digitVal (c : Char) : Option Nat :=
  if 48 ≤ c.toNat ∧ c.toNat ≤ 57 then some (c.toNat - 48) else none

/-- Go's `strconv.Atoi` on digit strings (the repo only parses the
suffixes of names it generated itself, which are decimal numerals). -/
def atoi : GoStr → Option Nat
  | [] => none
  | l => atoiCore l 0
where
  atoiCore : GoStr → Nat → Option Nat
    | [], acc => some acc
    | c :: r, acc =>
      match digitVal c with
      | some d => atoiCore r (acc * 10 + d)
      | none => none

theorem itoaCore_eq_of_fuel {fuel fuel' n : Nat} (h : n < fuel) (h' : n < fuel') :
    itoaCore fuel n = itoaCore fuel' n := by
  induction fuel generalizing fuel' n with
  | zero => omega
  | succ f ih =>
    cases fuel' with
    | zero => omega
    | succ f' =>
      simp only [itoaCore]
      by_cases h10 : n < 10
      · simp [h10]
      · have hd : n / 10 < f := by omega
        have hd' : n / 10 < f' := by omega
        simp only [h10, if_false]
        rw [ih hd hd']

theorem itoa_small (n : Nat) (h : n < 10) : itoa n = [Char.ofNat (48 + n)] := by
  simp [itoa, itoaCore, h]

theorem itoa_large (n : Nat) (h : ¬ n < 10) :
    itoa n = itoa (n / 10) ++ [Char.ofNat (48 + n % 10)] := by
  have h1 : n / 10 < n := by omega
  have h2 : n / 10 < n / 10 + 1 := by omega
  simp only [itoa, itoaCore, h, if_false]
  rw [itoaCore_eq_of_fuel h1 h2]
  conv_lhs => rw [itoaCore]

theorem digitVal_ofNat_digit (d : Nat) (h : d < 10) :
    digitVal (Char.ofNat (48 + d)) = some d := by
  interval_cases d <;> decide

/-- Every character produced by `itoa` is a decimal digit. -/
theorem itoa_chars_digits (n : Nat) : ∀ c ∈ itoa n, (digitVal c).isSome := by
  induction n using Nat.strong_induction_on with
  | _ n ih =>
    by_cases h : n < 10
    · rw [itoa_small n h]
      intro c hc
      simp at hc
      subst hc
      rw [digitVal_ofNat_digit _ (by omega)]
      rfl
    · rw [itoa_large n h]
      intro c hc
      rcases List.mem_append.1 hc with h1 | h2
      · exact ih (n / 10) (by omega) c h1
      · simp at h2
        subst h2
        rw [digitVal_ofNat_digit _ (by omega)]
        rfl

theorem atoiCore_append_digit (l : GoStr) (acc : Nat)
    (hl : ∀ c ∈ l, (digitVal c).isSome) (d : Nat) (hd : d < 10) :
    atoi.atoiCore (l ++ [Char.ofNat (48 + d)]) acc =
      (atoi.atoiCore l acc).map (fun m => m * 10 + d) := by
  induction l generalizing acc with
  | nil => simp [atoi.atoiCore, digitVal_ofNat_digit d hd]
  | cons c r ih =>
    have hc : (digitVal c).isSome := hl c (by simp)
    rcases Option.isSome_iff_exists.1 hc with ⟨v, hv⟩
    simp only [List.cons_append, atoi.atoiCore, hv]
    exact ih _ (fun x hx => hl x (by simp [hx]))

theorem itoa_ne_nil (n : Nat) : itoa n ≠ [] := by
  by_cases h : n < 10
  · rw [itoa_small n h]; simp
  · rw [itoa_large n h]; simp

/-- Round trip: parsing a printed numeral gives the number back. -/
theorem atoi_itoa (n : Nat) : atoi (itoa n) = some n := by
  have main : ∀ n, atoi.atoiCore (itoa n) 0 = some n := by
    intro n
    induction n using Nat.strong_induction_on with
    | _ n ih =>
      by_cases h : n < 10
      · rw [itoa_small n h]
        simp [atoi.atoiCore, digitVal_ofNat_digit n h]
      · rw [itoa_large n h]
        rw [atoiCore_append_digit _ _ (itoa_chars_digits (n / 10)) _ (by omega)]
        rw [ih (n / 10) (by omega)]
        simp
        omega
  have hne := itoa_ne_nil n
  unfold atoi
  split
  · exact absurd (by assumption) hne
  · exact main n

/-- `itoa` is injective (via the round trip). -/
theorem itoa_injective : Function.Injective itoa := by
  intro a b h
  have := atoi_itoa a
  rw [h, atoi_itoa] at this
  exact (Option.some_injective _ this).symm

/-! ## The machine engine (`machine.go`) -/

/-- An m-configuration: one row of a transition table. -/
structure MConfiguration where
  Name : GoStr
  Symbols : List GoStr
  Operations : List GoStr
  FinalMConfiguration : GoStr
deriving DecidableEq

/-- Input to `NewMachine`.  The `Debug` field only controls printing and is
omitted. -/
structure MachineInput where
  MConfigurations : List MConfiguration
  Tape : List GoStr := []
  StartingMConfiguration : GoStr := []
  PossibleSymbols : List GoStr := []
  NoneSymbol : GoStr := []
deriving DecidableEq

/-- The running machine.  `scannedSquare` is an `Int` because Go lets it go
to `-1` between operations (the tape is then extended on the next access). -/
structure Machine where
  mConfigurations : List MConfiguration
  tape : List GoStr
  noneSymbol : GoStr
  scannedSquare : Int
  currentMConfigurationName : GoStr
  halted : Bool
deriving DecidableEq

/-- The ` ` (None) symbol. -/
def noneSy : GoStr := [' ']

/-- The `*` (Any) symbol. -/
def anySy : GoStr := ['*']

/-- `NewMachine`. -/
def NewMachine (input : MachineInput) : Machine :=
  { mConfigurations := input.MConfigurations
    tape := input.Tape
    noneSymbol := if input.NoneSymbol = [] then noneSy else input.NoneSymbol
    scannedSquare := 0
    currentMConfigurationName :=
      if input.StartingMConfiguration = [] then
        match input.MConfigurations with
        | [] => []
        | mc :: _ => mc.Name
      else input.StartingMConfiguration
    halted := false }

/-- `extendTapeIfNeeded`: the tape is infinite, extend it as needed (by one
square at the nearer end). -/
def Machine.extendTapeIfNeeded (m : Machine) : Machine :=
  let m1 :=
    if (m.tape.length : Int) ≤ m.scannedSquare then
      { m with tape := m.tape ++ [m.noneSymbol] }
    else m
  if m1.scannedSquare < 0 then
    { m1 with tape := m1.noneSymbol :: m1.tape, scannedSquare := m1.scannedSquare + 1 }
  else m1

/-- The `notSymbols` collected by `findMConfiguration`s scenario 3: the
tails of all symbols containing `!`. -/
def notSymbolsOf (symbols : List GoStr) : List GoStr :=
  (symbols.filter (fun s => s.contains '!')).map (fun s => s.drop 1)

/-- `findMConfiguration`: first row whose name matches and whose symbol list
matches the scanned symbol.  Returns `none` where Go returns
`shouldHalt = true`. -/
def findMConfiguration (mcs : List MConfiguration) (name symbol ns : GoStr) :
    Option MConfiguration :=
  match mcs with
  | [] => none
  | mc :: rest =>
    if mc.Name = name ∧ symbol ∈ mc.Symbols then some mc
    else if mc.Name = name ∧ symbol ≠ ns ∧ anySy ∈ mc.Symbols then some mc
    else if mc.Name = name ∧ symbol ≠ ns ∧
        (notSymbolsOf mc.Symbols ≠ [] ∧ symbol ∉ notSymbolsOf mc.Symbols) then some mc
    else findMConfiguration rest name symbol ns

/-- `performOperation`: extend the tape, then dispatch on the operation's
first character (`operation[0]` in Go; the blank-headed default can only be
reached by an empty operation string, on which Go would panic). -/
def Machine.performOperation (m0 : Machine) (operation : GoStr) : Machine :=
  let m := m0.extendTapeIfNeeded
  if operation.headD ' ' = 'R' then { m with scannedSquare := m.scannedSquare + 1 }
  else if operation.headD ' ' = 'L' then { m with scannedSquare := m.scannedSquare - 1 }
  else if operation.headD ' ' = 'E' then
    { m with tape := m.tape.set m.scannedSquare.toNat m.noneSymbol }
  else if operation.headD ' ' = 'P' then
    { m with tape := m.tape.set m.scannedSquare.toNat (operation.drop 1) }
  else m

/-- `Move`: one step of the machine. -/
def Machine.Move (m : Machine) : Machine :=
  if m.halted then m
  else
    let m1 := m.extendTapeIfNeeded
    let symbol := m1.tape.getD m1.scannedSquare.toNat []
    match findMConfiguration m1.mConfigurations m1.currentMConfigurationName symbol m1.noneSymbol with
    | none => { m1 with halted := true }
    | some mc =>
      let m2 := mc.Operations.foldl Machine.performOperation m1
      { m2 with currentMConfigurationName := mc.FinalMConfiguration }

/-- `MoveN`: move up to `n` times, stopping early when halted; also return
the loop count Go reports. -/
def Machine.MoveN (m : Machine) : Nat → Machine × Nat
  | 0 => (m, 0)
  | n + 1 =>
    let m1 := m.Move
    if m1.halted then (m1, 1)
    else
      let r := m1.MoveN n
      (r.1, r.2 + 1)

/-- `TapeString`: the tape joined into one string. -/
def Machine.TapeString (m : Machine) : GoStr := m.tape.flatten

/-! ## Engine lemmas -/

/-- The matching predicate of `findMConfiguration`, written out as in the
spec: the row's name must equal the current state, an exactly listed symbol
always matches, and `*` (Any) and `!x` (Not) entries match only a scanned
symbol different from the blank symbol. -/
def rowMatches (mc : MConfiguration) (name symbol ns : GoStr) : Bool :=
  decide (mc.Name = name ∧
    (symbol ∈ mc.Symbols ∨
      (symbol ≠ ns ∧
        (anySy ∈ mc.Symbols ∨
          (notSymbolsOf mc.Symbols ≠ [] ∧ symbol ∉ notSymbolsOf mc.Symbols)))))

theorem findMConfiguration_eq_find? (mcs : List MConfiguration)
    (name symbol ns : GoStr) :
    findMConfiguration mcs name symbol ns
      = mcs.find? (fun mc => rowMatches mc name symbol ns) := by
  induction mcs with
  | nil => rfl
  | cons mc rest ih =>
    simp only [findMConfiguration, List.find?]
    by_cases h1 : mc.Name = name ∧ symbol ∈ mc.Symbols
    · rw [if_pos h1]
      have : rowMatches mc name symbol ns = true := by
        simp only [rowMatches, decide_eq_true_eq]
        exact ⟨h1.1, Or.inl h1.2⟩
      rw [this]
    · rw [if_neg h1]
      by_cases h2 : mc.Name = name ∧ symbol ≠ ns ∧ anySy ∈ mc.Symbols
      · rw [if_pos h2]
        have : rowMatches mc name symbol ns = true := by
          simp only [rowMatches, decide_eq_true_eq]
          exact ⟨h2.1, Or.inr ⟨h2.2.1, Or.inl h2.2.2⟩⟩
        rw [this]
      · rw [if_neg h2]
        by_cases h3 : mc.Name = name ∧ symbol ≠ ns ∧
            (notSymbolsOf mc.Symbols ≠ [] ∧ symbol ∉ notSymbolsOf mc.Symbols)
        · rw [if_pos h3]
          have : rowMatches mc name symbol ns = true := by
            simp only [rowMatches, decide_eq_true_eq]
            exact ⟨h3.1, Or.inr ⟨h3.2.1, Or.inr h3.2.2⟩⟩
          rw [this]
        · rw [if_neg h3]
          have : rowMatches mc name symbol ns = false := by
            simp only [rowMatches, decide_eq_false_iff_not]
            intro hcon
            rcases hcon with ⟨hn, hor⟩
            rcases hor with hin | ⟨hne, hor2⟩
            · exact h1 ⟨hn, hin⟩
            · rcases hor2 with hany | hnot
              · exact h2 ⟨hn, hne, hany⟩
              · exact h3 ⟨hn, hne, hnot⟩
          rw [this]
          exact ih

theorem Move_of_halted (m : Machine) (h : m.halted = true) : m.Move = m := by
  simp [Machine.Move, h]

theorem Move_halted_mono (m : Machine) (h : m.halted = true) :
    m.Move.halted = true := by rw [Move_of_halted m h]; exact h

theorem iterate_Move_of_halted (m : Machine) (h : m.halted = true) (k : Nat) :
    Machine.Move^[k] m = m := by
  induction k with
  | zero => rfl
  | succ k ih => rw [Function.iterate_succ_apply, Move_of_halted m h, ih]

theorem MoveN_succ_eq (m : Machine) (n : Nat) :
    m.MoveN (n + 1) =
      if m.Move.halted then (m.Move, 1)
      else ((m.Move.MoveN n).1, (m.Move.MoveN n).2 + 1) := rfl

theorem MoveN_fst_of_halted (m : Machine) (h : m.halted = true) (n : Nat) :
    (m.MoveN n).1 = m := by
  cases n with
  | zero => rfl
  | succ n =>
    rw [MoveN_succ_eq, Move_of_halted m h, if_pos h]

/-- The machine `MoveN` returns is the `n`-fold iterate of `Move` (moving a
halted machine is the identity). -/
theorem MoveN_fst (m : Machine) (n : Nat) :
    (m.MoveN n).1 = Machine.Move^[n] m := by
  induction n generalizing m with
  | zero => rfl
  | succ n ih =>
    rw [MoveN_succ_eq]
    by_cases h : m.Move.halted = true
    · rw [if_pos h]
      rw [Function.iterate_succ_apply, iterate_Move_of_halted _ h]
    · rw [if_neg h]
      rw [ih, Function.iterate_succ_apply]

/-! ## Tape-safety invariant (claim C10) -/

/-- Between moves, the scanned square sits in `[-1, tape length]`; the
single-square extension then suffices to bring it in bounds. -/
def Inv (m : Machine) : Prop :=
  -1 ≤ m.scannedSquare ∧ m.scannedSquare ≤ (m.tape.length : Int)

instance (m : Machine) : Decidable (Inv m) := by unfold Inv; infer_instance

theorem extend_bounds (m : Machine) (h : Inv m) :
    0 ≤ m.extendTapeIfNeeded.scannedSquare ∧
      m.extendTapeIfNeeded.scannedSquare < (m.extendTapeIfNeeded.tape.length : Int) := by
  rcases h with ⟨hlo, hhi⟩
  simp only [Machine.extendTapeIfNeeded]
  by_cases hge : (m.tape.length : Int) ≤ m.scannedSquare
  · have heq : m.scannedSquare = (m.tape.length : Int) := le_antisymm hhi hge
    rw [if_pos hge]
    rw [if_neg (show ¬ m.scannedSquare < 0 by omega)]
    simp only [List.length_append, List.length_cons, List.length_nil]
    push_cast
    omega
  · rw [if_neg hge]
    by_cases hneg : m.scannedSquare < 0
    · rw [if_pos hneg]
      simp only [List.length_cons]
      push_cast
      omega
    · rw [if_neg hneg]
      constructor
      · omega
      · omega

theorem extend_Inv (m : Machine) (h : Inv m) : Inv m.extendTapeIfNeeded := by
  have := extend_bounds m h
  exact ⟨by omega, by omega⟩

theorem extend_keeps (m : Machine) :
    m.extendTapeIfNeeded.mConfigurations = m.mConfigurations ∧
      m.extendTapeIfNeeded.noneSymbol = m.noneSymbol ∧
      m.extendTapeIfNeeded.currentMConfigurationName = m.currentMConfigurationName ∧
      m.extendTapeIfNeeded.halted = m.halted := by
  simp only [Machine.extendTapeIfNeeded]
  by_cases hge : (m.tape.length : Int) ≤ m.scannedSquare <;>
    by_cases hneg : m.scannedSquare < 0 <;>
    simp [hge, hneg]

theorem performOperation_Inv (m : Machine) (op : GoStr) (h : Inv m) :
    Inv (m.performOperation op) := by
  have hb := extend_bounds m h
  simp only [Machine.performOperation]
  split_ifs <;> refine ⟨?_, ?_⟩ <;> dsimp only <;>
    first
      | omega
      | (simp only [List.length_set]; omega)

theorem performOperation_drift (m : Machine) (op : GoStr) :
    (m.performOperation op).scannedSquare - m.extendTapeIfNeeded.scannedSquare ≤ 1 ∧
      m.extendTapeIfNeeded.scannedSquare - (m.performOperation op).scannedSquare ≤ 1 := by
  simp only [Machine.performOperation]
  split_ifs <;> refine ⟨?_, ?_⟩ <;> dsimp only <;> omega

theorem foldl_performOperation_Inv (ops : List GoStr) (m : Machine) (h : Inv m) :
    Inv (ops.foldl Machine.performOperation m) := by
  induction ops generalizing m with
  | nil => exact h
  | cons op rest ih =>
    exact ih _ (performOperation_Inv m op h)

theorem Move_Inv (m : Machine) (h : Inv m) : Inv m.Move := by
  simp only [Machine.Move]
  by_cases hh : m.halted = true
  · rw [if_pos hh]
    exact h
  · rw [if_neg hh]
    have hext := extend_Inv m h
    cases findMConfiguration m.extendTapeIfNeeded.mConfigurations
        m.extendTapeIfNeeded.currentMConfigurationName
        (m.extendTapeIfNeeded.tape.getD m.extendTapeIfNeeded.scannedSquare.toNat [])
        m.extendTapeIfNeeded.noneSymbol with
    | none => exact ⟨hext.1, hext.2⟩
    | some mc =>
      have hf := foldl_performOperation_Inv mc.Operations m.extendTapeIfNeeded hext
      exact ⟨hf.1, hf.2⟩

theorem MoveN_Inv (m : Machine) (n : Nat) (h : Inv m) : Inv (m.MoveN n).1 := by
  rw [MoveN_fst]
  induction n with
  | zero => exact h
  | succ n ih =>
    rw [Function.iterate_succ_apply']
    exact Move_Inv _ ih

theorem NewMachine_Inv (input : MachineInput) : Inv (NewMachine input) := by
  refine ⟨?_, ?_⟩
  · show (-1 : Int) ≤ 0
    omega
  · show (0 : Int) ≤ (input.Tape.length : Int)
    omega

/-! ## Concrete machines used as witnesses -/

/-- The table of the repository's README and tests: prints `0 1 0 1 ...`. -/
def exampleInput : MachineInput :=
  { MConfigurations :=
      [ ⟨gs "b", [gs " "], [gs "P0", gs "R"], gs "c"⟩,
        ⟨gs "c", [gs " "], [gs "R"], gs "e"⟩,
        ⟨gs "e", [gs " "], [gs "P1", gs "R"], gs "k"⟩,
        ⟨gs "k", [gs " "], [gs "R"], gs "b"⟩ ] }

/-- A machine that is already halted. -/
def haltedMachine : Machine :=
  { mConfigurations := []
    tape := []
    noneSymbol := noneSy
    scannedSquare := 0
    currentMConfigurationName := gs "b"
    halted := true }

/-- A machine with an empty table: its first `Move` halts it. -/
def noRowMachine : Machine :=
  { mConfigurations := []
    tape := []
    noneSymbol := noneSy
    scannedSquare := 0
    currentMConfigurationName := gs "b"
    halted := false }

/-! ## Claim theorems for the engine -/

/-- C6: on each `Move` the machine applies the first m-configuration in
table order whose name equals the current state and whose symbol list
matches the scanned symbol (`findMConfiguration` is a first-match scan by
the `rowMatches` predicate); an exactly listed symbol always matches, and
when the scanned symbol is the blank symbol a row matches only if it lists
the blank explicitly (`*` and `!x` never match the blank). -/
theorem C6_first_match_semantics (mcs : List MConfiguration)
    (name symbol ns : GoStr) :
    findMConfiguration mcs name symbol ns
      = mcs.find? (fun mc => rowMatches mc name symbol ns)
    ∧ (∀ mc : MConfiguration, mc.Name = name → symbol ∈ mc.Symbols →
        rowMatches mc name symbol ns = true)
    ∧ (∀ mc : MConfiguration,
        rowMatches mc name ns ns = true ↔ (mc.Name = name ∧ ns ∈ mc.Symbols)) := by
  refine ⟨findMConfiguration_eq_find? mcs name symbol ns, ?_, ?_⟩
  · intro mc hn hs
    simp only [rowMatches, decide_eq_true_eq]
    exact ⟨hn, Or.inl hs⟩
  · intro mc
    simp only [rowMatches, decide_eq_true_eq]
    constructor
    · rintro ⟨hn, hin | ⟨hne, _⟩⟩
      · exact ⟨hn, hin⟩
      · exact absurd rfl hne
    · rintro ⟨hn, hin⟩
      exact ⟨hn, Or.inl hin⟩

/-- Witness for C6 at the README table, scanning the blank symbol in state
`b`. -/
theorem C6_first_match_semantics_witness :
    (findMConfiguration exampleInput.MConfigurations (gs "b") (gs " ") (gs " ")
      = exampleInput.MConfigurations.find?
          (fun mc => rowMatches mc (gs "b") (gs " ") (gs " ")))
    ∧ rowMatches ⟨gs "b", [gs " "], [gs "P0", gs "R"], gs "c"⟩
        (gs "b") (gs " ") (gs " ") = true
    ∧ (rowMatches ⟨gs "b", [anySy], [], gs "c"⟩ (gs "b") (gs " ") (gs " ") = true
        ↔ ((⟨gs "b", [anySy], [], gs "c"⟩ : MConfiguration).Name = gs "b"
            ∧ gs " " ∈ (⟨gs "b", [anySy], [], gs "c"⟩ : MConfiguration).Symbols)) :=
  ⟨(C6_first_match_semantics exampleInput.MConfigurations (gs "b") (gs " ") (gs " ")).1,
   (C6_first_match_semantics exampleInput.MConfigurations (gs "b") (gs " ") (gs " ")).2.1
     ⟨gs "b", [gs " "], [gs "P0", gs "R"], gs "c"⟩ rfl (by decide),
   (C6_first_match_semantics exampleInput.MConfigurations (gs "b") (gs "x") (gs " ")).2.2
     ⟨gs "b", [anySy], [], gs "c"⟩⟩

/-- C7: once a `Move` finds no matching m-configuration the halted flag is
set, and a halted machine is left completely unchanged by every further
`Move` and `MoveN`. -/
theorem C7_halting_permanent (m : Machine) (n : Nat) :
    (m.halted = true → m.Move = m)
    ∧ (m.halted = true → (m.MoveN n).1 = m)
    ∧ (m.halted = false →
        findMConfiguration m.extendTapeIfNeeded.mConfigurations
          m.extendTapeIfNeeded.currentMConfigurationName
          (m.extendTapeIfNeeded.tape.getD m.extendTapeIfNeeded.scannedSquare.toNat [])
          m.extendTapeIfNeeded.noneSymbol = none →
        m.Move.halted = true) := by
  refine ⟨Move_of_halted m, fun h => MoveN_fst_of_halted m h n, ?_⟩
  intro h hf
  simp only [Machine.Move]
  rw [if_neg (by simp [h])]
  rw [hf]

/-- Witness for C7: a halted machine is a fixed point, and an empty-table
machine halts on its first move. -/
theorem C7_halting_permanent_witness :
    haltedMachine.Move = haltedMachine
    ∧ (haltedMachine.MoveN 5).1 = haltedMachine
    ∧ noRowMachine.Move.halted = true :=
  ⟨(C7_halting_permanent haltedMachine 5).1 rfl,
   (C7_halting_permanent haltedMachine 5).2.1 rfl,
   (C7_halting_permanent noRowMachine 5).2.2 rfl (by decide)⟩

/-- C8 as stated is false: an already-halted machine "executes zero steps",
but `MoveN 1` reports `1`, not `0` (the Go loop counts the very `Move` call
that observed the halted flag). -/
theorem C8_counterexample :
    haltedMachine.halted = true
    ∧ (haltedMachine.MoveN 1).2 = 1
    ∧ (haltedMachine.MoveN 1).2 ≠ 0 := by decide

/-- C8 (amended): `MoveN n` returns the machine after `n` moves, reports
`n` when the machine is not halted after any of the first `n` moves, and
otherwise reports the 1-based index of the first move after which the
machine is halted — the halting move itself is counted, so an
already-halted machine yields `1` for every `n ≥ 1`, not `0`. -/
theorem C8_moveN_count (m : Machine) (n : Nat) :
    ((m.MoveN n).1 = Machine.Move^[n] m)
    ∧ ((∀ j, 1 ≤ j → j ≤ n → (Machine.Move^[j] m).halted = false) →
        (m.MoveN n).2 = n)
    ∧ (∀ j, 1 ≤ j → j ≤ n → (Machine.Move^[j] m).halted = true →
        (∀ i, 1 ≤ i → i < j → (Machine.Move^[i] m).halted = false) →
        (m.MoveN n).2 = j)
    ∧ (m.halted = true → 1 ≤ n → (m.MoveN n).2 = 1) := by
  refine ⟨MoveN_fst m n, ?_, ?_, ?_⟩
  · intro hall
    induction n generalizing m with
    | zero => rfl
    | succ n ih =>
      have h1 : m.Move.halted = false := by
        have := hall 1 le_rfl (by omega)
        simpa using this
      rw [MoveN_succ_eq, if_neg (by simp [h1])]
      have : (m.Move.MoveN n).2 = n := by
        apply ih
        intro j hj1 hjn
        have := hall (j + 1) (by omega) (by omega)
        rwa [Function.iterate_succ_apply] at this
      simp [this]
  · intro j hj1 hjn hhalt hmin
    induction n generalizing m j with
    | zero => omega
    | succ n ih =>
      by_cases hM : m.Move.halted = true
      · have hj : j = 1 := by
          by_contra hne
          have h2 : 2 ≤ j := by omega
          have := hmin 1 le_rfl (by omega)
          simp only [Function.iterate_one] at this
          rw [hM] at this
          exact absurd this (by simp)
        subst hj
        rw [MoveN_succ_eq, if_pos hM]
      · have hjne : j ≠ 1 := by
          intro he
          subst he
          simp only [Function.iterate_one] at hhalt
          exact hM hhalt
        have hj2 : 2 ≤ j := by omega
        rw [MoveN_succ_eq, if_neg hM]
        have hrec : (m.Move.MoveN n).2 = j - 1 := by
          apply ih m.Move (j - 1) (by omega) (by omega)
          · rw [← Function.iterate_succ_apply]
            have h2 : (j - 1).succ = j := by omega
            rw [h2]
            exact hhalt
          · intro i hi1 hij
            have := hmin (i + 1) (by omega) (by omega)
            rwa [Function.iterate_succ_apply] at this
        simp only [hrec]
        omega
  · intro hh hn
    cases n with
    | zero => omega
    | succ n =>
      rw [MoveN_succ_eq, Move_of_halted m hh, if_pos hh]

/-- Witness for C8 (amended): the README machine reports 2 of 2 moves; a
halted machine reports 1. -/
theorem C8_moveN_count_witness :
    ((NewMachine exampleInput).MoveN 2).2 = 2 ∧ (haltedMachine.MoveN 3).2 = 1 :=
  ⟨(C8_moveN_count (NewMachine exampleInput) 2).2.1
     (by intro j h1 h2; interval_cases j <;> decide),
   (C8_moveN_count haltedMachine 3).2.2.2 rfl (by omega)⟩

/-- C10: from any machine state satisfying the inter-move invariant
(`scannedSquare ∈ [-1, tape length]`, established at construction and
preserved by every move), the extension performed before each tape access
puts the scanned square strictly inside the tape, every operation moves the
scanned square by at most one, and the invariant is preserved by
`performOperation`, `Move` and `MoveN` — so every tape read and write is in
bounds. -/
theorem C10_tape_access_safe (input : MachineInput) (m : Machine)
    (op : GoStr) (n : Nat) (h : Inv m) :
    Inv (NewMachine input)
    ∧ (0 ≤ m.extendTapeIfNeeded.scannedSquare ∧
        m.extendTapeIfNeeded.scannedSquare < (m.extendTapeIfNeeded.tape.length : Int))
    ∧ Inv (m.performOperation op)
    ∧ ((m.performOperation op).scannedSquare - m.extendTapeIfNeeded.scannedSquare ≤ 1 ∧
        m.extendTapeIfNeeded.scannedSquare - (m.performOperation op).scannedSquare ≤ 1)
    ∧ Inv m.Move
    ∧ Inv (m.MoveN n).1 :=
  ⟨NewMachine_Inv input, extend_bounds m h, performOperation_Inv m op h,
    performOperation_drift m op, Move_Inv m h, MoveN_Inv m n h⟩

/-- Witness for C10 at the README machine. -/
theorem C10_tape_access_safe_witness :
    0 ≤ (NewMachine exampleInput).extendTapeIfNeeded.scannedSquare ∧
      (NewMachine exampleInput).extendTapeIfNeeded.scannedSquare
        < ((NewMachine exampleInput).extendTapeIfNeeded.tape.length : Int) :=
  (C10_tape_access_safe exampleInput (NewMachine exampleInput) (gs "R") 3
    (by decide)).2.1

/-! ## The standard table (`standard.go`)

Go maps are modelled as insertion-ordered association lists; the repo only
inserts absent keys and looks keys up, so insertion order is the only
determinization added. -/

/-- Association-list lookup (first match). -/
def alookup (m : List (GoStr × GoStr)) (k : GoStr) : Option GoStr :=
  match m with
  | [] => none
  | (k1, v) :: rest => if k1 = k then some v else alookup rest k

/-- Mutable state of `standardTableCreator`.  The names map starts as a Go
`nil` map (modelled by `none`): its lazy initialization also bumps
`nameCount`, which is why standardized names start at `q1`. -/
structure STState where
  mConfigurationNames : Option (List (GoStr × GoStr))
  nameCount : Nat
  mConfigurationSymbols : List (GoStr × GoStr)
  symbolCount : Nat
deriving DecidableEq

def initSTState : STState :=
  { mConfigurationNames := none, nameCount := 0
    mConfigurationSymbols := [], symbolCount := 0 }

/-- `newMConfigurationName`: intern an m-configuration name as `q<i>`. -/
def newMConfigurationName (s0 : STState) (name : GoStr) : GoStr × STState :=
  let s :=
    match s0.mConfigurationNames with
    | none => { s0 with mConfigurationNames := some [], nameCount := s0.nameCount + 1 }
    | some _ => s0
  let names := s.mConfigurationNames.getD []
  match alookup names name with
  | some newName => (newName, s)
  | none =>
    let newName := 'q' :: itoa s.nameCount
    (newName,
      { s with mConfigurationNames := some (names ++ [(name, newName)])
               nameCount := s.nameCount + 1 })

/-- `newHiddenMConfigurationName`: a fresh `q<i>` that is not recorded. -/
def newHiddenMConfigurationName (s0 : STState) : GoStr × STState :=
  let s :=
    match s0.mConfigurationNames with
    | none => { s0 with mConfigurationNames := some [], nameCount := s0.nameCount + 1 }
    | some _ => s0
  ('q' :: itoa s.nameCount, { s with nameCount := s.nameCount + 1 })

/-- `newMConfigurationSymbol`: intern a symbol as `S<i>`. -/
def newMConfigurationSymbol (s : STState) (symbol : GoStr) : GoStr × STState :=
  match alookup s.mConfigurationSymbols symbol with
  | some v => (v, s)
  | none =>
    let newSymbol := 'S' :: itoa s.symbolCount
    (newSymbol,
      { s with mConfigurationSymbols := s.mConfigurationSymbols ++ [(symbol, newSymbol)]
               symbolCount := s.symbolCount + 1 })

/-- Inner loop of `expandStandardSymbols` for a `!x` entry: append the
interned versions of the vocabulary symbols excluded neither by the
`notSymbols` of the row nor already present in the accumulator. -/
def expandNotLoop (s : STState) (notSymbols acc : List GoStr) :
    List GoStr → List GoStr × STState
  | [] => (acc, s)
  | p :: rest =>
    if p ∉ notSymbols ∧ p ∉ acc then
      let r := newMConfigurationSymbol s p
      expandNotLoop r.2 notSymbols (acc ++ [r.1]) rest
    else expandNotLoop s notSymbols acc rest

/-- Inner loop of `expandStandardSymbols` for a `*` entry: intern the whole
vocabulary. -/
def expandAnyLoop (s : STState) (acc : List GoStr) :
    List GoStr → List GoStr × STState
  | [] => (acc, s)
  | p :: rest =>
    let r := newMConfigurationSymbol s p
    expandAnyLoop r.2 (acc ++ [r.1]) rest

/-- Main loop of `expandStandardSymbols` over the row's symbol entries. -/
def expandSymbolsLoop (s : STState) (possible notSymbols acc : List GoStr) :
    List GoStr → List GoStr × STState
  | [] => (acc, s)
  | symbol :: rest =>
    if symbol.contains '!' then
      let r := expandNotLoop s notSymbols acc possible
      expandSymbolsLoop r.2 possible notSymbols r.1 rest
    else if symbol = anySy then
      let r := expandAnyLoop s acc possible
      expandSymbolsLoop r.2 possible notSymbols r.1 rest
    else
      let r := newMConfigurationSymbol s symbol
      expandSymbolsLoop r.2 possible notSymbols (acc ++ [r.1]) rest

/-- `expandStandardSymbols`. -/
def expandStandardSymbols (s : STState) (possible originalSymbols : List GoStr) :
    List GoStr × STState :=
  expandSymbolsLoop s possible (notSymbolsOf originalSymbols) [] originalSymbols

/-- Loop of `expandStandardOperations`: split an operation list into one
print and one move per emitted pair. -/
def expandOpsLoop (s : STState) (looking : Bool) (printOps moveOps : List GoStr) :
    List GoStr → (List GoStr × List GoStr) × STState
  | [] => ((printOps, moveOps), s)
  | operation :: rest =>
    let code := operation.headD ' '
    if looking then
      if code = 'P' then
        let r := newMConfigurationSymbol s (operation.drop 1)
        let moveOps2 := if rest = [] then moveOps ++ [['N']] else moveOps
        expandOpsLoop r.2 false (printOps ++ ['P' :: r.1]) moveOps2 rest
      else if code = 'E' then
        let r := newMConfigurationSymbol s noneSy
        let moveOps2 := if rest = [] then moveOps ++ [['N']] else moveOps
        expandOpsLoop r.2 false (printOps ++ ['P' :: r.1]) moveOps2 rest
      else
        expandOpsLoop s true (printOps ++ [['P']]) (moveOps ++ [[code]]) rest
    else
      let mv := if code = 'L' ∨ code = 'R' then [code] else ['N']
      expandOpsLoop s true printOps (moveOps ++ [mv]) rest

/-- `expandStandardOperations`. -/
def expandStandardOperations (s : STState) (originalOperations : List GoStr) :
    (List GoStr × List GoStr) × STState :=
  if originalOperations = [] then (([['P']], [['N']]), s)
  else expandOpsLoop s true [] [] originalOperations

/-- `calculateStandardPrintOperation`: a bare `P` is a print-noop and
prints the scanned symbol. -/
def calculateStandardPrintOperation (printOperation currentSymbol : GoStr) : GoStr :=
  if printOperation = ['P'] then 'P' :: currentSymbol else printOperation

/-- Rows emitted for a hidden (intermediate) state: one per possible symbol
(including the blank). -/
def hiddenRowsLoop (s : STState) (printOp moveOp calculatedName calculatedFinal : GoStr)
    (acc : List MConfiguration) : List GoStr → List MConfiguration × STState
  | [] => (acc, s)
  | sym :: rest =>
    let r := newMConfigurationSymbol s sym
    let cPrint := calculateStandardPrintOperation printOp r.1
    hiddenRowsLoop r.2 printOp moveOp calculatedName calculatedFinal
      (acc ++ [⟨calculatedName, [r.1], [cPrint, moveOp], calculatedFinal⟩]) rest

/-- The loop over print/move pairs for one expanded symbol of one original
row (`for i := 0; i < len(printOperations); i++`). -/
def pairRowsLoop (s : STState) (possible : List GoStr)
    (currentSymbol finalName curName : GoStr) (isFirst : Bool)
    (acc : List MConfiguration) :
    List GoStr → List GoStr → List MConfiguration × STState
  | [], _ => (acc, s)
  | p :: prest, moves =>
    let mv := moves.headD []
    let rFin :=
      if prest = [] then (finalName, s) else newHiddenMConfigurationName s
    if isFirst then
      let cPrint := calculateStandardPrintOperation p currentSymbol
      pairRowsLoop rFin.2 possible currentSymbol finalName rFin.1 false
        (acc ++ [⟨curName, [currentSymbol], [cPrint, mv], rFin.1⟩]) prest (moves.drop 1)
    else
      let r := hiddenRowsLoop rFin.2 p mv curName rFin.1 [] (possible ++ [noneSy])
      pairRowsLoop r.2 possible currentSymbol finalName rFin.1 false
        (acc ++ r.1) prest (moves.drop 1)

/-- The loop over the expanded symbols of one original row. -/
def symbolRowsLoop (s : STState) (possible printOps moveOps : List GoStr)
    (name finalName : GoStr) (acc : List MConfiguration) :
    List GoStr → List MConfiguration × STState
  | [] => (acc, s)
  | cs :: rest =>
    let r := pairRowsLoop s possible cs finalName name true acc printOps moveOps
    symbolRowsLoop r.2 possible printOps moveOps name finalName r.1 rest

/-- The loop of `standardize` over the original rows. -/
def standardizeRowsLoop (s : STState) (possible : List GoStr)
    (acc : List MConfiguration) : List MConfiguration → List MConfiguration × STState
  | [] => (acc, s)
  | mc :: rest =>
    let r1 := expandStandardSymbols s possible mc.Symbols
    let r2 := expandStandardOperations r1.2 mc.Operations
    let r3 := newMConfigurationName r2.2 mc.Name
    let r4 := newMConfigurationName r3.2 mc.FinalMConfiguration
    let r5 := symbolRowsLoop r4.2 possible r2.1.1 r2.1.2 r3.1 r4.1 acc r1.1
    standardizeRowsLoop r5.2 possible r5.1 rest

/-- `newMConfigurationSymbols`: the interned symbol values (Go iterates the
map; the embedding uses insertion order, which no observable behaviour
depends on). -/
def newMConfigurationSymbolsList (s : STState) : List GoStr :=
  s.mConfigurationSymbols.map (·.2)

/-- `reverseMConfigurationSymbols`: the map from new symbols back to the
original ones. -/
def reverseMConfigurationSymbols (s : STState) : List (GoStr × GoStr) :=
  s.mConfigurationSymbols.map (fun kv => (kv.2, kv.1))

/-- `newStartingMConfiguration`. -/
def newStartingMConfiguration (s : STState) (input : MachineInput) : GoStr × STState :=
  if input.StartingMConfiguration = [] then ([], s)
  else newMConfigurationName s input.StartingMConfiguration

/-- `newTape`: translate the input tape through the (read-only) symbol map;
a missing key yields Go's zero value, the empty string. -/
def newTape (s : STState) (tape : List GoStr) : List GoStr :=
  tape.map (fun square => (alookup s.mConfigurationSymbols square).getD [])

/-- Character-to-digit table of the Description Number. -/
def sdCharToDNInt (c : Char) : Nat :=
  if c = 'A' then 1 else if c = 'C' then 2 else if c = 'D' then 3
  else if c = 'L' then 4 else if c = 'R' then 5 else if c = 'N' then 6
  else if c = ';' then 7 else 0

/-- Digit-to-character table (zero value for digits outside 1–7). -/
def dnIntToSDChar (i : Nat) : Char :=
  if i = 1 then 'A' else if i = 2 then 'C' else if i = 3 then 'D'
  else if i = 4 then 'L' else if i = 5 then 'R' else if i = 6 then 'N'
  else if i = 7 then ';' else Char.ofNat 0

/-- The Standard Description record of one standardized row. -/
def encodeRow (mc : MConfiguration) : GoStr :=
  [';', 'D'] ++ List.replicate ((atoi (mc.Name.drop 1)).getD 0) 'A'
    ++ ['D'] ++ List.replicate ((atoi ((mc.Symbols.headD []).drop 1)).getD 0) 'C'
    ++ ['D'] ++ List.replicate ((atoi ((mc.Operations.headD []).drop 2)).getD 0) 'C'
    ++ mc.Operations.getD 1 []
    ++ ['D'] ++ List.replicate ((atoi (mc.FinalMConfiguration.drop 1)).getD 0) 'A'

/-- `toStandardDescription`: serialize a standardized table (semicolon
per row, unary `A`/`C` counts, move letter, final state). -/
def toStandardDescription (input : MachineInput) : GoStr :=
  input.MConfigurations.flatMap encodeRow

/-- `toDescriptionNumber`. -/
def toDescriptionNumber (sd : GoStr) : GoStr :=
  sd.flatMap (fun c => itoa (sdCharToDNInt c))

/-- The result of `NewStandardTable`. -/
structure StandardTable where
  MachineInput : MachineInput
  SymbolMap : List (GoStr × GoStr)
  StandardDescription : GoStr
  DescriptionNumber : GoStr
deriving DecidableEq

/-- `standardize` / `NewStandardTable`. -/
def NewStandardTable (input : MachineInput) : StandardTable :=
  let r0 := newMConfigurationSymbol initSTState noneSy
  let r1 := standardizeRowsLoop r0.2 input.PossibleSymbols [] input.MConfigurations
  let rStart := newStartingMConfiguration r1.2 input
  let rNone := newMConfigurationSymbol rStart.2 noneSy
  let machineInput : MachineInput :=
    { MConfigurations := r1.1
      Tape := newTape r1.2 input.Tape
      StartingMConfiguration := rStart.1
      PossibleSymbols := newMConfigurationSymbolsList rStart.2
      NoneSymbol := rNone.1 }
  let sd := toStandardDescription machineInput
  { MachineInput := machineInput
    SymbolMap := reverseMConfigurationSymbols rNone.2
    StandardDescription := sd
    DescriptionNumber := toDescriptionNumber sd }

/-- `SymbolMap.TranslateTape`: translate a tape back to the original
symbols (a missing key contributes Go's zero value, the empty string). -/
def TranslateTape (sm : List (GoStr × GoStr)) (tape : List GoStr) : GoStr :=
  (tape.map (fun square => (alookup sm square).getD [])).flatten

set_option maxRecDepth 100000 in
/-- C2: on the README 4-row table, `NewStandardTable` produces exactly the
Standard Description and Description Number of the paper example, and the
standardized machine run for 100 moves and translated through the symbol
map prints `0 1 0 1 0 1 0 1 0 1 0 1` (prefix). -/
theorem C2_concrete_standard_table :
    (NewStandardTable exampleInput).StandardDescription
      = gs ";DADDCRDAA;DAADDRDAAA;DAAADDCCRDAAAA;DAAAADDRDA"
    ∧ (NewStandardTable exampleInput).DescriptionNumber
      = gs "73133253117311335311173111332253111173111133531"
    ∧ (TranslateTape (NewStandardTable exampleInput).SymbolMap
        ((NewMachine (NewStandardTable exampleInput).MachineInput).MoveN 100).1.tape).take 23
      = gs "0 1 0 1 0 1 0 1 0 1 0 1" := by decide

/-! ## Description-number decoding (`NewMachineFromDescriptionNumber`) -/

/-- Count and strip a leading run of `c`. -/
def eatRun (c : Char) : GoStr → Nat × GoStr
  | [] => (0, [])
  | x :: r =>
    if x = c then
      let t := eatRun c r
      (t.1 + 1, t.2)
    else (0, x :: r)

/-- Consume one block of the validation grammar `731+32*32*[456]31+`,
returning the rest of the string. -/
def validBlockFrom : GoStr → Option GoStr
  | x :: y :: r1 =>
    if x = '7' ∧ y = '3' then
      let ra := eatRun '1' r1
      if ra.1 = 0 then none
      else
        match ra.2 with
        | z :: r3 =>
          if z = '3' then
            let rb := eatRun '2' r3
            match rb.2 with
            | w :: r5 =>
              if w = '3' then
                let rc := eatRun '2' r5
                match rc.2 with
                | mv :: u :: r8 =>
                  if (mv = '4' ∨ mv = '5' ∨ mv = '6') ∧ u = '3' then
                    let rd := eatRun '1' r8
                    if rd.1 = 0 then none else some rd.2
                  else none
                | _ => none
              else none
            | _ => none
          else none
        | _ => none
    else none
  | _ => none

/-- Fueled iteration of `validBlockFrom` (the fuel only needs to exceed the
number of blocks; each block consumes at least one character). -/
def validFromF : Nat → GoStr → Bool
  | 0, _ => false
  | fuel + 1, s =>
    match validBlockFrom s with
    | none => false
    | some [] => true
    | some rest => validFromF fuel rest

/-- The structural validator of `NewMachineFromDescriptionNumber`: the
anchored regular expression `^(?:731+32*32*[456]31+)+$`. -/
def validDN (s : GoStr) : Bool := validFromF (s.length + 1) s

/-- `maxCharsRepeated` loop. -/
def maxCharsRepeatedLoop (ch : Char) (maxCount runningCount : Nat) : GoStr → Nat
  | [] => maxCount
  | b :: rest =>
    if b = ch then
      maxCharsRepeatedLoop ch (max maxCount (runningCount + 1)) (runningCount + 1) rest
    else maxCharsRepeatedLoop ch maxCount 0 rest

/-- `maxCharsRepeated`: length of the longest run of `ch`. -/
def maxCharsRepeated (s : GoStr) (ch : Char) : Nat := maxCharsRepeatedLoop ch 0 0 s

/-- Go's `strings.Split` on a single-character separator. -/
def splitOnChar (sep : Char) : GoStr → List GoStr
  | [] => [[]]
  | c :: r =>
    if c = sep then [] :: splitOnChar sep r
    else
      match splitOnChar sep r with
      | [] => [[c]]
      | h :: t => (c :: h) :: t

/-- One section of the reconstruction loop of
`NewMachineFromDescriptionNumber` (the body of its `mConfigurations`
loop). -/
def decodeSection (sec : GoStr) : MConfiguration :=
  let subsections := splitOnChar 'D' (sec.drop 1)
  { Name := 'q' :: itoa (subsections.headD []).length
    Symbols := ['S' :: itoa (subsections.getD 1 []).length]
    Operations := ['P' :: 'S' :: itoa ((subsections.getD 2 []).length - 1),
                   [(subsections.getD 2 []).getLastD ' ']]
    FinalMConfiguration := 'q' :: itoa (subsections.getLastD []).length }

/-- `NewMachineFromDescriptionNumber`: validate the digit string, then
reconstruct the standard-form table (no table is produced on error). -/
def NewMachineFromDescriptionNumber (dn : GoStr) : Except GoStr MachineInput :=
  if validDN dn = false then .error (gs "not a well defined Description Number")
  else if ¬ (dn.all fun c => (digitVal c).isSome) then .error (gs "Atoi error")
  else
    let standardDescription := dn.map (fun c => dnIntToSDChar ((digitVal c).getD 0))
    let mConfigurations := (splitOnChar ';' (standardDescription.drop 1)).map decodeSection
    let possibleSymbols := (List.range (maxCharsRepeated standardDescription 'C' + 1)).map
      (fun i => 'S' :: itoa i)
    .ok { MConfigurations := mConfigurations
          Tape := []
          StartingMConfiguration := []
          PossibleSymbols := possibleSymbols
          NoneSymbol := 'S' :: itoa 0 }

/-! ## Structure of accepted Description Numbers -/

theorem eatRun_spec (c : Char) (s : GoStr) :
    s = List.replicate (eatRun c s).1 c ++ (eatRun c s).2 := by
  induction s with
  | nil => rfl
  | cons x r ih =>
    by_cases h : x = c
    · simp only [eatRun, if_pos h]
      subst h
      simpa [List.replicate_succ] using congrArg (List.cons x) ih
    · simp [eatRun, if_neg h]

/-- One parsed block of the grammar. -/
structure DNBlock where
  a : Nat
  b : Nat
  c : Nat
  mv : Char
  d : Nat
deriving DecidableEq

/-- The digit string of one block. -/
def DNBlock.str (blk : DNBlock) : GoStr :=
  '7' :: '3' :: (List.replicate blk.a '1' ++
    '3' :: (List.replicate blk.b '2' ++
      '3' :: (List.replicate blk.c '2' ++
        blk.mv :: '3' :: List.replicate blk.d '1')))

/-- Constraints the grammar puts on a block. -/
def DNBlock.OK (blk : DNBlock) : Prop :=
  1 ≤ blk.a ∧ 1 ≤ blk.d ∧ (blk.mv = '4' ∨ blk.mv = '5' ∨ blk.mv = '6')

/-- The digit string of a block list. -/
def blocksStr (bs : List DNBlock) : GoStr := (bs.map DNBlock.str).flatten

theorem validBlockFrom_some (s r : GoStr) (h : validBlockFrom s = some r) :
    ∃ blk : DNBlock, blk.OK ∧ s = blk.str ++ r := by
  match s with
  | [] => simp [validBlockFrom] at h
  | [x] => simp [validBlockFrom] at h
  | x :: y :: r1 =>
    simp only [validBlockFrom] at h
    by_cases h73 : x = '7' ∧ y = '3'
    case neg =>
      rw [if_neg h73] at h
      exact Option.noConfusion h
    rw [if_pos h73] at h
    obtain ⟨hx, hy⟩ := h73
    subst hx
    subst hy
    have hr1 := eatRun_spec '1' r1
    revert h hr1
    generalize (eatRun '1' r1).1 = A
    generalize (eatRun '1' r1).2 = t1
    intro h hr1
    by_cases hA : A = 0
    · rw [if_pos hA] at h
      exact Option.noConfusion h
    rw [if_neg hA] at h
    cases t1 with
    | nil => exact Option.noConfusion h
    | cons z r3 =>
      dsimp only at h
      by_cases hz : z = '3'
      case neg =>
        rw [if_neg hz] at h
        exact Option.noConfusion h
      rw [if_pos hz] at h
      subst hz
      have hr3 := eatRun_spec '2' r3
      revert h hr3
      generalize (eatRun '2' r3).1 = B
      generalize (eatRun '2' r3).2 = t3
      intro h hr3
      cases t3 with
      | nil => exact Option.noConfusion h
      | cons w r5 =>
        dsimp only at h
        by_cases hw : w = '3'
        case neg =>
          rw [if_neg hw] at h
          exact Option.noConfusion h
        rw [if_pos hw] at h
        subst hw
        have hr5 := eatRun_spec '2' r5
        revert h hr5
        generalize (eatRun '2' r5).1 = C
        generalize (eatRun '2' r5).2 = t5
        intro h hr5
        cases t5 with
        | nil => exact Option.noConfusion h
        | cons mv t6 =>
          cases t6 with
          | nil =>
            dsimp only at h
            exact Option.noConfusion h
          | cons u r8 =>
            dsimp only at h
            by_cases hmv : (mv = '4' ∨ mv = '5' ∨ mv = '6') ∧ u = '3'
            case neg =>
              rw [if_neg hmv] at h
              exact Option.noConfusion h
            rw [if_pos hmv] at h
            obtain ⟨hmv4, hu⟩ := hmv
            subst hu
            have hr8 := eatRun_spec '1' r8
            revert h hr8
            generalize (eatRun '1' r8).1 = D
            generalize (eatRun '1' r8).2 = t8
            intro h hr8
            by_cases hD : D = 0
            · rw [if_pos hD] at h
              exact Option.noConfusion h
            rw [if_neg hD] at h
            have hr : t8 = r := by simpa using h
            subst hr
            refine ⟨⟨A, B, C, mv, D⟩,
              ⟨Nat.one_le_iff_ne_zero.mpr hA, Nat.one_le_iff_ne_zero.mpr hD, hmv4⟩, ?_⟩
            show '7' :: '3' :: r1 =
              ('7' :: '3' :: (List.replicate A '1' ++
                '3' :: (List.replicate B '2' ++
                  '3' :: (List.replicate C '2' ++
                    mv :: '3' :: List.replicate D '1')))) ++ t8
            rw [hr1, hr3, hr5, hr8]
            simp

theorem validFromF_blocks (fuel : Nat) (s : GoStr) (h : validFromF fuel s = true) :
    ∃ bs : List DNBlock, bs ≠ [] ∧ (∀ blk ∈ bs, blk.OK) ∧ s = blocksStr bs := by
  induction fuel generalizing s with
  | zero => simp [validFromF] at h
  | succ fuel ih =>
    simp only [validFromF] at h
    match hb : validBlockFrom s with
    | none => rw [hb] at h; exact absurd h (by simp)
    | some rest =>
      rw [hb] at h
      rcases validBlockFrom_some s rest hb with ⟨blk, hok, hs⟩
      match rest with
      | [] =>
        refine ⟨[blk], by simp, by simp [hok], ?_⟩
        simpa [blocksStr] using hs
      | q :: qrest =>
        have h2 : validFromF fuel (q :: qrest) = true := h
        rcases ih _ h2 with ⟨bs, hne, hbok, hrest⟩
        refine ⟨blk :: bs, by simp, ?_, ?_⟩
        · intro b hbmem
          rcases List.mem_cons.1 hbmem with h1 | h1
          · subst h1; exact hok
          · exact hbok b h1
        · rw [hs, hrest]
          simp [blocksStr]

/-- Every character of an accepted block string is a digit. -/
theorem blockStr_digits (blk : DNBlock) (hok : blk.OK) :
    ∀ ch ∈ blk.str, (digitVal ch).isSome = true := by
  intro ch hch
  have hdig : ch = '7' ∨ ch = '3' ∨ ch = '1' ∨ ch = '2' ∨ ch = blk.mv := by
    simp only [DNBlock.str, List.mem_cons, List.mem_append, List.mem_replicate] at hch
    tauto
  rcases hok with ⟨_, _, hmv⟩
  rcases hdig with h | h | h | h | h <;> subst h
  · decide
  · decide
  · decide
  · decide
  · rcases hmv with hm | hm | hm <;> rw [hm] <;> decide

/-- The validator only accepts digit strings, so the `Atoi` error path of
`NewMachineFromDescriptionNumber` is unreachable. -/
theorem validDN_digits (dn : GoStr) (h : validDN dn = true) :
    (dn.all fun c => (digitVal c).isSome) = true := by
  rcases validFromF_blocks _ dn h with ⟨bs, _, hbok, hdn⟩
  rw [hdn]
  rw [List.all_eq_true]
  intro ch hch
  rw [blocksStr] at hch
  rcases List.mem_flatten.1 hch with ⟨l, hl, hchl⟩
  rcases List.mem_map.1 hl with ⟨blk, hblk, rfl⟩
  exact blockStr_digits blk (hbok blk hblk) ch hchl

/-! ## Decoding an accepted Description Number, block by block -/

theorem splitOnChar_ne_nil (sep : Char) (s : GoStr) : splitOnChar sep s ≠ [] := by
  induction s with
  | nil => simp [splitOnChar]
  | cons c r ih =>
    simp only [splitOnChar]
    by_cases h : c = sep
    · simp [h]
    · rw [if_neg h]
      cases hs : splitOnChar sep r with
      | nil => simp
      | cons a t => simp

theorem splitOnChar_not_mem (sep : Char) (s : GoStr) (h : sep ∉ s) :
    splitOnChar sep s = [s] := by
  induction s with
  | nil => rfl
  | cons c r ih =>
    simp only [List.mem_cons, not_or] at h
    simp only [splitOnChar]
    rw [if_neg (fun he => h.1 he.symm)]
    rw [ih h.2]

theorem splitOnChar_append (sep : Char) (s t : GoStr) (h : sep ∉ s) :
    splitOnChar sep (s ++ sep :: t) = s :: splitOnChar sep t := by
  induction s with
  | nil => simp [splitOnChar]
  | cons c r ih =>
    simp only [List.mem_cons, not_or] at h
    simp only [List.cons_append, splitOnChar]
    rw [if_neg (fun he => h.1 he.symm)]
    simp only [List.append_eq]
    rw [ih h.2]

/-- The move letter a block decodes to. -/
def sdMv (blk : DNBlock) : Char := dnIntToSDChar ((digitVal blk.mv).getD 0)

theorem sdMv_cases (blk : DNBlock) (hok : blk.OK) :
    (blk.mv = '4' ∧ sdMv blk = 'L') ∨ (blk.mv = '5' ∧ sdMv blk = 'R')
      ∨ (blk.mv = '6' ∧ sdMv blk = 'N') := by
  rcases hok.2.2 with h | h | h
  · exact Or.inl ⟨h, by rw [sdMv, h]; decide⟩
  · exact Or.inr (Or.inl ⟨h, by rw [sdMv, h]; decide⟩)
  · exact Or.inr (Or.inr ⟨h, by rw [sdMv, h]; decide⟩)

/-- The grammar-string form of one block of the Standard Description. -/
def DNBlock.sdStr (blk : DNBlock) : GoStr :=
  ';' :: 'D' :: (List.replicate blk.a 'A' ++
    'D' :: (List.replicate blk.b 'C' ++
      'D' :: (List.replicate blk.c 'C' ++
        sdMv blk :: 'D' :: List.replicate blk.d 'A')))

/-- The block's Standard Description record without its leading `;`. -/
def DNBlock.sdTail (blk : DNBlock) : GoStr :=
  'D' :: (List.replicate blk.a 'A' ++
    'D' :: (List.replicate blk.b 'C' ++
      'D' :: (List.replicate blk.c 'C' ++
        sdMv blk :: 'D' :: List.replicate blk.d 'A')))

theorem sdStr_eq_cons (blk : DNBlock) : blk.sdStr = ';' :: blk.sdTail := rfl

/-- The m-configuration one block decodes to. -/
def DNBlock.row (blk : DNBlock) : MConfiguration :=
  { Name := 'q' :: itoa blk.a
    Symbols := ['S' :: itoa blk.b]
    Operations := ['P' :: 'S' :: itoa blk.c, [sdMv blk]]
    FinalMConfiguration := 'q' :: itoa blk.d }

/-- Translating the digits of one block to description characters gives its
Standard Description record. -/
theorem map_dn_block (blk : DNBlock) :
    blk.str.map (fun c => dnIntToSDChar ((digitVal c).getD 0)) = blk.sdStr := by
  simp only [DNBlock.str, DNBlock.sdStr, sdMv, List.map_cons, List.map_append,
    List.map_replicate]
  rfl

theorem semi_not_mem_sdTail (blk : DNBlock) (hok : blk.OK) : ';' ∉ blk.sdTail := by
  rcases sdMv_cases blk hok with ⟨_, h⟩ | ⟨_, h⟩ | ⟨_, h⟩ <;>
    simp [DNBlock.sdTail, List.mem_replicate, h]

/-- Splitting the concatenated records on `;` recovers the records. -/
theorem splitOnChar_semi_blocks (bs : List DNBlock) (hne : bs ≠ [])
    (hok : ∀ blk ∈ bs, blk.OK) :
    splitOnChar ';' (((bs.map DNBlock.sdStr).flatten).drop 1)
      = bs.map DNBlock.sdTail := by
  induction bs with
  | nil => exact absurd rfl hne
  | cons blk rest ih =>
    have hsem := semi_not_mem_sdTail blk (hok blk (by simp))
    cases rest with
    | nil =>
      simp only [List.map_cons, List.map_nil, List.flatten_cons, List.flatten_nil]
      rw [sdStr_eq_cons]
      simp only [List.cons_append, List.drop_succ_cons, List.drop_zero, List.append_nil]
      exact splitOnChar_not_mem ';' blk.sdTail hsem
    | cons blk2 rest2 =>
      have ih2 := ih (by simp) (fun b hb => hok b (by simp [hb]))
      have hX : ((blk2 :: rest2).map DNBlock.sdStr).flatten
          = ';' :: (((blk2 :: rest2).map DNBlock.sdStr).flatten.drop 1) := by
        simp [sdStr_eq_cons blk2]
      calc splitOnChar ';' ((((blk :: blk2 :: rest2).map DNBlock.sdStr).flatten).drop 1)
          = splitOnChar ';'
              (blk.sdTail ++ ((blk2 :: rest2).map DNBlock.sdStr).flatten) := by
            rw [List.map_cons, List.flatten_cons, sdStr_eq_cons]
            rfl
        _ = splitOnChar ';' (blk.sdTail ++ ';' ::
              (((blk2 :: rest2).map DNBlock.sdStr).flatten.drop 1)) := by
            rw [← hX]
        _ = blk.sdTail :: splitOnChar ';'
              (((blk2 :: rest2).map DNBlock.sdStr).flatten.drop 1) :=
            splitOnChar_append ';' _ _ hsem
        _ = blk.sdTail :: (blk2 :: rest2).map DNBlock.sdTail := by rw [ih2]
        _ = (blk :: blk2 :: rest2).map DNBlock.sdTail := by simp

/-- Splitting one record on `D` yields its four subsections. -/
theorem splitOnChar_D_tail (blk : DNBlock) (hok : blk.OK) :
    splitOnChar 'D' (blk.sdTail.drop 1)
      = [List.replicate blk.a 'A', List.replicate blk.b 'C',
         List.replicate blk.c 'C' ++ [sdMv blk], List.replicate blk.d 'A'] := by
  have hmv : sdMv blk ≠ 'D' := by
    rcases sdMv_cases blk hok with ⟨_, h⟩ | ⟨_, h⟩ | ⟨_, h⟩ <;> simp [h]
  have hA : 'D' ∉ List.replicate blk.a 'A' := by simp [List.mem_replicate]
  have hB : 'D' ∉ List.replicate blk.b 'C' := by simp [List.mem_replicate]
  have hC : 'D' ∉ List.replicate blk.c 'C' ++ [sdMv blk] := by
    intro hmem
    rcases List.mem_append.1 hmem with h1 | h1
    · exact absurd (List.eq_of_mem_replicate h1) (by decide)
    · simp only [List.mem_singleton] at h1
      exact hmv h1.symm
  have hD2 : 'D' ∉ List.replicate blk.d 'A' := by simp [List.mem_replicate]
  show splitOnChar 'D' (List.replicate blk.a 'A' ++
      'D' :: (List.replicate blk.b 'C' ++
        'D' :: (List.replicate blk.c 'C' ++
          sdMv blk :: 'D' :: List.replicate blk.d 'A'))) = _
  rw [splitOnChar_append 'D' _ _ hA, splitOnChar_append 'D' _ _ hB]
  have hsplit : List.replicate blk.c 'C' ++ sdMv blk :: 'D' :: List.replicate blk.d 'A'
      = (List.replicate blk.c 'C' ++ [sdMv blk]) ++ 'D' :: List.replicate blk.d 'A' := by
    simp
  rw [hsplit, splitOnChar_append 'D' _ _ hC, splitOnChar_not_mem 'D' _ hD2]

/-- Decoding one record of an accepted Description Number yields the
block's m-configuration. -/
theorem decodeSection_sdTail (blk : DNBlock) (hok : blk.OK) :
    decodeSection blk.sdTail = blk.row := by
  rw [decodeSection]
  rw [splitOnChar_D_tail blk hok]
  show ({ Name := 'q' :: itoa (List.replicate blk.a 'A').length,
          Symbols := ['S' :: itoa (List.replicate blk.b 'C').length],
          Operations := ['P' :: 'S' ::
              itoa ((List.replicate blk.c 'C' ++ [sdMv blk]).length - 1),
            [(List.replicate blk.c 'C' ++ [sdMv blk]).getLastD ' ']],
          FinalMConfiguration := 'q' :: itoa (List.replicate blk.d 'A').length }
        : MConfiguration) = blk.row
  rw [List.getLastD_concat]
  simp [DNBlock.row, List.length_replicate]

theorem map_dn_blocks (bs : List DNBlock) :
    ((bs.map DNBlock.str).flatten).map (fun c => dnIntToSDChar ((digitVal c).getD 0))
      = (bs.map DNBlock.sdStr).flatten := by
  induction bs with
  | nil => rfl
  | cons b r ih =>
    simp only [List.map_cons, List.flatten_cons, List.map_append, map_dn_block]
    rw [ih]

/-- The machine input an accepted block list decodes to. -/
theorem decode_blocks (bs : List DNBlock) (hne : bs ≠ []) (hok : ∀ blk ∈ bs, blk.OK)
    (hval : validDN (blocksStr bs) = true) :
    ∃ ps, NewMachineFromDescriptionNumber (blocksStr bs)
      = .ok { MConfigurations := bs.map DNBlock.row
              Tape := []
              StartingMConfiguration := []
              PossibleSymbols := ps
              NoneSymbol := 'S' :: itoa 0 } := by
  have hsd : (blocksStr bs).map (fun c => dnIntToSDChar ((digitVal c).getD 0))
      = (bs.map DNBlock.sdStr).flatten := by
    rw [blocksStr]
    exact map_dn_blocks bs
  have hrows : (splitOnChar ';'
        (((blocksStr bs).map (fun c => dnIntToSDChar ((digitVal c).getD 0))).drop 1)).map
          decodeSection
      = bs.map DNBlock.row := by
    rw [hsd, splitOnChar_semi_blocks bs hne hok, List.map_map]
    exact List.map_eq_map_iff.mpr (fun blk hblk => decodeSection_sdTail blk (hok blk hblk))
  rw [NewMachineFromDescriptionNumber]
  rw [if_neg (by simp [hval])]
  rw [if_neg (by simp [validDN_digits _ hval])]
  dsimp only
  refine ⟨(List.range (maxCharsRepeated
      ((blocksStr bs).map (fun c => dnIntToSDChar ((digitVal c).getD 0))) 'C' + 1)).map
        (fun i => 'S' :: itoa i), ?_⟩
  rw [hrows]

/-! ## Re-encoding a decoded table -/

theorem flatMap_replicate_single (n : Nat) (x c : Char) (g : Char → GoStr)
    (h : g x = [c]) :
    (List.replicate n x).flatMap g = List.replicate n c := by
  induction n with
  | zero => rfl
  | succ n ih =>
    simp only [List.replicate_succ, List.flatMap_cons, h, ih]
    rfl

/-- Re-encoding one decoded row reproduces its description record. -/
theorem encodeRow_row (blk : DNBlock) : encodeRow blk.row = blk.sdStr := by
  rw [encodeRow]
  simp only [DNBlock.row, List.headD_cons, List.getD, List.getElem?_cons_succ,
    List.getElem?_cons_zero, Option.getD_some]
  simp only [List.drop_succ_cons, List.drop_zero, atoi_itoa, Option.getD_some]
  simp [DNBlock.sdStr]

/-- Translating one description record back to digits reproduces the
block's digit string. -/
theorem sd_to_dn_block (blk : DNBlock) (hok : blk.OK) :
    blk.sdStr.flatMap (fun c => itoa (sdCharToDNInt c)) = blk.str := by
  have hmv : itoa (sdCharToDNInt (sdMv blk)) = [blk.mv] := by
    rcases sdMv_cases blk hok with ⟨h1, h2⟩ | ⟨h1, h2⟩ | ⟨h1, h2⟩ <;> rw [h2, h1] <;> decide
  simp only [DNBlock.sdStr, DNBlock.str, List.flatMap_cons, List.flatMap_append]
  rw [flatMap_replicate_single _ 'A' '1' _ (by decide)]
  rw [flatMap_replicate_single _ 'C' '2' _ (by decide)]
  rw [flatMap_replicate_single _ 'C' '2' _ (by decide)]
  rw [flatMap_replicate_single _ 'A' '1' _ (by decide)]
  rw [hmv]
  rfl

theorem flatMap_flatten (l : List GoStr) (g : Char → GoStr) :
    (l.flatten).flatMap g = (l.map (fun t => t.flatMap g)).flatten := by
  induction l with
  | nil => rfl
  | cons t rest ih =>
    simp only [List.flatten_cons, List.flatMap_append, ih, List.map_cons, List.flatten_cons]

/-- Re-encoding the full decoded table reproduces the digit string. -/
theorem reencode_blocks (mi : MachineInput) (bs : List DNBlock)
    (hok : ∀ blk ∈ bs, blk.OK)
    (hmi : mi.MConfigurations = bs.map DNBlock.row) :
    toDescriptionNumber (toStandardDescription mi) = blocksStr bs := by
  have hsd : toStandardDescription mi = (bs.map DNBlock.sdStr).flatten := by
    rw [toStandardDescription, hmi]
    show ((bs.map DNBlock.row).map encodeRow).flatten = _
    rw [List.map_map]
    congr 1
    exact List.map_eq_map_iff.mpr (fun blk _ => encodeRow_row blk)
  rw [hsd, toDescriptionNumber, blocksStr]
  rw [flatMap_flatten, List.map_map]
  congr 1
  exact List.map_eq_map_iff.mpr (fun blk hblk => sd_to_dn_block blk (hok blk hblk))

instance : DecidableEq (Except GoStr MachineInput) := fun a b =>
  match a, b with
  | .error x, .error y =>
    if h : x = y then isTrue (by rw [h]) else isFalse (fun he => h (Except.error.inj he))
  | .ok x, .ok y =>
    if h : x = y then isTrue (by rw [h]) else isFalse (fun he => h (Except.ok.inj he))
  | .error _, .ok _ => isFalse (fun he => Except.noConfusion he)
  | .ok _, .error _ => isFalse (fun he => Except.noConfusion he)

/-! ## Claims C3 and C4 -/

set_option maxRecDepth 100000 in
/-- C3: `NewMachineFromDescriptionNumber` fails exactly on digit strings
rejected by the structural grammar, and the error carries no reconstructed
table (the `Except` error constructor has no `MachineInput` component);
decoding `"1"` fails, decoding `"731332531"` succeeds and the resulting
machine run for 100 moves prints a tape starting `S1S1S1S1S1S1S1`. -/
theorem C3_decode_error_handling :
    (∀ dn : GoStr, validDN dn = false →
      NewMachineFromDescriptionNumber dn
        = .error (gs "not a well defined Description Number"))
    ∧ (∀ dn : GoStr, validDN dn = true →
        ∃ mi, NewMachineFromDescriptionNumber dn = .ok mi)
    ∧ NewMachineFromDescriptionNumber (gs "1")
        = .error (gs "not a well defined Description Number")
    ∧ (∃ mi, NewMachineFromDescriptionNumber (gs "731332531") = .ok mi ∧
        (((NewMachine mi).MoveN 100).1.TapeString.take 14 = gs "S1S1S1S1S1S1S1")) := by
  refine ⟨?_, ?_, ?_, ?_⟩
  · intro dn h
    rw [NewMachineFromDescriptionNumber, if_pos h]
  · intro dn h
    rw [NewMachineFromDescriptionNumber]
    rw [if_neg (by simp [h])]
    rw [if_neg (by simp [validDN_digits _ h])]
    exact ⟨_, rfl⟩
  · decide
  · exact ⟨_, rfl, by decide⟩

/-- Witness for C3 at the two concrete scenario inputs. -/
theorem C3_decode_error_handling_witness :
    NewMachineFromDescriptionNumber (gs "1")
      = .error (gs "not a well defined Description Number")
    ∧ ∃ mi, NewMachineFromDescriptionNumber (gs "731332531") = .ok mi :=
  ⟨C3_decode_error_handling.1 (gs "1") (by decide),
   C3_decode_error_handling.2.1 (gs "731332531") (by decide)⟩

/-- C4: re-encoding (`toStandardDescription` then `toDescriptionNumber`)
the table decoded from any Description Number accepted by the structural
validator reproduces the digit string exactly. -/
theorem C4_reencode_roundtrip (dn : GoStr) (h : validDN dn = true) :
    ∃ mi, NewMachineFromDescriptionNumber dn = .ok mi ∧
      toDescriptionNumber (toStandardDescription mi) = dn := by
  obtain ⟨bs, hne, hok, rfl⟩ := validFromF_blocks _ dn h
  obtain ⟨ps, hdec⟩ := decode_blocks bs hne hok h
  refine ⟨_, hdec, ?_⟩
  exact reencode_blocks _ bs hok rfl

/-- Witness for C4 at the first circle-free Description Number. -/
theorem C4_reencode_roundtrip_witness :
    ∃ mi, NewMachineFromDescriptionNumber (gs "731332531") = .ok mi ∧
      toDescriptionNumber (toStandardDescription mi) = gs "731332531" :=
  C4_reencode_roundtrip (gs "731332531") (by decide)

/-! ## The abbreviated table compiler (`abbreviated.go`)

The Go compiler recurses without any fuel; the embedding adds an explicit
fuel parameter that every nested call decrements, so "the Go program
terminates on this input" becomes "some fuel returns `some`". -/

/-- Loop of `parseMFunction` over the characters between the parentheses. -/
def parseLoop (rc : Int) (current : GoStr) (params : List GoStr) :
    GoStr → List GoStr
  | [] => params ++ [if current = [] then noneSy else current]
  | ch :: rest =>
    let current1 := if rc > 0 ∨ (ch ≠ ' ' ∧ ch ≠ ',') then current ++ [ch] else current
    let rc1 := if ch = '(' then rc + 1 else rc
    let rc2 := if ch = ')' then rc1 - 1 else rc1
    if rc2 = 0 ∧ ch = ',' then
      parseLoop rc2 [] (params ++ [if current1 = [] then noneSy else current1]) rest
    else parseLoop rc2 current1 params rest

/-- `parseMFunction`: split `f(a, b, x(y, z))` into `f` and
`["a", "b", "x(y, z)"]`. -/
def parseMFunction (mFunction : GoStr) : GoStr × List GoStr :=
  match mFunction.findIdx? (· = '(') with
  | none => (mFunction, [])
  | some i => (mFunction.take i, parseLoop 0 [] [] ((mFunction.drop (i + 1)).dropLast))

/-- `composeMFunction`. -/
def composeMFunction (name : GoStr) (params : List GoStr) : GoStr :=
  if params = [] then name
  else name ++ '(' :: (List.intercalate [','] params) ++ [')']

/-- Association-list insert with overwrite (later Go map writes win). -/
def alInsert (m : List (GoStr × GoStr)) (k v : GoStr) : List (GoStr × GoStr) :=
  match m with
  | [] => [(k, v)]
  | (k1, v1) :: rest => if k1 = k then (k1, v) :: rest else (k1, v1) :: alInsert rest k v

/-- `createSubstitutionMap`: zip keys and values (a repeated key keeps its
last value, as in a Go map). -/
def createSubstitutionMap (keys values : List GoStr) : List (GoStr × GoStr) :=
  (keys.zip values).foldl (fun m kv => alInsert m kv.1 kv.2) []

/-- `substituteSymbols`. -/
def substituteSymbols (subs : List (GoStr × GoStr)) (symbols : List GoStr) :
    List GoStr :=
  symbols.map (fun sym =>
    if sym.contains '!' then
      match alookup subs (sym.drop 1) with
      | some v => '!' :: v
      | none => sym
    else
      match alookup subs sym with
      | some v => v
      | none => sym)

/-- `substituteOperations` (a print operation's symbol is read as a single
character, `operation[1]`). -/
def substituteOperations (subs : List (GoStr × GoStr)) (ops : List GoStr) :
    List GoStr :=
  ops.map (fun op =>
    if op.headD ' ' = 'P' then
      match alookup subs [op.getD 1 ' '] with
      | some v => 'P' :: v
      | none => 'P' :: [op.getD 1 ' ']
    else op)

/-- `substituteFinalMConfigurationName`. -/
def substituteFinalMConfigurationName (subs : List (GoStr × GoStr))
    (name : GoStr) : GoStr :=
  (alookup subs name).getD name

/-- Fueled `substituteFinalMConfigurationParams` (the Go recursion descends
into nested invocations; parsed parameters are strictly shorter, so any
fuel above the total parameter length suffices). -/
def substFinalParamsF (subs : List (GoStr × GoStr)) :
    Nat → List GoStr → List GoStr
  | 0, _ => []
  | _ + 1, [] => []
  | fuel + 1, p :: rest =>
    let pr := parseMFunction p
    let newP :=
      if pr.2 = [] then substituteFinalMConfigurationName subs pr.1
      else composeMFunction pr.1 (substFinalParamsF subs fuel pr.2)
    newP :: substFinalParamsF subs fuel rest

/-- `substituteFinalMConfigurationParams`, with enough fuel for its input. -/
def substituteFinalMConfigurationParams (subs : List (GoStr × GoStr))
    (params : List GoStr) : List GoStr :=
  substFinalParamsF subs ((params.map List.length).sum + params.length + 1) params

/-- `isSymbolParam`. -/
def isSymbolParam (possible : List GoStr) (symbols mFunctionParams : List GoStr) :
    GoStr × Bool :=
  if symbols.length ≠ 1 then ([], false)
  else
    let symbol := symbols.headD []
    if symbol.contains '!' ∨ symbol.contains '*' then ([], false)
    else if symbol ∉ (possible ++ [noneSy]) ∧ symbol ∉ mFunctionParams then
      (symbol, true)
    else ([], false)

/-- Mutable state of the abbreviated-table compiler. -/
structure ATState where
  mConfigurationCount : Nat
  newMConfigurationNames : List (GoStr × GoStr)
  wasAlreadyInterpretedMap : List GoStr
  newMConfigurations : List MConfiguration
deriving DecidableEq

def initATState : ATState := ⟨0, [], [], []⟩

/-- `newMConfigurationName` of the abbreviated table: assign `q<i>` to a
fully resolved call signature, memoized. -/
def atNewMConfigurationName (st : ATState) (name : GoStr) (params : List GoStr) :
    GoStr × ATState :=
  let key := composeMFunction name params
  match alookup st.newMConfigurationNames key with
  | some v => (v, st)
  | none =>
    let newName := 'q' :: itoa st.mConfigurationCount
    (newName,
      { st with newMConfigurationNames := st.newMConfigurationNames ++ [(key, newName)]
                mConfigurationCount := st.mConfigurationCount + 1 })

/-- `wasAlreadyInterpreted`. -/
def wasAlreadyInterpreted (st : ATState) (name : GoStr) (params : List GoStr) : Bool :=
  composeMFunction name params ∈ st.wasAlreadyInterpretedMap

/-- `markAsInterpreted`. -/
def markAsInterpreted (st : ATState) (name : GoStr) (params : List GoStr) : ATState :=
  { st with wasAlreadyInterpretedMap :=
      st.wasAlreadyInterpretedMap ++ [composeMFunction name params] }

/-- `saveMConfiguration`. -/
def saveMConfiguration (st : ATState) (mc : MConfiguration) : ATState :=
  { st with newMConfigurations := st.newMConfigurations ++ [mc] }

/-- `findMFunctions`: all rows whose parsed name and arity match. -/
def findMFunctions (input : MachineInput) (name : GoStr) (numParams : Nat) :
    List MConfiguration :=
  input.MConfigurations.filter (fun mf =>
    (parseMFunction mf.Name).1 = name ∧ (parseMFunction mf.Name).2.length = numParams)

mutual

/-- Fueled `interpretMFunction`.  Returns the standardized name for the
signature and the updated state, or `none` when the fuel runs out (the Go
function would still be recursing). -/
def interpretMFunction (input : MachineInput) :
    Nat → GoStr → List GoStr → ATState → Option (GoStr × ATState)
  | 0, _, _, _ => none
  | fuel + 1, name, params, st0 =>
    let r := atNewMConfigurationName st0 name params
    if wasAlreadyInterpreted r.2 name params then some (r.1, r.2)
    else
      let st1 := markAsInterpreted r.2 name params
      match loopMFunctions input fuel (findMFunctions input name params.length)
          r.1 params st1 with
      | none => none
      | some rr => some (r.1, rr.2)

/-- The loop over matching m-function definitions (the Go `params` variable
persists across iterations, including the appends made for symbol
parameters). -/
def loopMFunctions (input : MachineInput) :
    Nat → List MConfiguration → GoStr → List GoStr → ATState →
      Option (List GoStr × ATState)
  | 0, _, _, _, _ => none
  | _ + 1, [], _, params, st => some (params, st)
  | fuel + 1, mf :: rest, newName, params, st =>
    let mFunctionParams := (parseMFunction mf.Name).2
    let sp := isSymbolParam input.PossibleSymbols mf.Symbols mFunctionParams
    let symbolValues := if sp.2 then input.PossibleSymbols ++ [noneSy] else [[]]
    match loopSymbolValues input fuel mf sp newName mFunctionParams params st
        symbolValues with
    | none => none
    | some rr => loopMFunctions input fuel rest newName rr.1 rr.2

/-- The loop over the enumerated symbol values of one definition. -/
def loopSymbolValues (input : MachineInput) :
    Nat → MConfiguration → GoStr × Bool → GoStr → List GoStr → List GoStr →
      ATState → List GoStr → Option (List GoStr × ATState)
  | 0, _, _, _, _, _, _, _ => none
  | _ + 1, _, _, _, _, params, st, [] => some (params, st)
  | fuel + 1, mf, sp, newName, mFunctionParams, params, st, symbolValue :: svRest =>
    let mFunctionParams1 := if sp.2 then mFunctionParams ++ [sp.1] else mFunctionParams
    let params1 := if sp.2 then params ++ [symbolValue] else params
    let substitutionMap := createSubstitutionMap mFunctionParams1 params1
    let pr := parseMFunction mf.FinalMConfiguration
    let substName := substituteFinalMConfigurationName substitutionMap pr.1
    let substParams := substituteFinalMConfigurationParams substitutionMap pr.2
    let recResult :=
      if substParams = [] then
        interpretMFunction input fuel (parseMFunction substName).1
          (parseMFunction substName).2 st
      else
        interpretMFunction input fuel substName substParams st
    match recResult with
    | none => none
    | some rr =>
      let st3 := saveMConfiguration rr.2
        ⟨newName, substituteSymbols substitutionMap mf.Symbols,
          substituteOperations substitutionMap mf.Operations, rr.1⟩
      loopSymbolValues input fuel mf sp newName mFunctionParams1 params1 st3 svRest

end

/-- The comparison of `sortedNewMConfigurations`: numeric part of the
`q<i>` name. -/
def atSortLe (a b : MConfiguration) : Bool :=
  decide ((atoi (a.Name.drop 1)).getD 0 ≤ (atoi (b.Name.drop 1)).getD 0)

def insertRow (mc : MConfiguration) : List MConfiguration → List MConfiguration
  | [] => [mc]
  | y :: r => if atSortLe mc y then mc :: y :: r else y :: insertRow mc r

def sortRows : List MConfiguration → List MConfiguration
  | [] => []
  | mc :: r => insertRow mc (sortRows r)

/-- `sortedNewMConfigurations`: sort the produced rows by the numeric part
of their `q<i>` names (Go uses `slices.SortFunc`, which leaves the order of
equal keys unspecified; the embedding uses a deterministic sort). -/
def sortedNewMConfigurations (st : ATState) : List MConfiguration :=
  sortRows st.newMConfigurations

/-- Loop of `toMachineInput` over the rows that are not m-functions. -/
def loopPlainRows (input : MachineInput) (fuel : Nat) :
    ATState → List MConfiguration → Option ATState
  | st, [] => some st
  | st, mc :: rest =>
    if mc.Name.contains '(' then loopPlainRows input fuel st rest
    else
      match interpretMFunction input fuel mc.Name [] st with
      | none => none
      | some rr => loopPlainRows input fuel rr.2 rest

/-- Fueled `NewAbbreviatedTable` / `toMachineInput`. -/
def NewAbbreviatedTableF (fuel : Nat) (input : MachineInput) : Option MachineInput :=
  match loopPlainRows input fuel initATState input.MConfigurations with
  | none => none
  | some st =>
    let r :=
      if input.StartingMConfiguration ≠ [] then
        atNewMConfigurationName st input.StartingMConfiguration []
      else ([], st)
    some { MConfigurations := sortedNewMConfigurations r.2
           Tape := input.Tape
           StartingMConfiguration := r.1
           PossibleSymbols := input.PossibleSymbols
           NoneSymbol := input.NoneSymbol }

/-- Termination of the Go compiler on an input = some fuel suffices. -/
def NewAbbreviatedTableTerminates (input : MachineInput) : Prop :=
  ∃ fuel, (NewAbbreviatedTableF fuel input).isSome

theorem atNewName_wasMap (st : ATState) (n : GoStr) (p : List GoStr) :
    ((atNewMConfigurationName st n p).2).wasAlreadyInterpretedMap
      = st.wasAlreadyInterpretedMap := by
  simp only [atNewMConfigurationName]
  cases h : alookup st.newMConfigurationNames (composeMFunction n p) <;> rfl

theorem atNewName_rows (st : ATState) (n : GoStr) (p : List GoStr) :
    ((atNewMConfigurationName st n p).2).newMConfigurations
      = st.newMConfigurations := by
  simp only [atNewMConfigurationName]
  cases h : alookup st.newMConfigurationNames (composeMFunction n p) <;> rfl

theorem composeMFunction_singleton (name p : GoStr) :
    composeMFunction name [p] = name ++ '(' :: (p ++ [')']) := by
  rw [composeMFunction, if_neg (by simp)]
  simp [List.intercalate]

theorem composeMFunction_singleton_length (name p : GoStr) :
    (composeMFunction name [p]).length = name.length + p.length + 2 := by
  rw [composeMFunction_singleton]
  simp
  omega

/-! ## Claim C9: unresolvable invocations compile to terminal states -/

/-- A macro table whose only row sends the machine to an invocation `g`
that matches no definition. -/
def undefInvocationInput : MachineInput :=
  { MConfigurations := [⟨gs "b", [gs " "], [gs "P0"], gs "g"⟩] }

theorem findMConfiguration_none_of_no_name (mcs : List MConfiguration)
    (name symbol ns : GoStr) (h : ∀ mc ∈ mcs, mc.Name ≠ name) :
    findMConfiguration mcs name symbol ns = none := by
  induction mcs with
  | nil => rfl
  | cons mc rest ih =>
    have hmc : mc.Name ≠ name := h mc (by simp)
    simp only [findMConfiguration]
    rw [if_neg (fun hc => hmc hc.1), if_neg (fun hc => hmc hc.1),
      if_neg (fun hc => hmc hc.1)]
    exact ih (fun mc2 h2 => h mc2 (by simp [h2]))

/-- C9: an invocation whose name and arity match no definition compiles
without error: `interpretMFunction` succeeds, assigns the signature its
(fresh or memoized) plain name and emits no rows for it; a machine whose
current state has no rows simply halts on the next move; and concretely,
the one-row table sending `b` to the undefined invocation `g` compiles to
a machine that reaches the terminal state `q1` (for which no rows exist)
and halts. -/
theorem C9_undefined_invocation (input : MachineInput) (fuel : Nat)
    (name : GoStr) (params : List GoStr) (st : ATState) (m : Machine)
    (hfind : findMFunctions input name params.length = [])
    (hm : m.halted = false)
    (hno : ∀ mc ∈ m.mConfigurations, mc.Name ≠ m.currentMConfigurationName) :
    (∃ st2, interpretMFunction input (fuel + 2) name params st
        = some ((atNewMConfigurationName st name params).1, st2)
      ∧ st2.newMConfigurations = st.newMConfigurations)
    ∧ m.Move.halted = true
    ∧ (∃ mi, NewAbbreviatedTableF 50 undefInvocationInput = some mi
        ∧ (NewMachine mi).Move.currentMConfigurationName = gs "q1"
        ∧ (∀ mc ∈ mi.MConfigurations, mc.Name ≠ gs "q1")
        ∧ ((NewMachine mi).MoveN 5).1.halted = true
        ∧ ((NewMachine mi).MoveN 5).2 = 2) := by
  refine ⟨?_, ?_, ?_⟩
  · simp only [interpretMFunction]
    by_cases hmemo : wasAlreadyInterpreted
        (atNewMConfigurationName st name params).2 name params = true
    · rw [if_pos hmemo]
      exact ⟨_, rfl, atNewName_rows st name params⟩
    · rw [if_neg hmemo]
      rw [hfind]
      simp only [loopMFunctions]
      refine ⟨_, rfl, ?_⟩
      show (markAsInterpreted (atNewMConfigurationName st name params).2 name
          params).newMConfigurations = st.newMConfigurations
      rw [markAsInterpreted]
      exact atNewName_rows st name params
  · simp only [Machine.Move]
    rw [if_neg (by simp [hm])]
    rw [findMConfiguration_none_of_no_name _ _ _ _ (by
      have hk := extend_keeps m
      rw [hk.1, hk.2.2.1]
      exact hno)]
  · exact ⟨_, rfl, by decide, by decide, by decide, by decide⟩

/-- Witness for C9, applying the theorem at the concrete undefined-`g`
table and at a concrete machine standing in state `b` with no rows. -/
theorem C9_undefined_invocation_witness :
    (∃ st2, interpretMFunction undefInvocationInput 12 (gs "g") [] initATState
        = some ((atNewMConfigurationName initATState (gs "g") []).1, st2)
      ∧ st2.newMConfigurations = initATState.newMConfigurations)
    ∧ noRowMachine.Move.halted = true :=
  ⟨(C9_undefined_invocation undefInvocationInput 10 (gs "g") [] initATState
      noRowMachine (by decide) rfl (by intro mc hmc; simp [noRowMachine] at hmc)).1,
   (C9_undefined_invocation undefInvocationInput 10 (gs "g") [] initATState
      noRowMachine (by decide) rfl (by intro mc hmc; simp [noRowMachine] at hmc)).2.1⟩

/-! ## Claim C5: memoized expansion and (non-)termination -/

/-- The skip-on-revisit behaviour of the compiler: a signature that is
already in the interpreted set is not expanded again — the call returns
immediately with the signature's assigned name, emitting no rows and
re-marking nothing. -/
theorem C5_memoized_signatures (input : MachineInput) (fuel : Nat)
    (name : GoStr) (params : List GoStr) (st : ATState)
    (h : wasAlreadyInterpreted st name params = true) :
    interpretMFunction input (fuel + 1) name params st
      = some ((atNewMConfigurationName st name params).1,
              (atNewMConfigurationName st name params).2)
    ∧ ((atNewMConfigurationName st name params).2).newMConfigurations
        = st.newMConfigurations
    ∧ ((atNewMConfigurationName st name params).2).wasAlreadyInterpretedMap
        = st.wasAlreadyInterpretedMap
    ∧ (∀ v, alookup st.newMConfigurationNames (composeMFunction name params) = some v →
        (atNewMConfigurationName st name params).1 = v) := by
  refine ⟨?_, atNewName_rows st name params, atNewName_wasMap st name params, ?_⟩
  · simp only [interpretMFunction]
    rw [if_pos (by rw [show wasAlreadyInterpreted
        (atNewMConfigurationName st name params).2 name params
        = wasAlreadyInterpreted st name params from by
          rw [wasAlreadyInterpreted, wasAlreadyInterpreted, atNewName_wasMap]]; exact h)]
  · intro v hv
    rw [atNewMConfigurationName]
    rw [hv]

/-- The self-nesting macro table `b -> f(b)`, `f(x) -> f(f(x))`: each
expansion of `f` recurses on a strictly longer signature, so the signature
memo never hits and the Go compiler recurses forever. -/
def selfNestingInput : MachineInput :=
  { MConfigurations := [⟨gs "b", [gs " "], [], gs "f(b)"⟩,
                        ⟨gs "f(x)", [gs " "], [], gs "f(f(x))"⟩] }

/-- Expanding `f(p)` in the self-nesting table runs out of any fuel: every
signature in the interpreted set is shorter than the signature `f(p)`, so
the memo is never hit and each step recurses on the longer `f(f(p))`. -/
theorem interp_f_diverges : ∀ fuel p st,
    (∀ k ∈ st.wasAlreadyInterpretedMap, k.length < p.length + 3) →
    interpretMFunction selfNestingInput fuel (gs "f") [p] st = none := by
  intro fuel
  induction fuel using Nat.strong_induction_on with
  | _ fuel ih =>
    intro p st hinv
    match fuel with
    | 0 => rfl
    | n + 1 =>
      simp only [interpretMFunction]
      have hkey : (composeMFunction (gs "f") [p]).length = p.length + 3 := by
        rw [composeMFunction_singleton_length]
        simp [gs]
        omega
      have hmemo : wasAlreadyInterpreted
          (atNewMConfigurationName st (gs "f") [p]).2 (gs "f") [p] = false := by
        simp only [wasAlreadyInterpreted, atNewName_wasMap, decide_eq_false_iff_not]
        intro hmem
        have h2 := hinv _ hmem
        omega
      rw [if_neg (by simp [hmemo])]
      have hfind : findMFunctions selfNestingInput (gs "f") (List.length [p])
          = [⟨gs "f(x)", [gs " "], [], gs "f(f(x))"⟩] := by
        show findMFunctions selfNestingInput (gs "f") 1 = _
        decide
      rw [hfind]
      match n with
      | 0 => rfl
      | m + 1 =>
        simp only [loopMFunctions]
        have hsp : isSymbolParam selfNestingInput.PossibleSymbols [gs " "]
            (parseMFunction (gs "f(x)")).2 = ([], false) := by decide
        rw [hsp]
        rw [if_neg (by decide)]
        match m with
        | 0 => rfl
        | j + 1 =>
          simp only [loopSymbolValues, Bool.false_eq_true, if_false]
          have hparse1 : (parseMFunction (gs "f(x)")).2 = [gs "x"] := by decide
          have hparse2 : parseMFunction (gs "f(f(x))") = (gs "f", [gs "f(x)"]) := by decide
          rw [hparse1, hparse2]
          have hcs : createSubstitutionMap [gs "x"] [p] = [(gs "x", p)] := rfl
          rw [hcs]
          have hsn : substituteFinalMConfigurationName [(gs "x", p)] (gs "f", [gs "f(x)"]).1
              = gs "f" := rfl
          rw [hsn]
          have hsubstp : substituteFinalMConfigurationParams [(gs "x", p)] (gs "f", [gs "f(x)"]).2
              = [composeMFunction (gs "f") [p]] := rfl
          rw [hsubstp]
          rw [if_neg (by simp)]
          have hrec : interpretMFunction selfNestingInput j (gs "f")
              [composeMFunction (gs "f") [p]]
              (markAsInterpreted (atNewMConfigurationName st (gs "f") [p]).2 (gs "f") [p])
              = none := by
            apply ih j (by omega)
            intro k hk
            have hwm : (markAsInterpreted (atNewMConfigurationName st (gs "f") [p]).2
                (gs "f") [p]).wasAlreadyInterpretedMap
                = st.wasAlreadyInterpretedMap ++ [composeMFunction (gs "f") [p]] := by
              rw [markAsInterpreted, atNewName_wasMap]
            rw [hwm] at hk
            rcases List.mem_append.1 hk with h1 | h1
            · have := hinv _ h1
              omega
            · simp only [List.mem_singleton] at h1
              subst h1
              omega
          rw [hrec]

/-- Interpreting the starting row `b` of the self-nesting table runs into
the diverging expansion of `f`. -/
theorem interp_b_none (fuel : Nat) :
    interpretMFunction selfNestingInput fuel (gs "b") [] initATState = none := by
  match fuel with
  | 0 => rfl
  | n + 1 =>
    simp only [interpretMFunction]
    rw [if_neg (by decide)]
    have hfind : findMFunctions selfNestingInput (gs "b") (List.length ([] : List GoStr))
        = [⟨gs "b", [gs " "], [], gs "f(b)"⟩] := by decide
    rw [hfind]
    match n with
    | 0 => rfl
    | m + 1 =>
      simp only [loopMFunctions]
      have hsp : isSymbolParam selfNestingInput.PossibleSymbols [gs " "]
          (parseMFunction (gs "b")).2 = ([], false) := by decide
      rw [hsp]
      rw [if_neg (by decide)]
      match m with
      | 0 => rfl
      | j + 1 =>
        simp only [loopSymbolValues, Bool.false_eq_true, if_false]
        have hparse1 : (parseMFunction (gs "b")).2 = [] := by decide
        have hparse2 : parseMFunction (gs "f(b)") = (gs "f", [gs "b"]) := by decide
        rw [hparse1, hparse2]
        have hcs : createSubstitutionMap [] [] = [] := rfl
        rw [hcs]
        have hsn : substituteFinalMConfigurationName [] (gs "f", [gs "b"]).1 = gs "f" := rfl
        rw [hsn]
        have hsubstp : substituteFinalMConfigurationParams [] (gs "f", [gs "b"]).2
            = [gs "b"] := rfl
        rw [hsubstp]
        rw [if_neg (by simp)]
        have hrec : interpretMFunction selfNestingInput j (gs "f") [gs "b"]
            (markAsInterpreted (atNewMConfigurationName initATState (gs "b") []).2 (gs "b") [])
            = none := by
          apply interp_f_diverges
          intro k hk
          have hwm : (markAsInterpreted (atNewMConfigurationName initATState (gs "b") []).2
              (gs "b") []).wasAlreadyInterpretedMap = [gs "b"] := by decide
          rw [hwm] at hk
          simp only [List.mem_singleton] at hk
          subst hk
          decide
        rw [hrec]

/-- C5 fails on the code: the compiler does not terminate on every finite
macro table.  On the self-nesting table no amount of fuel completes
`NewAbbreviatedTable` (the Go original overflows the stack on it). -/
theorem C5_counterexample : ¬ NewAbbreviatedTableTerminates selfNestingInput := by
  rintro ⟨fuel, hsome⟩
  rw [NewAbbreviatedTableF] at hsome
  have hrows : loopPlainRows selfNestingInput fuel initATState
      selfNestingInput.MConfigurations = none := by
    show loopPlainRows selfNestingInput fuel initATState
      [⟨gs "b", [gs " "], [], gs "f(b)"⟩, ⟨gs "f(x)", [gs " "], [], gs "f(f(x))"⟩] = none
    simp only [loopPlainRows]
    rw [if_neg (by decide)]
    rw [interp_b_none fuel]
  rw [hrows] at hsome
  exact absurd hsome (by decide)

/-! ## Claim C1: the standardized machine refines the original machine

The refinement holds step-for-step for well-formed tables whose rows carry
at most one print/erase followed by at most one move (Turing's acceptable
forms, the comment on `expandStandardOperations`).  A row needing several
print/move pairs is expanded through hidden states, each consuming an extra
move of the standardized machine, so running both machines for the *same*
`k` diverges — the counterexample below. -/

/-- A one-row table whose operations `P1, R, P1` need two print/move
pairs. -/
def multiOpInput : MachineInput :=
  { MConfigurations := [⟨gs "b", [gs " "], [gs "P1", gs "R", gs "P1"], gs "b"⟩]
    PossibleSymbols := [gs "1"] }

/-- The concrete symbols an original row's symbol list matches, in the
order `expandStandardSymbols` enumerates them. -/
def matchList (ps vocab : List GoStr) : List GoStr :=
  ps.flatMap (fun entry =>
    if entry.contains '!' then vocab.filter (fun p => p ∉ notSymbolsOf ps)
    else if entry = anySy then vocab
    else [entry])

/-- The symbol a single-pair operation list prints (`none` = print-noop). -/
def rowPrintSym (ops : List GoStr) : Option GoStr :=
  match ops with
  | [] => none
  | op :: _ =>
    if op.headD ' ' = 'P' then some (op.drop 1)
    else if op = ['E'] then some noneSy
    else none

/-- The move of a single-pair operation list. -/
def rowMove (ops : List GoStr) : GoStr :=
  match ops with
  | [] => ['N']
  | [op] => if op.headD ' ' = 'P' ∨ op = ['E'] then ['N'] else op
  | _ :: op2 :: _ => op2

/-- The standardized row emitted for original row `r` and matched symbol
`y`, expressed through the final interning maps. -/
def stdRowFor (σf νf : GoStr → GoStr) (r : MConfiguration) (y : GoStr) :
    MConfiguration :=
  { Name := νf r.Name
    Symbols := [σf y]
    Operations := ['P' :: (match rowPrintSym r.Operations with
        | some sy => σf sy
        | none => σf y), rowMove r.Operations]
    FinalMConfiguration := νf r.FinalMConfiguration }

/-- Turing's acceptable single-step operation forms: at most one print or
erase, followed by at most one move, with printed symbols drawn from the
vocabulary (or the blank). -/
def stdFormOps (vocab : List GoStr) (ops : List GoStr) : Prop :=
  match ops with
  | [] => True
  | [op] => op = ['E'] ∨ op = ['R'] ∨ op = ['L']
      ∨ (op.headD ' ' = 'P' ∧ (op.drop 1 ∈ vocab ∨ op.drop 1 = noneSy))
  | [op1, op2] =>
      (op1 = ['E'] ∨ (op1.headD ' ' = 'P' ∧ (op1.drop 1 ∈ vocab ∨ op1.drop 1 = noneSy)))
        ∧ (op2 = ['R'] ∨ op2 = ['L'])
  | _ => False

/-- A well-formed symbol-column entry: an exact vocabulary symbol or the
blank, the `*` wildcard, or `!` followed by a vocabulary symbol. -/
def wfEntry (vocab : List GoStr) (entry : GoStr) : Prop :=
  (¬ entry.contains '!' ∧ entry ≠ anySy ∧ (entry ∈ vocab ∨ entry = noneSy))
  ∨ entry = anySy
  ∨ (entry.headD ' ' = '!' ∧ entry.drop 1 ∈ vocab ∧ ¬ (entry.drop 1).contains '!')

/-- A well-formed vocabulary: no wildcard characters, not the blank, and
no symbol that collides with the interned `S<i>` names. -/
def wfVocab (vocab : List GoStr) : Prop :=
  ∀ v ∈ vocab, ¬ v.contains '!' ∧ v ≠ anySy ∧ v ≠ noneSy ∧ v.headD ' ' ≠ 'S'

/-- The interning state after `standardize` has processed all rows (the
state `newTape` reads). -/
def finalSymState (input : MachineInput) : STState :=
  (standardizeRowsLoop (newMConfigurationSymbol initSTState noneSy).2
    input.PossibleSymbols [] input.MConfigurations).2

/-- The interning state after the starting m-configuration has also been
interned (the state the name map is read from). -/
def finalState (input : MachineInput) : STState :=
  (newStartingMConfiguration (finalSymState input) input).2

/-- The final symbol-interning function. -/
def sigmaF (input : MachineInput) (x : GoStr) : GoStr :=
  (alookup (finalSymState input).mConfigurationSymbols x).getD []

/-- The final name-interning function. -/
def nuF (input : MachineInput) (n : GoStr) : GoStr :=
  (alookup ((finalState input).mConfigurationNames.getD []) n).getD []

/-- Well-formed flat table for the step-for-step refinement. -/
def WellFormed (input : MachineInput) : Prop :=
  input.MConfigurations ≠ []
  ∧ input.NoneSymbol = []
  ∧ wfVocab input.PossibleSymbols
  ∧ (∀ mc ∈ input.MConfigurations,
      (∀ e ∈ mc.Symbols, wfEntry input.PossibleSymbols e)
      ∧ stdFormOps input.PossibleSymbols mc.Operations)
  ∧ (input.StartingMConfiguration = [] →
      ∃ e ∈ (input.MConfigurations.headD ⟨[], [], [], []⟩).Symbols,
        ¬ e.contains '!' ∧ e ≠ anySy)
  ∧ (∀ sq ∈ input.Tape, (sq ∈ input.PossibleSymbols ∨ sq = noneSy)
      ∧ (alookup (finalSymState input).mConfigurationSymbols sq).isSome)

instance (vocab ops : List GoStr) : Decidable (stdFormOps vocab ops) := by
  rcases ops with _ | ⟨op1, _ | ⟨op2, _ | ⟨op3, rest⟩⟩⟩ <;>
    · unfold stdFormOps; infer_instance

instance (input : MachineInput) : Decidable (WellFormed input) := by
  unfold WellFormed wfVocab wfEntry
  refine @instDecidableAnd _ _ ?_ (@instDecidableAnd _ _ ?_ (@instDecidableAnd _ _ ?_ (@instDecidableAnd _ _ ?_ (@instDecidableAnd _ _ ?_ ?_)))) <;> infer_instance

set_option maxRecDepth 100000 in
/-- C1 counterexample: for the one-row table `b : [blank] → P1,R,P1 → b`
the standardized machine's translated tape after 1 move is `1`, while the
original machine's tape after 1 move is `11` — running both machines for
the same number of moves does not produce the same translated tape,
because the multi-operation row is expanded through hidden
m-configurations that each consume a move. -/
theorem C1_counterexample :
    TranslateTape (NewStandardTable multiOpInput).SymbolMap
        ((NewMachine (NewStandardTable multiOpInput).MachineInput).MoveN 1).1.tape
      ≠ ((NewMachine multiOpInput).MoveN 1).1.TapeString := by
  decide

/-! ### State-threading infrastructure for the standardizer -/

def symsOf (s : STState) : List (GoStr × GoStr) := s.mConfigurationSymbols

def namesOf (s : STState) : List (GoStr × GoStr) := s.mConfigurationNames.getD []

def sLook (s : STState) (x : GoStr) : GoStr := (alookup (symsOf s) x).getD []

def nLook (s : STState) (n : GoStr) : GoStr := (alookup (namesOf s) n).getD []

def symDom (s : STState) (x : GoStr) : Prop := (alookup (symsOf s) x).isSome

def nameDom (s : STState) (n : GoStr) : Prop := (alookup (namesOf s) n).isSome

/-- The symbol map only ever grows by appending. -/
def symExt (s s' : STState) : Prop := ∃ l, symsOf s' = symsOf s ++ l

/-- The name map only ever grows by appending. -/
def nameExt (s s' : STState) : Prop := ∃ l, namesOf s' = namesOf s ++ l

/-- A standardizer phase that touches only the symbol side. -/
def symStep (s s' : STState) : Prop :=
  symExt s s' ∧ s'.mConfigurationNames = s.mConfigurationNames
    ∧ s'.nameCount = s.nameCount

theorem symExt_refl (s : STState) : symExt s s := ⟨[], (List.append_nil _).symm⟩

theorem symExt_trans {s₁ s₂ s₃ : STState} (h : symExt s₁ s₂) (h' : symExt s₂ s₃) :
    symExt s₁ s₃ := by
  obtain ⟨l, hl⟩ := h; obtain ⟨l', hl'⟩ := h'
  exact ⟨l ++ l', by rw [hl', hl, List.append_assoc]⟩

theorem symStep_refl (s : STState) : symStep s s := ⟨symExt_refl s, rfl, rfl⟩

theorem symStep_trans {s₁ s₂ s₃ : STState} (h : symStep s₁ s₂) (h' : symStep s₂ s₃) :
    symStep s₁ s₃ :=
  ⟨symExt_trans h.1 h'.1, h'.2.1.trans h.2.1, h'.2.2.trans h.2.2⟩

theorem nameExt_refl (s : STState) : nameExt s s := ⟨[], (List.append_nil _).symm⟩

theorem nameExt_trans {s₁ s₂ s₃ : STState} (h : nameExt s₁ s₂) (h' : nameExt s₂ s₃) :
    nameExt s₁ s₃ := by
  obtain ⟨l, hl⟩ := h; obtain ⟨l', hl'⟩ := h'
  exact ⟨l ++ l', by rw [hl', hl, List.append_assoc]⟩

theorem symStep_namesOf {s s' : STState} (h : symStep s s') :
    namesOf s' = namesOf s := by
  unfold namesOf; rw [h.2.1]

theorem symStep_nameExt {s s' : STState} (h : symStep s s') : nameExt s s' :=
  ⟨[], by rw [symStep_namesOf h, List.append_nil]⟩

theorem alookup_append_left {m : List (GoStr × GoStr)} {k v : GoStr}
    (h : alookup m k = some v) (l : List (GoStr × GoStr)) :
    alookup (m ++ l) k = some v := by
  induction m with
  | nil => simp [alookup] at h
  | cons kv rest ih =>
    obtain ⟨k1, v1⟩ := kv
    rw [List.cons_append]
    unfold alookup at h ⊢
    by_cases hk : k1 = k
    · rw [if_pos hk] at h ⊢; exact h
    · rw [if_neg hk] at h ⊢; exact ih h

theorem alookup_cons (k1 v1 : GoStr) (rest : List (GoStr × GoStr)) (k : GoStr) :
    alookup ((k1, v1) :: rest) k = if k1 = k then some v1 else alookup rest k := rfl

theorem alookup_append_none {m : List (GoStr × GoStr)} {k : GoStr}
    (h : alookup m k = none) (l : List (GoStr × GoStr)) :
    alookup (m ++ l) k = alookup l k := by
  induction m with
  | nil => rfl
  | cons kv rest ih =>
    obtain ⟨k1, v1⟩ := kv
    rw [List.cons_append, alookup_cons]
    rw [alookup_cons] at h
    by_cases hk : k1 = k
    · rw [if_pos hk] at h; exact absurd h (by simp)
    · rw [if_neg hk] at h ⊢; exact ih h

theorem alookup_mem {m : List (GoStr × GoStr)} {k v : GoStr}
    (h : alookup m k = some v) : (k, v) ∈ m := by
  induction m with
  | nil => simp [alookup] at h
  | cons kv rest ih =>
    obtain ⟨k1, v1⟩ := kv
    unfold alookup at h
    by_cases hk : k1 = k
    · rw [if_pos hk] at h
      subst hk
      cases h
      exact List.mem_cons_self _ _
    · rw [if_neg hk] at h
      exact List.mem_cons_of_mem _ (ih h)

theorem symDom_mono {s s' : STState} (h : symExt s s') {x : GoStr}
    (hx : symDom s x) : symDom s' x := by
  obtain ⟨v, hv⟩ := Option.isSome_iff_exists.mp hx
  obtain ⟨l, hl⟩ := h
  unfold symDom
  rw [hl, alookup_append_left hv]
  rfl

theorem sLook_stable {s s' : STState} (h : symExt s s') {x : GoStr}
    (hx : symDom s x) : sLook s' x = sLook s x := by
  obtain ⟨v, hv⟩ := Option.isSome_iff_exists.mp hx
  obtain ⟨l, hl⟩ := h
  unfold sLook
  rw [hl, alookup_append_left hv, hv]

theorem nameDom_mono {s s' : STState} (h : nameExt s s') {n : GoStr}
    (hn : nameDom s n) : nameDom s' n := by
  obtain ⟨v, hv⟩ := Option.isSome_iff_exists.mp hn
  obtain ⟨l, hl⟩ := h
  unfold nameDom
  rw [hl, alookup_append_left hv]
  rfl

theorem nLook_stable {s s' : STState} (h : nameExt s s') {n : GoStr}
    (hn : nameDom s n) : nLook s' n = nLook s n := by
  obtain ⟨v, hv⟩ := Option.isSome_iff_exists.mp hn
  obtain ⟨l, hl⟩ := h
  unfold nLook
  rw [hl, alookup_append_left hv, hv]

theorem symStep_nameDom {s s' : STState} (h : symStep s s') {n : GoStr}
    (hn : nameDom s n) : nameDom s' n := nameDom_mono (symStep_nameExt h) hn

/-- Invariant of the symbol-interning map: the count equals the length, and
the `i`-th entry's value is `S<i>`. -/
def SymInv (s : STState) : Prop :=
  (symsOf s).length = s.symbolCount
  ∧ ∀ (i : Nat) (h : i < (symsOf s).length), (symsOf s)[i].2 = 'S' :: itoa i

/-- Invariant of the name-interning map: the lazy initialization has bumped
the counter once, so the `i`-th entry's value is `q<i+1>`. -/
def NameInv (s : STState) : Prop :=
  s.nameCount = (namesOf s).length + (if s.mConfigurationNames.isSome then 1 else 0)
  ∧ ∀ (i : Nat) (h : i < (namesOf s).length), (namesOf s)[i].2 = 'q' :: itoa (i + 1)

theorem SymInv_congr {s s' : STState} (hs : symsOf s' = symsOf s)
    (hc : s'.symbolCount = s.symbolCount) (h : SymInv s) : SymInv s' := by
  unfold SymInv at h ⊢
  rw [hs, hc]
  exact h

theorem NameInv_of_symStep {s s' : STState} (h : symStep s s') (hn : NameInv s) :
    NameInv s' := by
  unfold NameInv at hn ⊢
  unfold namesOf at hn ⊢
  rw [h.2.1, h.2.2]
  exact hn

theorem symVal_shape {s : STState} (h : SymInv s) {a v : GoStr}
    (hl : alookup (symsOf s) a = some v) : ∃ i, v = 'S' :: itoa i := by
  obtain ⟨i, hi, he⟩ := List.mem_iff_getElem.mp (alookup_mem hl)
  refine ⟨i, ?_⟩
  have := h.2 i hi
  rw [he] at this
  exact this

theorem nameVal_shape {s : STState} (h : NameInv s) {a v : GoStr}
    (hl : alookup (namesOf s) a = some v) : ∃ i, v = 'q' :: itoa (i + 1) := by
  obtain ⟨i, hi, he⟩ := List.mem_iff_getElem.mp (alookup_mem hl)
  refine ⟨i, ?_⟩
  have := h.2 i hi
  rw [he] at this
  exact this

theorem symInj {s : STState} (h : SymInv s) {a b v : GoStr}
    (ha : alookup (symsOf s) a = some v) (hb : alookup (symsOf s) b = some v) :
    a = b := by
  obtain ⟨i, hi, hie⟩ := List.mem_iff_getElem.mp (alookup_mem ha)
  obtain ⟨j, hj, hje⟩ := List.mem_iff_getElem.mp (alookup_mem hb)
  have hvi : v = 'S' :: itoa i := by
    have := h.2 i hi; rw [hie] at this; exact this
  have hvj : v = 'S' :: itoa j := by
    have := h.2 j hj; rw [hje] at this; exact this
  have hij : i = j := by
    have : itoa i = itoa j := by
      have := hvi.symm.trans hvj
      exact List.cons.inj this |>.2
    exact itoa_injective this
  subst hij
  have : ((symsOf s)[i] : GoStr × GoStr) = (a, v) := hie
  rw [hje] at this
  exact (Prod.mk.injEq _ _ _ _ ▸ this).1.symm

theorem sLook_inj {s : STState} (h : SymInv s) {a b : GoStr}
    (ha : symDom s a) (hb : symDom s b) (he : sLook s a = sLook s b) : a = b := by
  obtain ⟨va, hva⟩ := Option.isSome_iff_exists.mp ha
  obtain ⟨vb, hvb⟩ := Option.isSome_iff_exists.mp hb
  unfold sLook at he
  rw [hva, hvb] at he
  simp only [Option.getD_some] at he
  subst he
  exact symInj h hva hvb

theorem nameInj {s : STState} (h : NameInv s) {a b v : GoStr}
    (ha : alookup (namesOf s) a = some v) (hb : alookup (namesOf s) b = some v) :
    a = b := by
  obtain ⟨i, hi, hie⟩ := List.mem_iff_getElem.mp (alookup_mem ha)
  obtain ⟨j, hj, hje⟩ := List.mem_iff_getElem.mp (alookup_mem hb)
  have hvi : v = 'q' :: itoa (i + 1) := by
    have := h.2 i hi; rw [hie] at this; exact this
  have hvj : v = 'q' :: itoa (j + 1) := by
    have := h.2 j hj; rw [hje] at this; exact this
  have hij : i = j := by
    have : itoa (i + 1) = itoa (j + 1) := by
      have := hvi.symm.trans hvj
      exact List.cons.inj this |>.2
    have := itoa_injective this
    omega
  subst hij
  have : ((namesOf s)[i] : GoStr × GoStr) = (a, v) := hie
  rw [hje] at this
  exact (Prod.mk.injEq _ _ _ _ ▸ this).1.symm

theorem nLook_inj {s : STState} (h : NameInv s) {a b : GoStr}
    (ha : nameDom s a) (hb : nameDom s b) (he : nLook s a = nLook s b) : a = b := by
  obtain ⟨va, hva⟩ := Option.isSome_iff_exists.mp ha
  obtain ⟨vb, hvb⟩ := Option.isSome_iff_exists.mp hb
  unfold nLook at he
  rw [hva, hvb] at he
  simp only [Option.getD_some] at he
  subst he
  exact nameInj h hva hvb

theorem contains_eq_false_of_forall {l : GoStr} {ch : Char}
    (h : ∀ c ∈ l, c ≠ ch) : l.contains ch = false := by
  induction l with
  | nil => rfl
  | cons c rest ih =>
    have hc : c ≠ ch := h c (List.mem_cons_self _ _)
    have hr : rest.contains ch = false := ih (fun x hx => h x (List.mem_cons_of_mem _ hx))
    simp only [List.contains, List.elem] at hr ⊢
    rw [show (ch == c) = false from beq_eq_false_iff_ne.mpr (fun he => hc he.symm)]
    exact hr

theorem itoa_no_bang (n : Nat) : ∀ c ∈ itoa n, c ≠ '!' := by
  intro c hc
  have := itoa_chars_digits n c hc
  intro he
  subst he
  simp [digitVal] at this

/-- An interned symbol value `S<i>` contains no `!`. -/
theorem sshape_no_bang (i : Nat) : (('S' :: itoa i).contains '!') = false :=
  contains_eq_false_of_forall (fun c hc => by
    rcases List.mem_cons.mp hc with h | h
    · subst h; decide
    · exact itoa_no_bang i c h)

theorem sshape_ne_any (i : Nat) : 'S' :: itoa i ≠ anySy := by
  intro h
  have : 'S' = '*' := List.cons.inj h |>.1
  exact absurd this (by decide)

theorem sshape_notSymbols (i : Nat) : notSymbolsOf ['S' :: itoa i] = [] := by
  have hmem : '!' ∉ itoa i := fun h => itoa_no_bang i '!' h rfl
  unfold notSymbolsOf
  simp [hmem]

theorem sshape_ne_nil (i : Nat) : 'S' :: itoa i ≠ [] := by simp

theorem qshape_ne_nil (i : Nat) : 'q' :: itoa i ≠ [] := by simp

/-- Setting a square to the value it already holds leaves the tape alone. -/
theorem set_getD_self (l : List GoStr) (i : Nat) (h : i < l.length) :
    l.set i (l.getD i []) = l := by
  induction l generalizing i with
  | nil => simp at h
  | cons a t ih =>
    cases i with
    | zero => rfl
    | succ j =>
      have hj : j < t.length := by simpa using h
      show a :: t.set j ((a :: t).getD (j + 1) []) = a :: t
      have : (a :: t).getD (j + 1) [] = t.getD j [] := rfl
      rw [this, ih j hj]

theorem getD_map (l : List GoStr) (f : GoStr → GoStr) (i : Nat) (h : i < l.length) :
    (l.map f).getD i [] = f (l.getD i []) := by
  induction l generalizing i with
  | nil => simp at h
  | cons a t ih =>
    cases i with
    | zero => rfl
    | succ j =>
      have hj : j < t.length := by simpa using h
      show (t.map f).getD j [] = f ((a :: t).getD (j + 1) [])
      exact ih j hj

/-! ### Specifications of the interning primitives -/

theorem newSym_hit {s : STState} {x : GoStr} (h : symDom s x) :
    newMConfigurationSymbol s x = (sLook s x, s) := by
  obtain ⟨v, hv⟩ := Option.isSome_iff_exists.mp h
  have hv' : alookup s.mConfigurationSymbols x = some v := hv
  have h1 : newMConfigurationSymbol s x = (v, s) := by
    unfold newMConfigurationSymbol
    rw [hv']
  have h2 : sLook s x = v := by
    unfold sLook
    rw [hv]
    rfl
  rw [h1, h2]

theorem newSym_spec (s : STState) (x : GoStr) (hinv : SymInv s) :
    symStep s (newMConfigurationSymbol s x).2
    ∧ SymInv (newMConfigurationSymbol s x).2
    ∧ symDom (newMConfigurationSymbol s x).2 x
    ∧ (newMConfigurationSymbol s x).1 = sLook (newMConfigurationSymbol s x).2 x := by
  cases hx : alookup s.mConfigurationSymbols x with
  | some v =>
    have hd : symDom s x := by unfold symDom symsOf; rw [hx]; rfl
    rw [newSym_hit hd]
    refine ⟨symStep_refl s, hinv, hd, rfl⟩
  | none =>
    have hx' : alookup (symsOf s) x = none := hx
    have hext : symsOf (newMConfigurationSymbol s x).2
        = symsOf s ++ [(x, 'S' :: itoa s.symbolCount)] := by
      unfold newMConfigurationSymbol; rw [hx]; rfl
    have hcnt : (newMConfigurationSymbol s x).2.symbolCount = s.symbolCount + 1 := by
      unfold newMConfigurationSymbol; rw [hx]
    have hval : (newMConfigurationSymbol s x).1 = 'S' :: itoa s.symbolCount := by
      unfold newMConfigurationSymbol; rw [hx]
    have hnames : (newMConfigurationSymbol s x).2.mConfigurationNames
        = s.mConfigurationNames := by
      unfold newMConfigurationSymbol; rw [hx]
    have hncnt : (newMConfigurationSymbol s x).2.nameCount = s.nameCount := by
      unfold newMConfigurationSymbol; rw [hx]
    have hlook : alookup (symsOf (newMConfigurationSymbol s x).2) x
        = some ('S' :: itoa s.symbolCount) := by
      rw [hext, alookup_append_none hx', alookup_cons, if_pos rfl]
    refine ⟨⟨⟨[(x, 'S' :: itoa s.symbolCount)], hext⟩, hnames, hncnt⟩, ?_, ?_, ?_⟩
    · constructor
      · rw [hext, hcnt, List.length_append, hinv.1]
        rfl
      · intro i hi
        have hi' : i < (symsOf s ++ [(x, 'S' :: itoa s.symbolCount)]).length := hext ▸ hi
        rw [List.getElem_of_eq hext hi]
        rw [List.length_append, List.length_singleton] at hi'
        by_cases hlt : i < (symsOf s).length
        · rw [List.getElem_append_left hlt]
          exact hinv.2 i hlt
        · have hieq : i = (symsOf s).length := by omega
          rw [List.getElem_append_right (Nat.le_of_not_lt hlt)]
          have h0 : i - (symsOf s).length = 0 := by omega
          simp only [h0, List.getElem_singleton]
          rw [hieq, hinv.1]
    · unfold symDom
      rw [hlook]
      rfl
    · unfold sLook
      rw [hlook, hval]
      rfl

theorem newName_spec (s : STState) (n : GoStr) (hinv : NameInv s) :
    nameExt s (newMConfigurationName s n).2
    ∧ symsOf (newMConfigurationName s n).2 = symsOf s
    ∧ (newMConfigurationName s n).2.symbolCount = s.symbolCount
    ∧ NameInv (newMConfigurationName s n).2
    ∧ nameDom (newMConfigurationName s n).2 n
    ∧ (newMConfigurationName s n).1 = nLook (newMConfigurationName s n).2 n
    ∧ (newMConfigurationName s n).2.mConfigurationNames.isSome := by
  obtain ⟨onames, ncount, syms, scount⟩ := s
  cases onames with
  | none =>
    have hc0 : ncount = 0 := by
      have := hinv.1
      simpa [namesOf] using this
    subst hc0
    have hpair : newMConfigurationName ⟨none, 0, syms, scount⟩ n
        = ('q' :: itoa 1, ⟨some [(n, 'q' :: itoa 1)], 2, syms, scount⟩) := rfl
    rw [hpair]
    have hlook2 : alookup [(n, 'q' :: itoa 1)] n = some ('q' :: itoa 1) := by
      rw [alookup_cons, if_pos rfl]
    refine ⟨⟨[(n, 'q' :: itoa 1)], rfl⟩, rfl, rfl, ⟨rfl, ?_⟩, ?_, ?_, rfl⟩
    · intro i hi
      have hi0 : i = 0 := by
        simp only [namesOf, Option.getD_some, List.length_singleton] at hi
        omega
      subst hi0
      rfl
    · unfold nameDom namesOf
      simp only [Option.getD_some]
      rw [hlook2]
      rfl
    · unfold nLook namesOf
      simp only [Option.getD_some]
      rw [hlook2]
      rfl
  | some l =>
    have hcl : ncount = l.length + 1 := by
      have := hinv.1
      simpa [namesOf] using this
    cases hlook : alookup l n with
    | some v =>
      have hpair : newMConfigurationName ⟨some l, ncount, syms, scount⟩ n
          = (v, ⟨some l, ncount, syms, scount⟩) := by
        unfold newMConfigurationName
        simp only [Option.getD_some]
        rw [hlook]
      have hd : nameDom (⟨some l, ncount, syms, scount⟩ : STState) n := by
        unfold nameDom namesOf
        simp only [Option.getD_some]
        rw [hlook]
        rfl
      rw [hpair]
      refine ⟨nameExt_refl _, rfl, rfl, hinv, hd, ?_, rfl⟩
      unfold nLook namesOf
      simp only [Option.getD_some]
      rw [hlook]
      rfl
    | none =>
      have hpair : newMConfigurationName ⟨some l, ncount, syms, scount⟩ n
          = ('q' :: itoa ncount,
             ⟨some (l ++ [(n, 'q' :: itoa ncount)]), ncount + 1, syms, scount⟩) := by
        unfold newMConfigurationName
        simp only [Option.getD_some]
        rw [hlook]
      rw [hpair]
      have hlook2 : alookup (l ++ [(n, 'q' :: itoa ncount)]) n
          = some ('q' :: itoa ncount) := by
        rw [alookup_append_none hlook, alookup_cons, if_pos rfl]
      refine ⟨⟨[(n, 'q' :: itoa ncount)], rfl⟩, rfl, rfl, ⟨?_, ?_⟩, ?_, ?_, rfl⟩
      · show ncount + 1 = (l ++ [(n, 'q' :: itoa ncount)]).length + 1
        rw [List.length_append, List.length_singleton]
        omega
      · intro i hi
        show ((l ++ [(n, 'q' :: itoa ncount)])[i]).2 = 'q' :: itoa (i + 1)
        have hi' : i < (l ++ [(n, 'q' :: itoa ncount)]).length := hi
        rw [List.length_append, List.length_singleton] at hi'
        by_cases hlt : i < l.length
        · rw [List.getElem_append_left hlt]
          exact hinv.2 i hlt
        · have hieq : i = l.length := by omega
          rw [List.getElem_append_right (Nat.le_of_not_lt hlt)]
          have h0 : i - l.length = 0 := by omega
          simp only [h0, List.getElem_singleton]
          rw [hieq, hcl]
      · show (alookup (namesOf ⟨some (l ++ [(n, 'q' :: itoa ncount)]), ncount + 1, syms, scount⟩) n).isSome
        unfold namesOf
        simp only [Option.getD_some]
        rw [hlook2]
        rfl
      · show 'q' :: itoa ncount
          = nLook ⟨some (l ++ [(n, 'q' :: itoa ncount)]), ncount + 1, syms, scount⟩ n
        unfold nLook namesOf
        simp only [Option.getD_some]
        rw [hlook2]
        rfl

/-! ### Characterization of the symbol-expansion loops -/

/-- The concrete symbols one symbol-column entry matches. -/
def mEntry (ns vocab : List GoStr) (entry : GoStr) : List GoStr :=
  if entry.contains '!' then vocab.filter (fun p => p ∉ ns)
  else if entry = anySy then vocab
  else [entry]

theorem matchList_eq (ps vocab : List GoStr) :
    matchList ps vocab = ps.flatMap (mEntry (notSymbolsOf ps) vocab) := rfl

theorem expandNotLoop_spec (ns : List GoStr) :
    ∀ (possible : List GoStr) (s : STState) (acc : List GoStr),
    SymInv s → (∀ p ∈ possible, p.headD ' ' ≠ 'S')
    → (∀ a ∈ acc, ∃ i, a = 'S' :: itoa i)
    → symStep s (expandNotLoop s ns acc possible).2
      ∧ SymInv (expandNotLoop s ns acc possible).2
      ∧ (expandNotLoop s ns acc possible).1
          = acc ++ (possible.filter (fun p => p ∉ ns)).map
              (sLook (expandNotLoop s ns acc possible).2)
      ∧ (∀ p ∈ possible.filter (fun p => p ∉ ns),
          symDom (expandNotLoop s ns acc possible).2 p)
      ∧ (∀ a ∈ (expandNotLoop s ns acc possible).1, ∃ i, a = 'S' :: itoa i) := by
  intro possible
  induction possible with
  | nil =>
    intro s acc hinv hposs hacc
    refine ⟨symStep_refl s, hinv, ?_, ?_, hacc⟩
    · simp [expandNotLoop]
    · intro p hp
      simp at hp
  | cons p rest ih =>
    intro s acc hinv hposs hacc
    have hph : p.headD ' ' ≠ 'S' := hposs p (List.mem_cons_self _ _)
    have hrposs : ∀ q ∈ rest, q.headD ' ' ≠ 'S' :=
      fun q hq => hposs q (List.mem_cons_of_mem _ hq)
    have hpacc : p ∉ acc := by
      intro hmem
      obtain ⟨i, hi⟩ := hacc p hmem
      rw [hi] at hph
      exact hph rfl
    by_cases hcond : p ∉ ns ∧ p ∉ acc
    · have hstep : expandNotLoop s ns acc (p :: rest)
          = expandNotLoop (newMConfigurationSymbol s p).2 ns
              (acc ++ [(newMConfigurationSymbol s p).1]) rest := by
        simp only [expandNotLoop]
        rw [if_pos hcond]
      obtain ⟨hstep1, hinv1, hdom1, hval1⟩ := newSym_spec s p hinv
      have hshape1 : ∃ i, (newMConfigurationSymbol s p).1 = 'S' :: itoa i := by
        obtain ⟨v, hv⟩ := Option.isSome_iff_exists.mp hdom1
        obtain ⟨i, hi⟩ := symVal_shape hinv1 hv
        refine ⟨i, ?_⟩
        rw [hval1]
        unfold sLook
        rw [hv, hi]
        rfl
      have hacc1 : ∀ a ∈ acc ++ [(newMConfigurationSymbol s p).1], ∃ i, a = 'S' :: itoa i := by
        intro a ha
        rcases List.mem_append.mp ha with h | h
        · exact hacc a h
        · rw [List.mem_singleton.mp h]
          exact hshape1
      obtain ⟨ihstep, ihinv, ihres, ihdom, ihshape⟩ :=
        ih (newMConfigurationSymbol s p).2 (acc ++ [(newMConfigurationSymbol s p).1])
          hinv1 hrposs hacc1
      rw [hstep]
      have hfilter : (p :: rest).filter (fun q => q ∉ ns)
          = p :: rest.filter (fun q => q ∉ ns) := by
        rw [List.filter_cons, if_pos (by exact decide_eq_true hcond.1)]
      set V := (newMConfigurationSymbol s p).1 with hV
      set S := expandNotLoop (newMConfigurationSymbol s p).2 ns (acc ++ [V]) rest with hS
      refine ⟨symStep_trans hstep1 ihstep, ihinv, ?_, ?_, ihshape⟩
      · rw [ihres, hfilter, List.map_cons]
        have hv : V = sLook S.2 p := hval1.trans (sLook_stable ihstep.1 hdom1).symm
        rw [hv, List.append_assoc, List.singleton_append]
      · intro q hq
        rw [hfilter] at hq
        rcases List.mem_cons.mp hq with h | h
        · subst h
          exact symDom_mono ihstep.1 hdom1
        · exact ihdom q h
    · have hpns : p ∈ ns := by
        rcases Decidable.not_and_iff_or_not.mp hcond with h | h
        · exact Decidable.not_not.mp h
        · exact absurd (Decidable.not_not.mp h) hpacc
      have hstep : expandNotLoop s ns acc (p :: rest)
          = expandNotLoop s ns acc rest := by
        simp only [expandNotLoop]
        rw [if_neg hcond]
      have hfilter : (p :: rest).filter (fun q => q ∉ ns)
          = rest.filter (fun q => q ∉ ns) := by
        rw [List.filter_cons, if_neg ?x]
        case x =>
          simp only [decide_eq_true_eq]
          exact fun hcon => hcon hpns
      obtain ⟨ihstep, ihinv, ihres, ihdom, ihshape⟩ := ih s acc hinv hrposs hacc
      rw [hstep, hfilter]
      exact ⟨ihstep, ihinv, ihres, ihdom, ihshape⟩

theorem expandAnyLoop_spec :
    ∀ (possible : List GoStr) (s : STState) (acc : List GoStr),
    SymInv s
    → symStep s (expandAnyLoop s acc possible).2
      ∧ SymInv (expandAnyLoop s acc possible).2
      ∧ (expandAnyLoop s acc possible).1
          = acc ++ possible.map (sLook (expandAnyLoop s acc possible).2)
      ∧ (∀ p ∈ possible, symDom (expandAnyLoop s acc possible).2 p)
      ∧ ((∀ a ∈ acc, ∃ i, a = 'S' :: itoa i)
          → ∀ a ∈ (expandAnyLoop s acc possible).1, ∃ i, a = 'S' :: itoa i) := by
  intro possible
  induction possible with
  | nil =>
    intro s acc hinv
    refine ⟨symStep_refl s, hinv, by simp [expandAnyLoop], ?_, fun h => h⟩
    intro p hp
    simp at hp
  | cons p rest ih =>
    intro s acc hinv
    have hstep : expandAnyLoop s acc (p :: rest)
        = expandAnyLoop (newMConfigurationSymbol s p).2
            (acc ++ [(newMConfigurationSymbol s p).1]) rest := by
      simp only [expandAnyLoop]
    obtain ⟨hstep1, hinv1, hdom1, hval1⟩ := newSym_spec s p hinv
    obtain ⟨ihstep, ihinv, ihres, ihdom, ihshape⟩ :=
      ih (newMConfigurationSymbol s p).2 (acc ++ [(newMConfigurationSymbol s p).1]) hinv1
    rw [hstep]
    set V := (newMConfigurationSymbol s p).1 with hV
    set S := expandAnyLoop (newMConfigurationSymbol s p).2 (acc ++ [V]) rest with hS
    refine ⟨symStep_trans hstep1 ihstep, ihinv, ?_, ?_, ?_⟩
    · rw [ihres, List.map_cons]
      have hv : V = sLook S.2 p := hval1.trans (sLook_stable ihstep.1 hdom1).symm
      rw [hv, List.append_assoc, List.singleton_append]
    · intro q hq
      rcases List.mem_cons.mp hq with h | h
      · subst h
        exact symDom_mono ihstep.1 hdom1
      · exact ihdom q h
    · intro haccs
      refine ihshape ?_
      intro a ha
      rcases List.mem_append.mp ha with h | h
      · exact haccs a h
      · rw [List.mem_singleton.mp h]
        obtain ⟨v, hv⟩ := Option.isSome_iff_exists.mp hdom1
        obtain ⟨i, hi⟩ := symVal_shape hinv1 hv
        refine ⟨i, ?_⟩
        rw [hval1]
        unfold sLook
        rw [hv, hi]
        rfl

theorem expandSymbolsLoop_spec (vocab ns : List GoStr)
    (hvocab : ∀ p ∈ vocab, p.headD ' ' ≠ 'S') :
    ∀ (entries : List GoStr) (s : STState) (acc : List GoStr),
    SymInv s → (∀ a ∈ acc, ∃ i, a = 'S' :: itoa i)
    → symStep s (expandSymbolsLoop s vocab ns acc entries).2
      ∧ SymInv (expandSymbolsLoop s vocab ns acc entries).2
      ∧ (expandSymbolsLoop s vocab ns acc entries).1
          = acc ++ (entries.flatMap (mEntry ns vocab)).map
              (sLook (expandSymbolsLoop s vocab ns acc entries).2)
      ∧ (∀ y ∈ entries.flatMap (mEntry ns vocab),
          symDom (expandSymbolsLoop s vocab ns acc entries).2 y)
      ∧ (∀ a ∈ (expandSymbolsLoop s vocab ns acc entries).1, ∃ i, a = 'S' :: itoa i) := by
  intro entries
  induction entries with
  | nil =>
    intro s acc hinv hacc
    refine ⟨symStep_refl s, hinv, by simp [expandSymbolsLoop], ?_, hacc⟩
    intro y hy
    simp at hy
  | cons e rest ih =>
    intro s acc hinv hacc
    by_cases hb : e.contains '!' = true
    · have hstep : expandSymbolsLoop s vocab ns acc (e :: rest)
          = expandSymbolsLoop (expandNotLoop s ns acc vocab).2 vocab ns
              (expandNotLoop s ns acc vocab).1 rest := by
        simp only [expandSymbolsLoop]
        rw [if_pos hb]
      have hment : mEntry ns vocab e = vocab.filter (fun p => p ∉ ns) := by
        unfold mEntry
        rw [if_pos hb]
      obtain ⟨hstep1, hinv1, hres1, hdom1, hshape1⟩ :=
        expandNotLoop_spec ns vocab s acc hinv hvocab hacc
      obtain ⟨ihstep, ihinv, ihres, ihdom, ihshape⟩ :=
        ih (expandNotLoop s ns acc vocab).2 (expandNotLoop s ns acc vocab).1 hinv1 hshape1
      rw [hstep]
      set R1 := (expandNotLoop s ns acc vocab).1 with hR1
      set S := expandSymbolsLoop (expandNotLoop s ns acc vocab).2 vocab ns R1 rest with hS
      refine ⟨symStep_trans hstep1 ihstep, ihinv, ?_, ?_, ihshape⟩
      · rw [ihres, hres1, List.flatMap_cons, hment, List.map_append, List.append_assoc]
        congr 1
        congr 1
        refine List.map_congr_left ?_
        intro y hy
        exact (sLook_stable ihstep.1 (hdom1 y hy)).symm
      · intro y hy
        rw [List.flatMap_cons, hment] at hy
        rcases List.mem_append.mp hy with h | h
        · exact symDom_mono ihstep.1 (hdom1 y h)
        · exact ihdom y h
    · by_cases ha : e = anySy
      · have hstep : expandSymbolsLoop s vocab ns acc (e :: rest)
            = expandSymbolsLoop (expandAnyLoop s acc vocab).2 vocab ns
                (expandAnyLoop s acc vocab).1 rest := by
          simp only [expandSymbolsLoop]
          rw [if_neg hb, if_pos ha]
        have hment : mEntry ns vocab e = vocab := by
          unfold mEntry
          rw [if_neg hb, if_pos ha]
        obtain ⟨hstep1, hinv1, hres1, hdom1, hshape1⟩ :=
          expandAnyLoop_spec vocab s acc hinv
        obtain ⟨ihstep, ihinv, ihres, ihdom, ihshape⟩ :=
          ih (expandAnyLoop s acc vocab).2 (expandAnyLoop s acc vocab).1 hinv1 (hshape1 hacc)
        rw [hstep]
        set R1 := (expandAnyLoop s acc vocab).1 with hR1
        set S := expandSymbolsLoop (expandAnyLoop s acc vocab).2 vocab ns R1 rest with hS
        refine ⟨symStep_trans hstep1 ihstep, ihinv, ?_, ?_, ihshape⟩
        · rw [ihres, hres1, List.flatMap_cons, hment, List.map_append, List.append_assoc]
          congr 1
          congr 1
          refine List.map_congr_left ?_
          intro y hy
          exact (sLook_stable ihstep.1 (hdom1 y hy)).symm
        · intro y hy
          rw [List.flatMap_cons, hment] at hy
          rcases List.mem_append.mp hy with h | h
          · exact symDom_mono ihstep.1 (hdom1 y h)
          · exact ihdom y h
      · have hstep : expandSymbolsLoop s vocab ns acc (e :: rest)
            = expandSymbolsLoop (newMConfigurationSymbol s e).2 vocab ns
                (acc ++ [(newMConfigurationSymbol s e).1]) rest := by
          simp only [expandSymbolsLoop]
          rw [if_neg hb, if_neg ha]
        have hment : mEntry ns vocab e = [e] := by
          unfold mEntry
          rw [if_neg hb, if_neg ha]
        obtain ⟨hstep1, hinv1, hdom1, hval1⟩ := newSym_spec s e hinv
        have hacc1 : ∀ a ∈ acc ++ [(newMConfigurationSymbol s e).1],
            ∃ i, a = 'S' :: itoa i := by
          intro a hm
          rcases List.mem_append.mp hm with h | h
          · exact hacc a h
          · rw [List.mem_singleton.mp h]
            obtain ⟨v, hv⟩ := Option.isSome_iff_exists.mp hdom1
            obtain ⟨i, hi⟩ := symVal_shape hinv1 hv
            refine ⟨i, ?_⟩
            rw [hval1]
            unfold sLook
            rw [hv, hi]
            rfl
        obtain ⟨ihstep, ihinv, ihres, ihdom, ihshape⟩ :=
          ih (newMConfigurationSymbol s e).2 (acc ++ [(newMConfigurationSymbol s e).1])
            hinv1 hacc1
        rw [hstep]
        set V := (newMConfigurationSymbol s e).1 with hV
        set S := expandSymbolsLoop (newMConfigurationSymbol s e).2 vocab ns (acc ++ [V]) rest with hS
        refine ⟨symStep_trans hstep1 ihstep, ihinv, ?_, ?_, ihshape⟩
        · rw [ihres, List.flatMap_cons, hment, List.map_append, List.map_singleton]
          have hv : V = sLook S.2 e := hval1.trans (sLook_stable ihstep.1 hdom1).symm
          rw [hv, List.append_assoc, List.singleton_append]
        · intro y hy
          rw [List.flatMap_cons, hment] at hy
          rcases List.mem_append.mp hy with h | h
          · rw [List.mem_singleton.mp h]
            exact symDom_mono ihstep.1 hdom1
          · exact ihdom y h

theorem expandStandardSymbols_spec (vocab : List GoStr)
    (hvocab : ∀ p ∈ vocab, p.headD ' ' ≠ 'S')
    (ps : List GoStr) (s : STState) (hinv : SymInv s) :
    symStep s (expandStandardSymbols s vocab ps).2
    ∧ SymInv (expandStandardSymbols s vocab ps).2
    ∧ (expandStandardSymbols s vocab ps).1
        = (matchList ps vocab).map (sLook (expandStandardSymbols s vocab ps).2)
    ∧ (∀ y ∈ matchList ps vocab, symDom (expandStandardSymbols s vocab ps).2 y)
    ∧ (∀ a ∈ (expandStandardSymbols s vocab ps).1, ∃ i, a = 'S' :: itoa i) := by
  obtain ⟨h1, h2, h3, h4, h5⟩ :=
    expandSymbolsLoop_spec vocab (notSymbolsOf ps) hvocab ps s [] hinv (by intro a ha; simp at ha)
  refine ⟨h1, h2, ?_, ?_, h5⟩
  · rw [matchList_eq]
    unfold expandStandardSymbols
    rw [h3, List.nil_append]
  · rw [matchList_eq]
    exact h4

/-! ### Characterization of the operation-expansion loop on single-pair rows -/

theorem expandOpsLoop_nil (s : STState) (looking : Bool) (printOps moveOps : List GoStr) :
    expandOpsLoop s looking printOps moveOps [] = ((printOps, moveOps), s) := rfl

theorem expandOpsLoop_P (s : STState) (printOps moveOps : List GoStr)
    (op : GoStr) (rest : List GoStr) (hp : op.headD ' ' = 'P') :
    expandOpsLoop s true printOps moveOps (op :: rest)
      = expandOpsLoop (newMConfigurationSymbol s (op.drop 1)).2 false
          (printOps ++ ['P' :: (newMConfigurationSymbol s (op.drop 1)).1])
          (if rest = [] then moveOps ++ [['N']] else moveOps) rest := by
  simp only [expandOpsLoop]
  rw [if_pos trivial, if_pos hp]

theorem expandOpsLoop_E (s : STState) (printOps moveOps : List GoStr)
    (op : GoStr) (rest : List GoStr) (hp : op.headD ' ' ≠ 'P') (he : op.headD ' ' = 'E') :
    expandOpsLoop s true printOps moveOps (op :: rest)
      = expandOpsLoop (newMConfigurationSymbol s noneSy).2 false
          (printOps ++ ['P' :: (newMConfigurationSymbol s noneSy).1])
          (if rest = [] then moveOps ++ [['N']] else moveOps) rest := by
  simp only [expandOpsLoop]
  rw [if_pos trivial, if_neg hp, if_pos he]

theorem expandOpsLoop_other (s : STState) (printOps moveOps : List GoStr)
    (op : GoStr) (rest : List GoStr) (hp : op.headD ' ' ≠ 'P') (he : op.headD ' ' ≠ 'E') :
    expandOpsLoop s true printOps moveOps (op :: rest)
      = expandOpsLoop s true (printOps ++ [['P']]) (moveOps ++ [[op.headD ' ']]) rest := by
  simp only [expandOpsLoop]
  rw [if_pos trivial, if_neg hp, if_neg he]

theorem expandOpsLoop_move (s : STState) (printOps moveOps : List GoStr)
    (op : GoStr) (rest : List GoStr) :
    expandOpsLoop s false printOps moveOps (op :: rest)
      = expandOpsLoop s true printOps
          (moveOps ++ [if op.headD ' ' = 'L' ∨ op.headD ' ' = 'R'
            then [op.headD ' '] else ['N']]) rest := by
  simp only [expandOpsLoop]
  rw [if_neg (fun h => Bool.noConfusion h)]

theorem expandOps_spec (vocab : List GoStr) (ops : List GoStr) (s : STState)
    (hinv : SymInv s) (hwf : stdFormOps vocab ops) :
    symStep s (expandStandardOperations s ops).2
    ∧ SymInv (expandStandardOperations s ops).2
    ∧ (expandStandardOperations s ops).1.1
        = [match rowPrintSym ops with
           | some sy => 'P' :: sLook (expandStandardOperations s ops).2 sy
           | none => ['P']]
    ∧ (expandStandardOperations s ops).1.2 = [rowMove ops]
    ∧ (∀ sy, rowPrintSym ops = some sy → symDom (expandStandardOperations s ops).2 sy) := by
  rcases ops with _ | ⟨op1, _ | ⟨op2, _ | ⟨op3, rest⟩⟩⟩
  · have hpair : expandStandardOperations s []
        = (([(['P'] : GoStr)], [(['N'] : GoStr)]), s) := by
      unfold expandStandardOperations
      rw [if_pos rfl]
    rw [hpair]
    refine ⟨symStep_refl s, hinv, rfl, rfl, ?_⟩
    intro sy h
    cases h
  · have hwf' : op1 = ['E'] ∨ op1 = ['R'] ∨ op1 = ['L']
        ∨ (op1.headD ' ' = 'P' ∧ (op1.drop 1 ∈ vocab ∨ op1.drop 1 = noneSy)) := hwf
    have hne : (op1 :: ([] : List GoStr)) ≠ [] := by simp
    rcases hwf' with hE | hR | hL | ⟨hP, _⟩
    · subst hE
      obtain ⟨hstep1, hinv1, hdom1, hval1⟩ := newSym_spec s noneSy hinv
      have hpair : expandStandardOperations s [['E']]
          = (([('P' :: (newMConfigurationSymbol s noneSy).1 : GoStr)], [(['N'] : GoStr)]),
             (newMConfigurationSymbol s noneSy).2) := by
        unfold expandStandardOperations
        rw [if_neg hne, expandOpsLoop_E _ _ _ _ _ (by decide) (by decide),
          if_pos rfl, expandOpsLoop_nil, List.nil_append]
        rfl
      rw [hpair]
      refine ⟨hstep1, hinv1, ?_, rfl, ?_⟩
      · rw [show rowPrintSym [['E']] = some noneSy from rfl]
        rw [hval1]
      · intro sy h
        rw [show rowPrintSym [['E']] = some noneSy from rfl] at h
        cases h
        exact hdom1
    · subst hR
      have hpair : expandStandardOperations s [['R']]
          = (([(['P'] : GoStr)], [(['R'] : GoStr)]), s) := by
        unfold expandStandardOperations
        rw [if_neg hne, expandOpsLoop_other _ _ _ _ _ (by decide) (by decide),
          expandOpsLoop_nil, List.nil_append, List.nil_append]
        rfl
      rw [hpair]
      refine ⟨symStep_refl s, hinv, rfl, rfl, ?_⟩
      intro sy h
      cases h
    · subst hL
      have hpair : expandStandardOperations s [['L']]
          = (([(['P'] : GoStr)], [(['L'] : GoStr)]), s) := by
        unfold expandStandardOperations
        rw [if_neg hne, expandOpsLoop_other _ _ _ _ _ (by decide) (by decide),
          expandOpsLoop_nil, List.nil_append, List.nil_append]
        rfl
      rw [hpair]
      refine ⟨symStep_refl s, hinv, rfl, rfl, ?_⟩
      intro sy h
      cases h
    · obtain ⟨hstep1, hinv1, hdom1, hval1⟩ := newSym_spec s (op1.drop 1) hinv
      have hpair : expandStandardOperations s [op1]
          = (([('P' :: (newMConfigurationSymbol s (op1.drop 1)).1 : GoStr)], [(['N'] : GoStr)]),
             (newMConfigurationSymbol s (op1.drop 1)).2) := by
        unfold expandStandardOperations
        rw [if_neg hne, expandOpsLoop_P _ _ _ _ _ hP, if_pos rfl,
          expandOpsLoop_nil, List.nil_append]
        rfl
      rw [hpair]
      have hps : rowPrintSym [op1] = some (op1.drop 1) := by
        show (if op1.headD ' ' = 'P' then some (op1.drop 1)
          else if op1 = ['E'] then some noneSy else none) = some (op1.drop 1)
        rw [if_pos hP]
      refine ⟨hstep1, hinv1, ?_, ?_, ?_⟩
      · rw [hps, hval1]
      · rw [show rowMove [op1] = if op1.headD ' ' = 'P' ∨ op1 = ['E'] then ['N'] else op1 from rfl,
          if_pos (Or.inl hP)]
      · intro sy h
        rw [hps] at h
        cases h
        exact hdom1
  · have hwf' : (op1 = ['E'] ∨ (op1.headD ' ' = 'P' ∧ (op1.drop 1 ∈ vocab ∨ op1.drop 1 = noneSy)))
        ∧ (op2 = ['R'] ∨ op2 = ['L']) := hwf
    have hne : (op1 :: op2 :: ([] : List GoStr)) ≠ [] := by simp
    have hrne : (op2 :: ([] : List GoStr)) ≠ [] := by simp
    have hmv : (if op2.headD ' ' = 'L' ∨ op2.headD ' ' = 'R'
        then [op2.headD ' '] else (['N'] : GoStr)) = op2 := by
      rcases hwf'.2 with h | h <;> subst h <;> decide
    rcases hwf'.1 with hE | ⟨hP, _⟩
    · subst hE
      obtain ⟨hstep1, hinv1, hdom1, hval1⟩ := newSym_spec s noneSy hinv
      have hpair : expandStandardOperations s [['E'], op2]
          = (([('P' :: (newMConfigurationSymbol s noneSy).1 : GoStr)], [op2]),
             (newMConfigurationSymbol s noneSy).2) := by
        unfold expandStandardOperations
        rw [if_neg hne, expandOpsLoop_E _ _ _ _ _ (by decide) (by decide),
          if_neg hrne, expandOpsLoop_move, expandOpsLoop_nil, List.nil_append,
          List.nil_append, hmv]
      rw [hpair]
      refine ⟨hstep1, hinv1, ?_, rfl, ?_⟩
      · rw [show rowPrintSym [['E'], op2] = some noneSy from rfl]
        rw [hval1]
      · intro sy h
        rw [show rowPrintSym [['E'], op2] = some noneSy from rfl] at h
        cases h
        exact hdom1
    · obtain ⟨hstep1, hinv1, hdom1, hval1⟩ := newSym_spec s (op1.drop 1) hinv
      have hpair : expandStandardOperations s [op1, op2]
          = (([('P' :: (newMConfigurationSymbol s (op1.drop 1)).1 : GoStr)], [op2]),
             (newMConfigurationSymbol s (op1.drop 1)).2) := by
        unfold expandStandardOperations
        rw [if_neg hne, expandOpsLoop_P _ _ _ _ _ hP, if_neg hrne,
          expandOpsLoop_move, expandOpsLoop_nil, List.nil_append, List.nil_append, hmv]
      rw [hpair]
      have hps : rowPrintSym [op1, op2] = some (op1.drop 1) := by
        show (if op1.headD ' ' = 'P' then some (op1.drop 1)
          else if op1 = ['E'] then some noneSy else none) = some (op1.drop 1)
        rw [if_pos hP]
      refine ⟨hstep1, hinv1, ?_, rfl, ?_⟩
      · rw [hps, hval1]
      · intro sy h
        rw [hps] at h
        cases h
        exact hdom1
  · exact absurd hwf (by intro h; exact h)

/-! ### Row emission for single-pair operation lists -/

/-- With exactly one print/move pair, `pairRowsLoop` emits one row and
leaves the interning state untouched: no hidden m-configurations arise. -/
theorem pairRows_single (s : STState) (possible : List GoStr)
    (cs fin cur π μ : GoStr) (acc : List MConfiguration) :
    pairRowsLoop s possible cs fin cur true acc [π] [μ]
      = (acc ++ [⟨cur, [cs], [calculateStandardPrintOperation π cs, μ], fin⟩], s) := by
  simp only [pairRowsLoop]
  simp only [if_true]
  rfl

theorem symbolRows_single (possible : List GoStr) (π μ name fin : GoStr) :
    ∀ (css : List GoStr) (s : STState) (acc : List MConfiguration),
    symbolRowsLoop s possible [π] [μ] name fin acc css
      = (acc ++ css.map (fun cs =>
          ⟨name, [cs], [calculateStandardPrintOperation π cs, μ], fin⟩), s) := by
  intro css
  induction css with
  | nil =>
    intro s acc
    simp [symbolRowsLoop]
  | cons cs rest ih =>
    intro s acc
    have hstep : symbolRowsLoop s possible [π] [μ] name fin acc (cs :: rest)
        = symbolRowsLoop (pairRowsLoop s possible cs fin name true acc [π] [μ]).2
            possible [π] [μ] name fin
            (pairRowsLoop s possible cs fin name true acc [π] [μ]).1 rest := by
      simp only [symbolRowsLoop]
    rw [hstep, pairRows_single]
    rw [ih]
    rw [List.map_cons, List.append_assoc, List.singleton_append]

/-! ### The standardizer emits exactly the canonical rows -/

theorem standardizeRowsLoop_spec (vocab : List GoStr)
    (hvocab : ∀ p ∈ vocab, p.headD ' ' ≠ 'S') :
    ∀ (rows : List MConfiguration) (s : STState) (acc : List MConfiguration),
    SymInv s → NameInv s
    → (∀ mc ∈ rows, stdFormOps vocab mc.Operations)
    → symExt s (standardizeRowsLoop s vocab acc rows).2
      ∧ nameExt s (standardizeRowsLoop s vocab acc rows).2
      ∧ SymInv (standardizeRowsLoop s vocab acc rows).2
      ∧ NameInv (standardizeRowsLoop s vocab acc rows).2
      ∧ (standardizeRowsLoop s vocab acc rows).1
          = acc ++ rows.flatMap (fun mc =>
              (matchList mc.Symbols vocab).map
                (stdRowFor (sLook (standardizeRowsLoop s vocab acc rows).2)
                  (nLook (standardizeRowsLoop s vocab acc rows).2) mc))
      ∧ (∀ mc ∈ rows, nameDom (standardizeRowsLoop s vocab acc rows).2 mc.Name
          ∧ nameDom (standardizeRowsLoop s vocab acc rows).2 mc.FinalMConfiguration)
      ∧ (∀ mc ∈ rows, ∀ y ∈ matchList mc.Symbols vocab,
          symDom (standardizeRowsLoop s vocab acc rows).2 y)
      ∧ (∀ mc ∈ rows, ∀ sy, rowPrintSym mc.Operations = some sy
          → symDom (standardizeRowsLoop s vocab acc rows).2 sy) := by
  intro rows
  induction rows with
  | nil =>
    intro s acc hsym hname hops
    refine ⟨symExt_refl s, nameExt_refl s, hsym, hname, by simp [standardizeRowsLoop], ?_, ?_, ?_⟩
    · intro mc hmc; simp at hmc
    · intro mc hmc; simp at hmc
    · intro mc hmc; simp at hmc
  | cons mc rest ih =>
    intro s acc hsym hname hops
    have hops1 : stdFormOps vocab mc.Operations := hops mc (List.mem_cons_self _ _)
    have hopsr : ∀ r ∈ rest, stdFormOps vocab r.Operations :=
      fun r hr => hops r (List.mem_cons_of_mem _ hr)
    obtain ⟨e1step, e1inv, e1res, e1dom, e1shape⟩ :=
      expandStandardSymbols_spec vocab hvocab mc.Symbols s hsym
    have e1name : NameInv (expandStandardSymbols s vocab mc.Symbols).2 :=
      NameInv_of_symStep e1step hname
    obtain ⟨e2step, e2inv, e2print, e2move, e2dom⟩ :=
      expandOps_spec vocab mc.Operations (expandStandardSymbols s vocab mc.Symbols).2
        e1inv hops1
    have e2name : NameInv (expandStandardOperations
        (expandStandardSymbols s vocab mc.Symbols).2 mc.Operations).2 :=
      NameInv_of_symStep e2step e1name
    set s1 := (expandStandardSymbols s vocab mc.Symbols).2 with hs1
    set s2 := (expandStandardOperations s1 mc.Operations).2 with hs2
    obtain ⟨n3ext, n3sym, n3cnt, n3inv, n3dom, n3val, n3some⟩ :=
      newName_spec s2 mc.Name e2name
    set s3 := (newMConfigurationName s2 mc.Name).2 with hs3
    have e3inv : SymInv s3 := SymInv_congr n3sym n3cnt e2inv
    obtain ⟨n4ext, n4sym, n4cnt, n4inv, n4dom, n4val, n4some⟩ :=
      newName_spec s3 mc.FinalMConfiguration n3inv
    set s4 := (newMConfigurationName s3 mc.FinalMConfiguration).2 with hs4
    have e4inv : SymInv s4 := SymInv_congr n4sym n4cnt e3inv
    have hstep : standardizeRowsLoop s vocab acc (mc :: rest)
        = standardizeRowsLoop s4 vocab
            (acc ++ (expandStandardSymbols s vocab mc.Symbols).1.map (fun cs =>
              ⟨(newMConfigurationName s2 mc.Name).1, [cs],
               [calculateStandardPrintOperation
                  (match rowPrintSym mc.Operations with
                   | some sy => 'P' :: sLook s2 sy
                   | none => (['P'] : GoStr)) cs,
                rowMove mc.Operations],
               (newMConfigurationName s3 mc.FinalMConfiguration).1⟩)) rest := by
      simp only [standardizeRowsLoop]
      rw [← hs1, ← hs2, ← hs3, ← hs4]
      rw [e2print, e2move]
      rw [symbolRows_single]
    rw [hstep]
    obtain ⟨ihsymExt, ihnameExt, ihsym, ihname, ihres, ihnames, ihsyms, ihprints⟩ :=
      ih s4 (acc ++ (expandStandardSymbols s vocab mc.Symbols).1.map (fun cs =>
          ⟨(newMConfigurationName s2 mc.Name).1, [cs],
           [calculateStandardPrintOperation
              (match rowPrintSym mc.Operations with
               | some sy => 'P' :: sLook s2 sy
               | none => (['P'] : GoStr)) cs,
            rowMove mc.Operations],
           (newMConfigurationName s3 mc.FinalMConfiguration).1⟩))
        e4inv n4inv hopsr
    set S := standardizeRowsLoop s4 vocab
        (acc ++ (expandStandardSymbols s vocab mc.Symbols).1.map (fun cs =>
          ⟨(newMConfigurationName s2 mc.Name).1, [cs],
           [calculateStandardPrintOperation
              (match rowPrintSym mc.Operations with
               | some sy => 'P' :: sLook s2 sy
               | none => (['P'] : GoStr)) cs,
            rowMove mc.Operations],
           (newMConfigurationName s3 mc.FinalMConfiguration).1⟩)) rest with hS
    have hsymExt23 : symExt s2 s3 := ⟨[], by rw [n3sym, List.append_nil]⟩
    have hsymExt34 : symExt s3 s4 := ⟨[], by rw [n4sym, List.append_nil]⟩
    have hsymExt1S : symExt s1 S.2 :=
      symExt_trans e2step.1 (symExt_trans hsymExt23 (symExt_trans hsymExt34 ihsymExt))
    have hsymExt2S : symExt s2 S.2 :=
      symExt_trans hsymExt23 (symExt_trans hsymExt34 ihsymExt)
    have hnameExt3S : nameExt s3 S.2 := nameExt_trans n4ext ihnameExt
    have hnameExt4S : nameExt s4 S.2 := ihnameExt
    refine ⟨?_, ?_, ihsym, ihname, ?_, ?_, ?_, ?_⟩
    · exact symExt_trans e1step.1 (symExt_trans e2step.1
        (symExt_trans hsymExt23 (symExt_trans hsymExt34 ihsymExt)))
    · exact nameExt_trans (symStep_nameExt e1step) (nameExt_trans (symStep_nameExt e2step)
        (nameExt_trans n3ext hnameExt3S))
    · rw [ihres, e1res, List.map_map, List.flatMap_cons, ← List.append_assoc]
      congr 1
      congr 1
      refine List.map_congr_left ?_
      intro y hy
      have hydom : symDom s1 y := e1dom y hy
      have hyS : sLook S.2 y = sLook s1 y := sLook_stable hsymExt1S hydom
      show (⟨(newMConfigurationName s2 mc.Name).1, [sLook s1 y],
          [calculateStandardPrintOperation
             (match rowPrintSym mc.Operations with
              | some sy => 'P' :: sLook s2 sy
              | none => (['P'] : GoStr)) (sLook s1 y),
           rowMove mc.Operations],
          (newMConfigurationName s3 mc.FinalMConfiguration).1⟩ : MConfiguration)
        = stdRowFor (sLook S.2) (nLook S.2) mc y
      unfold stdRowFor
      have hname1 : (newMConfigurationName s2 mc.Name).1 = nLook S.2 mc.Name := by
        rw [n3val]
        exact (nLook_stable hnameExt3S n3dom).symm
      have hname2 : (newMConfigurationName s3 mc.FinalMConfiguration).1
          = nLook S.2 mc.FinalMConfiguration := by
        rw [n4val]
        exact (nLook_stable hnameExt4S n4dom).symm
      rw [hname1, hname2, hyS]
      cases hps : rowPrintSym mc.Operations with
      | none =>
        simp only [calculateStandardPrintOperation]
        rw [if_pos trivial]
      | some sy =>
        have hsydom : symDom s2 sy := e2dom sy hps
        obtain ⟨v, hv⟩ := Option.isSome_iff_exists.mp hsydom
        obtain ⟨i, hiv⟩ := symVal_shape e2inv hv
        have hvne : sLook s2 sy ≠ [] := by
          unfold sLook
          rw [hv, hiv]
          simp
        simp only [calculateStandardPrintOperation]
        rw [if_neg ?hne]
        case hne =>
          intro hcon
          have : sLook s2 sy = [] := (List.cons.inj hcon).2
          exact hvne this
        rw [sLook_stable hsymExt2S hsydom]
    · intro r hr
      rcases List.mem_cons.mp hr with h | h
      · subst h
        exact ⟨nameDom_mono hnameExt3S n3dom, nameDom_mono hnameExt4S n4dom⟩
      · exact ihnames r h
    · intro r hr
      rcases List.mem_cons.mp hr with h | h
      · subst h
        intro y hy
        exact symDom_mono hsymExt1S (e1dom y hy)
      · exact ihsyms r h
    · intro r hr
      rcases List.mem_cons.mp hr with h | h
      · subst h
        intro sy hsy
        exact symDom_mono hsymExt2S (e2dom sy hsy)
      · exact ihprints r h

/-! ### The match list captures exactly the row-matching semantics -/

theorem notSymbolsOf_ne_nil_iff (ps : List GoStr) :
    notSymbolsOf ps ≠ [] ↔ ∃ e ∈ ps, e.contains '!' = true := by
  unfold notSymbolsOf
  constructor
  · intro h
    have hf : ps.filter (fun s => s.contains '!') ≠ [] := by
      intro hc
      rw [hc] at h
      exact h rfl
    obtain ⟨e, he⟩ := List.exists_mem_of_ne_nil _ hf
    exact ⟨e, (List.mem_filter.mp he).1, (List.mem_filter.mp he).2⟩
  · rintro ⟨e, he, hc⟩
    intro hnil
    rw [List.map_eq_nil_iff] at hnil
    have hmem := List.mem_filter.mpr ⟨he, hc⟩
    rw [hnil] at hmem
    exact absurd hmem (List.not_mem_nil e)

/-- For a scanned symbol drawn from the vocabulary (or the blank), the
match list membership coincides with `findMConfiguration`s row-matching
disjunction. -/
theorem matchList_iff (vocab ps : List GoStr) (hvoc : wfVocab vocab) (x : GoStr)
    (hx : x ∈ vocab ∨ x = noneSy) :
    x ∈ matchList ps vocab
      ↔ (x ∈ ps ∨ (x ≠ noneSy ∧ (anySy ∈ ps
          ∨ (notSymbolsOf ps ≠ [] ∧ x ∉ notSymbolsOf ps)))) := by
  rw [matchList_eq]
  constructor
  · intro h
    obtain ⟨e, he, hme⟩ := List.mem_flatMap.mp h
    unfold mEntry at hme
    by_cases hb : e.contains '!' = true
    · rw [if_pos hb] at hme
      have hxv := List.mem_filter.mp hme
      right
      refine ⟨(hvoc x hxv.1).2.2.1, Or.inr ⟨?_, ?_⟩⟩
      · exact (notSymbolsOf_ne_nil_iff ps).mpr ⟨e, he, hb⟩
      · simpa using hxv.2
    · rw [if_neg hb] at hme
      by_cases ha : e = anySy
      · rw [if_pos ha] at hme
        right
        exact ⟨(hvoc x hme).2.2.1, Or.inl (ha ▸ he)⟩
      · rw [if_neg ha] at hme
        left
        rw [List.mem_singleton.mp hme]
        exact he
  · intro h
    rcases h with hmem | ⟨hne, hrest⟩
    · refine List.mem_flatMap.mpr ⟨x, hmem, ?_⟩
      unfold mEntry
      have hcx : ¬ x.contains '!' = true := by
        rcases hx with hv | hn
        · exact (hvoc x hv).1
        · subst hn; decide
      have hax : x ≠ anySy := by
        rcases hx with hv | hn
        · exact (hvoc x hv).2.1
        · subst hn; decide
      rw [if_neg hcx, if_neg hax]
      exact List.mem_singleton.mpr rfl
    · have hxvoc : x ∈ vocab := by
        rcases hx with hv | hn
        · exact hv
        · exact absurd hn hne
      rcases hrest with hany | ⟨hnsne, hnots⟩
      · refine List.mem_flatMap.mpr ⟨anySy, hany, ?_⟩
        unfold mEntry
        rw [if_neg (by decide), if_pos rfl]
        exact hxvoc
      · obtain ⟨e, he, hcb⟩ := (notSymbolsOf_ne_nil_iff ps).mp hnsne
        refine List.mem_flatMap.mpr ⟨e, he, ?_⟩
        unfold mEntry
        rw [if_pos hcb]
        exact List.mem_filter.mpr ⟨hxvoc, by simpa using hnots⟩

theorem find?_of_iff (l : List GoStr) (p : GoStr → Bool) (x : GoStr)
    (hiff : ∀ y ∈ l, p y = true ↔ y = x) :
    l.find? p = if x ∈ l then some x else none := by
  induction l with
  | nil => simp
  | cons a rest ih =>
    by_cases hpa : p a = true
    · have hax : a = x := (hiff a (List.mem_cons_self _ _)).mp hpa
      rw [List.find?_cons_of_pos _ hpa,
        if_pos (by rw [← hax]; exact List.mem_cons_self _ _), hax]
    · have hax : a ≠ x := fun he =>
        hpa ((hiff a (List.mem_cons_self _ _)).mpr he)
      have hmem : (x ∈ a :: rest) ↔ (x ∈ rest) := by
        rw [List.mem_cons]
        constructor
        · rintro (h | h)
          · exact absurd h.symm hax
          · exact h
        · exact Or.inr
      rw [List.find?_cons_of_neg _ hpa,
        ih (fun y hy => hiff y (List.mem_cons_of_mem _ hy)), if_congr hmem rfl rfl]

theorem find?_eq_none_of_all (l : List GoStr) (p : GoStr → Bool)
    (h : ∀ y ∈ l, ¬ p y = true) : l.find? p = none :=
  List.find?_eq_none.mpr h

/-- Matching against a standardized row: only the exact-symbol scenario can
fire, because the interned symbol `S<i>` is neither `*` nor a `!` entry. -/
theorem rowMatches_stdRow (σf νf : GoStr → GoStr) (mc : MConfiguration) (y : GoStr)
    (i : Nat) (hσ : σf y = 'S' :: itoa i) (n x ns : GoStr) :
    rowMatches (stdRowFor σf νf mc y) (νf n) x ns
      = decide (νf mc.Name = νf n ∧ x = σf y) := by
  unfold rowMatches stdRowFor
  rw [decide_eq_decide]
  dsimp only
  constructor
  · rintro ⟨hname, h2⟩
    refine ⟨hname, ?_⟩
    rcases h2 with hm | ⟨hxne, hany | ⟨hne, hni⟩⟩
    · exact List.mem_singleton.mp hm
    · rw [List.mem_singleton] at hany
      rw [hσ] at hany
      exact absurd hany.symm (sshape_ne_any i)
    · rw [hσ, sshape_notSymbols] at hne
      exact absurd rfl hne
  · rintro ⟨hname, he⟩
    exact ⟨hname, Or.inl (List.mem_singleton.mpr he)⟩

/-! ### Global facts about `NewStandardTable` on well-formed input -/

theorem symDom_congr {s s' : STState} (h : symsOf s' = symsOf s) {x : GoStr}
    (hx : symDom s x) : symDom s' x := by
  unfold symDom
  rw [h]
  exact hx

theorem sLook_congr {s s' : STState} (h : symsOf s' = symsOf s) (x : GoStr) :
    sLook s' x = sLook s x := by
  unfold sLook
  rw [h]

/-- The canonical standardized rows: one exact-symbol row per original row
and matched vocabulary symbol. -/
def stdRowsOf (input : MachineInput) : List MConfiguration :=
  input.MConfigurations.flatMap (fun mc =>
    (matchList mc.Symbols input.PossibleSymbols).map
      (stdRowFor (sigmaF input) (nuF input) mc))

/-- Everything the simulation needs to know about the output of
`NewStandardTable` on a well-formed input. -/
structure StdFacts (input : MachineInput) : Prop where
  rows_eq : (NewStandardTable input).MachineInput.MConfigurations = stdRowsOf input
  symInv : SymInv (finalSymState input)
  nameInv : NameInv (finalState input)
  symsEq : symsOf (finalState input) = symsOf (finalSymState input)
  nameDoms : ∀ mc ∈ input.MConfigurations,
    nameDom (finalState input) mc.Name ∧ nameDom (finalState input) mc.FinalMConfiguration
  symDoms : ∀ mc ∈ input.MConfigurations,
    ∀ y ∈ matchList mc.Symbols input.PossibleSymbols, symDom (finalSymState input) y
  printDoms : ∀ mc ∈ input.MConfigurations, ∀ sy,
    rowPrintSym mc.Operations = some sy → symDom (finalSymState input) sy
  noneDom : symDom (finalSymState input) noneSy
  tape_eq : (NewStandardTable input).MachineInput.Tape = input.Tape.map (sigmaF input)
  none_eq : (NewStandardTable input).MachineInput.NoneSymbol = sigmaF input noneSy
  sm_eq : (NewStandardTable input).SymbolMap
    = (symsOf (finalSymState input)).map (fun kv => (kv.2, kv.1))
  start_nil : input.StartingMConfiguration = []
    → (NewStandardTable input).MachineInput.StartingMConfiguration = []
  start_some : input.StartingMConfiguration ≠ []
    → (NewStandardTable input).MachineInput.StartingMConfiguration
        = nuF input input.StartingMConfiguration
      ∧ nameDom (finalState input) input.StartingMConfiguration

theorem stdFacts_of_wf (input : MachineInput) (h : WellFormed input) :
    StdFacts input := by
  have hvoc : wfVocab input.PossibleSymbols := h.2.2.1
  have hvoc' : ∀ p ∈ input.PossibleSymbols, p.headD ' ' ≠ 'S' :=
    fun p hp => (hvoc p hp).2.2.2
  have hops : ∀ mc ∈ input.MConfigurations, stdFormOps input.PossibleSymbols mc.Operations :=
    fun mc hmc => (h.2.2.2.1 mc hmc).2
  have h0sym : SymInv (newMConfigurationSymbol initSTState noneSy).2 := by
    refine ⟨rfl, ?_⟩
    intro i hi
    have hi0 : i = 0 := by
      have : i < 1 := hi
      omega
    subst hi0
    rfl
  have h0name : NameInv (newMConfigurationSymbol initSTState noneSy).2 := by
    refine ⟨rfl, ?_⟩
    intro i hi
    have : i < 0 := hi
    omega
  obtain ⟨lsymExt, lnameExt, lsymInv, lnameInv, lres, lnames, lsyms, lprints⟩ :=
    standardizeRowsLoop_spec input.PossibleSymbols hvoc' input.MConfigurations
      (newMConfigurationSymbol initSTState noneSy).2 [] h0sym h0name hops
  have h0dom : symDom (newMConfigurationSymbol initSTState noneSy).2 noneSy := by
    unfold symDom
    decide
  have hnonedomF : symDom (finalSymState input) noneSy :=
    symDom_mono lsymExt h0dom
  have hbundle : nameExt (finalSymState input) (finalState input)
      ∧ symsOf (finalState input) = symsOf (finalSymState input)
      ∧ NameInv (finalState input)
      ∧ (input.StartingMConfiguration = []
          → (NewStandardTable input).MachineInput.StartingMConfiguration = [])
      ∧ (input.StartingMConfiguration ≠ []
          → (NewStandardTable input).MachineInput.StartingMConfiguration
              = nuF input input.StartingMConfiguration
            ∧ nameDom (finalState input) input.StartingMConfiguration) := by
    by_cases hst : input.StartingMConfiguration = []
    · have hfseq : finalState input = finalSymState input := by
        unfold finalState newStartingMConfiguration
        rw [if_pos hst]
      refine ⟨?_, ?_, ?_, ?_, ?_⟩
      · rw [hfseq]; exact nameExt_refl _
      · rw [hfseq]
      · rw [hfseq]; exact lnameInv
      · intro _
        show (newStartingMConfiguration (finalSymState input) input).1 = []
        unfold newStartingMConfiguration
        rw [if_pos hst]
      · intro hne; exact absurd hst hne
    · obtain ⟨next, nsym, ncnt, ninv, ndom, nval, _⟩ :=
        newName_spec (finalSymState input) input.StartingMConfiguration lnameInv
      have hfdef : finalState input
          = (newMConfigurationName (finalSymState input) input.StartingMConfiguration).2 := by
        unfold finalState newStartingMConfiguration
        rw [if_neg hst]
      refine ⟨?_, ?_, ?_, ?_, ?_⟩
      · rw [hfdef]; exact next
      · rw [hfdef]; exact nsym
      · rw [hfdef]; exact ninv
      · intro hc; exact absurd hc hst
      · intro _
        constructor
        · show (newStartingMConfiguration (finalSymState input) input).1
            = nuF input input.StartingMConfiguration
          unfold newStartingMConfiguration
          rw [if_neg hst, nval, ← hfdef]
          rfl
        · rw [hfdef]; exact ndom
  obtain ⟨hext2, hsymseq, hninv2, hstartnil, hstartsome⟩ := hbundle
  have hdomFin : symDom (finalState input) noneSy := symDom_congr hsymseq hnonedomF
  have hhit := newSym_hit hdomFin
  refine ⟨?_, lsymInv, hninv2, hsymseq, ?_, lsyms, lprints, hnonedomF, rfl, ?_, ?_,
    hstartnil, hstartsome⟩
  · have h0 : (NewStandardTable input).MachineInput.MConfigurations
        = (standardizeRowsLoop (newMConfigurationSymbol initSTState noneSy).2
            input.PossibleSymbols [] input.MConfigurations).1 := rfl
    rw [h0, lres, List.nil_append]
    unfold stdRowsOf
    refine List.flatMap_congr ?_
    intro mc hmc
    refine List.map_congr_left ?_
    intro y hy
    unfold stdRowFor
    have hn1 : nLook (standardizeRowsLoop (newMConfigurationSymbol initSTState noneSy).2
        input.PossibleSymbols [] input.MConfigurations).2 mc.Name = nuF input mc.Name :=
      (nLook_stable hext2 (lnames mc hmc).1).symm
    have hn2 : nLook (standardizeRowsLoop (newMConfigurationSymbol initSTState noneSy).2
        input.PossibleSymbols [] input.MConfigurations).2 mc.FinalMConfiguration
        = nuF input mc.FinalMConfiguration :=
      (nLook_stable hext2 (lnames mc hmc).2).symm
    rw [hn1, hn2]
    rfl
  · intro mc hmc
    exact ⟨nameDom_mono hext2 (lnames mc hmc).1, nameDom_mono hext2 (lnames mc hmc).2⟩
  · have h0 : (NewStandardTable input).MachineInput.NoneSymbol
        = (newMConfigurationSymbol (finalState input) noneSy).1 := rfl
    rw [h0, hhit]
    show sLook (finalState input) noneSy = sigmaF input noneSy
    rw [sLook_congr hsymseq]
    rfl
  · have h0 : (NewStandardTable input).SymbolMap
        = reverseMConfigurationSymbols (newMConfigurationSymbol (finalState input) noneSy).2 := rfl
    rw [h0, hhit]
    show (symsOf (finalState input)).map (fun kv => (kv.2, kv.1)) = _
    rw [hsymseq]

/-! ### The standardized table finds the image of the original row -/

theorem sigmaF_shape (input : MachineInput) (hs : SymInv (finalSymState input))
    {y : GoStr} (hy : symDom (finalSymState input) y) :
    ∃ i, sigmaF input y = 'S' :: itoa i := by
  obtain ⟨v, hv⟩ := Option.isSome_iff_exists.mp hy
  obtain ⟨i, hi⟩ := symVal_shape hs hv
  refine ⟨i, ?_⟩
  unfold sigmaF
  rw [show alookup (finalSymState input).mConfigurationSymbols y = some v from hv, hi]
  rfl

theorem sigmaF_inj (input : MachineInput) (hs : SymInv (finalSymState input))
    {a b : GoStr} (ha : symDom (finalSymState input) a)
    (hb : symDom (finalSymState input) b)
    (he : sigmaF input a = sigmaF input b) : a = b :=
  sLook_inj hs ha hb he

theorem nuF_inj (input : MachineInput) (hn : NameInv (finalState input))
    {a b : GoStr} (ha : nameDom (finalState input) a)
    (hb : nameDom (finalState input) b)
    (he : nuF input a = nuF input b) : a = b :=
  nLook_inj hn ha hb he

theorem find_std_aux (input : MachineInput) (F : StdFacts input)
    (hvoc : wfVocab input.PossibleSymbols)
    (n x : GoStr) (hn : nameDom (finalState input) n)
    (hx : symDom (finalSymState input) x)
    (hxv : x ∈ input.PossibleSymbols ∨ x = noneSy) :
    ∀ rs : List MConfiguration,
    (∀ mc ∈ rs, nameDom (finalState input) mc.Name
      ∧ (∀ y ∈ matchList mc.Symbols input.PossibleSymbols,
          symDom (finalSymState input) y))
    → (rs.flatMap (fun mc => (matchList mc.Symbols input.PossibleSymbols).map
          (stdRowFor (sigmaF input) (nuF input) mc))).find?
        (fun R => rowMatches R (nuF input n) (sigmaF input x) (sigmaF input noneSy))
      = Option.map (fun mc => stdRowFor (sigmaF input) (nuF input) mc x)
          (rs.find? (fun mc => rowMatches mc n x noneSy)) := by
  intro rs
  induction rs with
  | nil => intro _; rfl
  | cons mc rest ih =>
    intro hfacts
    have hmcn : nameDom (finalState input) mc.Name := (hfacts mc (List.mem_cons_self _ _)).1
    have hmcy : ∀ y ∈ matchList mc.Symbols input.PossibleSymbols,
        symDom (finalSymState input) y := (hfacts mc (List.mem_cons_self _ _)).2
    have hrest := fun r hr => hfacts r (List.mem_cons_of_mem _ hr)
    rw [List.flatMap_cons, List.find?_append, List.find?_map]
    by_cases hname : mc.Name = n
    · by_cases horig : rowMatches mc n x noneSy = true
      · have hsymm : x ∈ mc.Symbols ∨ (x ≠ noneSy ∧ (anySy ∈ mc.Symbols
            ∨ (notSymbolsOf mc.Symbols ≠ [] ∧ x ∉ notSymbolsOf mc.Symbols))) := by
          have := horig
          simp only [rowMatches, decide_eq_true_eq] at this
          exact this.2
        have hxin : x ∈ matchList mc.Symbols input.PossibleSymbols :=
          (matchList_iff input.PossibleSymbols mc.Symbols hvoc x hxv).mpr hsymm
        have hiff : ∀ y ∈ matchList mc.Symbols input.PossibleSymbols,
            ((fun R => rowMatches R (nuF input n) (sigmaF input x) (sigmaF input noneSy))
              ∘ stdRowFor (sigmaF input) (nuF input) mc) y = true ↔ y = x := by
          intro y hy
          obtain ⟨i, hi⟩ := sigmaF_shape input F.symInv (hmcy y hy)
          show rowMatches (stdRowFor (sigmaF input) (nuF input) mc y)
            (nuF input n) (sigmaF input x) (sigmaF input noneSy) = true ↔ y = x
          rw [rowMatches_stdRow (sigmaF input) (nuF input) mc y i hi]
          simp only [decide_eq_true_eq]
          constructor
          · rintro ⟨_, hxy⟩
            exact (sigmaF_inj input F.symInv (hmcy y hy) hx hxy.symm)
          · intro hyx
            subst hyx
            exact ⟨by rw [hname], rfl⟩
        rw [find?_of_iff _ _ x hiff, if_pos hxin]
        rw [@List.find?_cons_of_pos MConfiguration
          (fun r => rowMatches r n x noneSy) mc rest horig]
        rfl
      · have hxout : x ∉ matchList mc.Symbols input.PossibleSymbols := by
          intro hxin
          have hsymm := (matchList_iff input.PossibleSymbols mc.Symbols hvoc x hxv).mp hxin
          apply horig
          simp only [rowMatches, decide_eq_true_eq]
          exact ⟨hname, hsymm⟩
        have hiff : ∀ y ∈ matchList mc.Symbols input.PossibleSymbols,
            ((fun R => rowMatches R (nuF input n) (sigmaF input x) (sigmaF input noneSy))
              ∘ stdRowFor (sigmaF input) (nuF input) mc) y = true ↔ y = x := by
          intro y hy
          obtain ⟨i, hi⟩ := sigmaF_shape input F.symInv (hmcy y hy)
          show rowMatches (stdRowFor (sigmaF input) (nuF input) mc y)
            (nuF input n) (sigmaF input x) (sigmaF input noneSy) = true ↔ y = x
          rw [rowMatches_stdRow (sigmaF input) (nuF input) mc y i hi]
          simp only [decide_eq_true_eq]
          constructor
          · rintro ⟨_, hxy⟩
            exact (sigmaF_inj input F.symInv (hmcy y hy) hx hxy.symm)
          · intro hyx
            subst hyx
            exact ⟨by rw [hname], rfl⟩
        rw [find?_of_iff _ _ x hiff, if_neg hxout]
        rw [@List.find?_cons_of_neg MConfiguration
          (fun r => rowMatches r n x noneSy) mc rest horig]
        exact ih hrest
    · have horig : ¬ rowMatches mc n x noneSy = true := by
        simp only [rowMatches, decide_eq_true_eq]
        rintro ⟨hcon, _⟩
        exact hname hcon
      have hall : ∀ y ∈ matchList mc.Symbols input.PossibleSymbols,
          ¬ ((fun R => rowMatches R (nuF input n) (sigmaF input x) (sigmaF input noneSy))
              ∘ stdRowFor (sigmaF input) (nuF input) mc) y = true := by
        intro y hy
        obtain ⟨i, hi⟩ := sigmaF_shape input F.symInv (hmcy y hy)
        show ¬ rowMatches (stdRowFor (sigmaF input) (nuF input) mc y)
          (nuF input n) (sigmaF input x) (sigmaF input noneSy) = true
        rw [rowMatches_stdRow (sigmaF input) (nuF input) mc y i hi]
        simp only [decide_eq_true_eq]
        rintro ⟨hνeq, _⟩
        exact hname (nuF_inj input F.nameInv hmcn hn hνeq)
      rw [find?_eq_none_of_all _ _ hall]
      rw [@List.find?_cons_of_neg MConfiguration
        (fun r => rowMatches r n x noneSy) mc rest horig]
      exact ih hrest

theorem find_std (input : MachineInput) (F : StdFacts input)
    (hvoc : wfVocab input.PossibleSymbols)
    (n x : GoStr) (hn : nameDom (finalState input) n)
    (hx : symDom (finalSymState input) x)
    (hxv : x ∈ input.PossibleSymbols ∨ x = noneSy) :
    findMConfiguration (stdRowsOf input) (nuF input n) (sigmaF input x) (sigmaF input noneSy)
      = Option.map (fun mc => stdRowFor (sigmaF input) (nuF input) mc x)
          (findMConfiguration input.MConfigurations n x noneSy) := by
  rw [findMConfiguration_eq_find?, findMConfiguration_eq_find?]
  exact find_std_aux input F hvoc n x hn hx hxv input.MConfigurations
    (fun mc hmc => ⟨(F.nameDoms mc hmc).1, F.symDoms mc hmc⟩)

/-! ### Effect of individual operations on an in-bounds machine -/

theorem extend_id_of_bounds (m : Machine)
    (hb : 0 ≤ m.scannedSquare ∧ m.scannedSquare < (m.tape.length : Int)) :
    m.extendTapeIfNeeded = m := by
  simp only [Machine.extendTapeIfNeeded]
  rw [if_neg (show ¬ (m.tape.length : Int) ≤ m.scannedSquare by omega)]
  rw [if_neg (show ¬ m.scannedSquare < 0 by omega)]

theorem perform_print (m : Machine)
    (hb : 0 ≤ m.scannedSquare ∧ m.scannedSquare < (m.tape.length : Int)) (v : GoStr) :
    m.performOperation ('P' :: v)
      = { m with tape := m.tape.set m.scannedSquare.toNat v } := by
  unfold Machine.performOperation
  rw [extend_id_of_bounds m hb]
  rfl

theorem perform_P (m : Machine)
    (hb : 0 ≤ m.scannedSquare ∧ m.scannedSquare < (m.tape.length : Int))
    (op : GoStr) (hp : op.headD ' ' = 'P') :
    m.performOperation op
      = { m with tape := m.tape.set m.scannedSquare.toNat (op.drop 1) } := by
  unfold Machine.performOperation
  rw [extend_id_of_bounds m hb, hp]
  rfl

theorem perform_E (m : Machine)
    (hb : 0 ≤ m.scannedSquare ∧ m.scannedSquare < (m.tape.length : Int)) :
    m.performOperation ['E']
      = { m with tape := m.tape.set m.scannedSquare.toNat m.noneSymbol } := by
  unfold Machine.performOperation
  rw [extend_id_of_bounds m hb]
  rfl

theorem perform_R (m : Machine)
    (hb : 0 ≤ m.scannedSquare ∧ m.scannedSquare < (m.tape.length : Int)) :
    m.performOperation ['R'] = { m with scannedSquare := m.scannedSquare + 1 } := by
  unfold Machine.performOperation
  rw [extend_id_of_bounds m hb]
  rfl

theorem perform_L (m : Machine)
    (hb : 0 ≤ m.scannedSquare ∧ m.scannedSquare < (m.tape.length : Int)) :
    m.performOperation ['L'] = { m with scannedSquare := m.scannedSquare - 1 } := by
  unfold Machine.performOperation
  rw [extend_id_of_bounds m hb]
  rfl

theorem perform_N (m : Machine)
    (hb : 0 ≤ m.scannedSquare ∧ m.scannedSquare < (m.tape.length : Int)) :
    m.performOperation ['N'] = m := by
  unfold Machine.performOperation
  rw [extend_id_of_bounds m hb]
  rfl

/-- The tape squares after extension come from the old tape or are the
blank symbol. -/
theorem extend_tape_mem (m : Machine) :
    ∀ sq ∈ m.extendTapeIfNeeded.tape, sq ∈ m.tape ∨ sq = m.noneSymbol := by
  intro sq hsq
  simp only [Machine.extendTapeIfNeeded] at hsq
  by_cases hge : (m.tape.length : Int) ≤ m.scannedSquare
  · rw [if_pos hge] at hsq
    by_cases hneg : m.scannedSquare < 0
    · rw [if_pos hneg] at hsq
      rcases List.mem_cons.mp hsq with h | h
      · exact Or.inr h
      · rcases List.mem_append.mp h with h2 | h2
        · exact Or.inl h2
        · exact Or.inr (List.mem_singleton.mp h2)
    · rw [if_neg hneg] at hsq
      rcases List.mem_append.mp hsq with h | h
      · exact Or.inl h
      · exact Or.inr (List.mem_singleton.mp h)
  · rw [if_neg hge] at hsq
    by_cases hneg : m.scannedSquare < 0
    · rw [if_pos hneg] at hsq
      rcases List.mem_cons.mp hsq with h | h
      · exact Or.inr h
      · exact Or.inl h
    · rw [if_neg hneg] at hsq
      exact Or.inl hsq

/-- Extension commutes with the symbol translation of the tape. -/
theorem extend_sim (input : MachineInput) (m ms : Machine)
    (htape : ms.tape = m.tape.map (sigmaF input))
    (hscan : ms.scannedSquare = m.scannedSquare)
    (hmnone : m.noneSymbol = noneSy)
    (hsnone : ms.noneSymbol = sigmaF input noneSy) :
    ms.extendTapeIfNeeded.tape = m.extendTapeIfNeeded.tape.map (sigmaF input)
    ∧ ms.extendTapeIfNeeded.scannedSquare = m.extendTapeIfNeeded.scannedSquare := by
  have hlen : (ms.tape.length : Int) = (m.tape.length : Int) := by
    rw [htape, List.length_map]
  simp only [Machine.extendTapeIfNeeded]
  by_cases hge : (m.tape.length : Int) ≤ m.scannedSquare
  · have hge' : (ms.tape.length : Int) ≤ ms.scannedSquare := by
      rw [hlen, hscan]; exact hge
    rw [if_pos hge, if_pos hge']
    have hnn : (0 : Int) ≤ (m.tape.length : Int) := Int.ofNat_nonneg _
    have hneg : ¬ m.scannedSquare < 0 := by omega
    have hneg' : ¬ ms.scannedSquare < 0 := by rw [hscan]; omega
    rw [show ({ m with tape := m.tape ++ [m.noneSymbol] } : Machine).scannedSquare
        = m.scannedSquare from rfl]
    rw [show ({ ms with tape := ms.tape ++ [ms.noneSymbol] } : Machine).scannedSquare
        = ms.scannedSquare from rfl]
    rw [if_neg hneg, if_neg hneg']
    constructor
    · show ms.tape ++ [ms.noneSymbol] = (m.tape ++ [m.noneSymbol]).map (sigmaF input)
      rw [htape, hsnone, hmnone, List.map_append]
      rfl
    · exact hscan
  · have hge' : ¬ (ms.tape.length : Int) ≤ ms.scannedSquare := by
      rw [hlen, hscan]; exact hge
    rw [if_neg hge, if_neg hge']
    by_cases hneg : m.scannedSquare < 0
    · have hneg' : ms.scannedSquare < 0 := by rw [hscan]; exact hneg
      rw [if_pos hneg, if_pos hneg']
      constructor
      · show ms.noneSymbol :: ms.tape = (m.noneSymbol :: m.tape).map (sigmaF input)
        rw [htape, hsnone, hmnone]
        rfl
      · show ms.scannedSquare + 1 = m.scannedSquare + 1
        rw [hscan]
    · have hneg' : ¬ ms.scannedSquare < 0 := by rw [hscan]; exact hneg
      rw [if_neg hneg, if_neg hneg']
      exact ⟨htape, hscan⟩

/-- The operation list of the standardized row matched for scanned symbol
`x`: one print (a noop print re-prints `x`) and one move. -/
def stdOpsFor (input : MachineInput) (ops : List GoStr) (x : GoStr) : List GoStr :=
  ['P' :: (match rowPrintSym ops with
      | some sy => sigmaF input sy
      | none => sigmaF input x), rowMove ops]

set_option maxHeartbeats 1000000 in
/-- Executing a single-pair operation list on the original machine and its
standardized print/move pair on the translated machine keeps the tapes
related pointwise by the symbol interning. -/
theorem ops_sim (input : MachineInput) (m ms : Machine) (ops : List GoStr) (x : GoStr)
    (hwfops : stdFormOps input.PossibleSymbols ops)
    (htape : ms.tape = m.tape.map (sigmaF input))
    (hscan : ms.scannedSquare = m.scannedSquare)
    (hmnone : m.noneSymbol = noneSy)
    (hb : 0 ≤ m.scannedSquare ∧ m.scannedSquare < (m.tape.length : Int))
    (hx : x = m.tape.getD m.scannedSquare.toNat []) :
    ((stdOpsFor input ops x).foldl Machine.performOperation ms).tape
        = (ops.foldl Machine.performOperation m).tape.map (sigmaF input)
    ∧ ((stdOpsFor input ops x).foldl Machine.performOperation ms).scannedSquare
        = (ops.foldl Machine.performOperation m).scannedSquare
    ∧ (ops.foldl Machine.performOperation m).mConfigurations = m.mConfigurations
    ∧ (ops.foldl Machine.performOperation m).noneSymbol = m.noneSymbol
    ∧ (ops.foldl Machine.performOperation m).currentMConfigurationName
        = m.currentMConfigurationName
    ∧ (ops.foldl Machine.performOperation m).halted = m.halted
    ∧ ((stdOpsFor input ops x).foldl Machine.performOperation ms).mConfigurations
        = ms.mConfigurations
    ∧ ((stdOpsFor input ops x).foldl Machine.performOperation ms).noneSymbol = ms.noneSymbol
    ∧ ((stdOpsFor input ops x).foldl Machine.performOperation ms).currentMConfigurationName
        = ms.currentMConfigurationName
    ∧ ((stdOpsFor input ops x).foldl Machine.performOperation ms).halted = ms.halted
    ∧ (∀ sq ∈ (ops.foldl Machine.performOperation m).tape,
        sq ∈ m.tape ∨ (∃ sy, rowPrintSym ops = some sy ∧ sq = sy)) := by
  have hk : m.scannedSquare.toNat < m.tape.length := by omega
  have hbs : 0 ≤ ms.scannedSquare ∧ ms.scannedSquare < (ms.tape.length : Int) := by
    constructor
    · rw [hscan]; exact hb.1
    · rw [hscan, htape, List.length_map]; exact hb.2
  have hkk : ms.scannedSquare.toNat = m.scannedSquare.toNat := by rw [hscan]
  have hlen' : ms.scannedSquare.toNat < ms.tape.length := by
    rw [hkk, htape, List.length_map]; exact hk
  have hgx : sigmaF input x = ms.tape.getD ms.scannedSquare.toNat [] := by
    rw [htape, hkk, getD_map _ _ _ hk, ← hx]
  rcases ops with _ | ⟨op1, _ | ⟨op2, _ | ⟨op3, rest⟩⟩⟩
  · have hmsr : (stdOpsFor input [] x).foldl Machine.performOperation ms = ms := by
      show (ms.performOperation ('P' :: sigmaF input x)).performOperation ['N'] = ms
      rw [perform_print ms hbs, hgx, set_getD_self ms.tape ms.scannedSquare.toNat hlen',
        show ({ ms with tape := ms.tape } : Machine) = ms from rfl, perform_N ms hbs]
    rw [hmsr]
    refine ⟨htape, hscan, rfl, rfl, rfl, rfl, rfl, rfl, rfl, rfl, ?_⟩
    intro sq hsq
    exact Or.inl hsq
  · have hwf' : op1 = ['E'] ∨ op1 = ['R'] ∨ op1 = ['L']
        ∨ (op1.headD ' ' = 'P' ∧ (op1.drop 1 ∈ input.PossibleSymbols ∨ op1.drop 1 = noneSy)) :=
      hwfops
    rcases hwf' with hE | hR | hL | ⟨hp, _⟩
    · subst hE
      have hmr : [(['E'] : GoStr)].foldl Machine.performOperation m
          = { m with tape := m.tape.set m.scannedSquare.toNat noneSy } := by
        show m.performOperation ['E'] = _
        rw [perform_E m hb, hmnone]
      have hmsr : (stdOpsFor input [['E']] x).foldl Machine.performOperation ms
          = { ms with tape := ms.tape.set ms.scannedSquare.toNat (sigmaF input noneSy) } := by
        show (ms.performOperation ('P' :: sigmaF input noneSy)).performOperation ['N'] = _
        rw [perform_print ms hbs]
        rw [perform_N { ms with tape := ms.tape.set ms.scannedSquare.toNat (sigmaF input noneSy) }
          ⟨hbs.1, by
            show ms.scannedSquare
              < ((ms.tape.set ms.scannedSquare.toNat (sigmaF input noneSy)).length : Int)
            rw [List.length_set]; exact hbs.2⟩]
      rw [hmr, hmsr]
      refine ⟨?_, ?_, rfl, rfl, rfl, rfl, rfl, rfl, rfl, rfl, ?_⟩
      · show ms.tape.set ms.scannedSquare.toNat (sigmaF input noneSy)
          = (m.tape.set m.scannedSquare.toNat noneSy).map (sigmaF input)
        rw [htape, hkk, List.map_set]
      · exact hscan
      · intro sq hsq
        rcases List.mem_or_eq_of_mem_set hsq with hmem | heq
        · exact Or.inl hmem
        · exact Or.inr ⟨noneSy, rfl, heq⟩
    · subst hR
      have hmr : [(['R'] : GoStr)].foldl Machine.performOperation m
          = { m with scannedSquare := m.scannedSquare + 1 } := by
        show m.performOperation ['R'] = _
        exact perform_R m hb
      have hmsr : (stdOpsFor input [['R']] x).foldl Machine.performOperation ms
          = { ms with scannedSquare := ms.scannedSquare + 1 } := by
        show (ms.performOperation ('P' :: sigmaF input x)).performOperation ['R'] = _
        rw [perform_print ms hbs, hgx, set_getD_self ms.tape ms.scannedSquare.toNat hlen',
          show ({ ms with tape := ms.tape } : Machine) = ms from rfl, perform_R ms hbs]
      rw [hmr, hmsr]
      refine ⟨htape, ?_, rfl, rfl, rfl, rfl, rfl, rfl, rfl, rfl, ?_⟩
      · show ms.scannedSquare + 1 = m.scannedSquare + 1
        rw [hscan]
      · intro sq hsq
        exact Or.inl hsq
    · subst hL
      have hmr : [(['L'] : GoStr)].foldl Machine.performOperation m
          = { m with scannedSquare := m.scannedSquare - 1 } := by
        show m.performOperation ['L'] = _
        exact perform_L m hb
      have hmsr : (stdOpsFor input [['L']] x).foldl Machine.performOperation ms
          = { ms with scannedSquare := ms.scannedSquare - 1 } := by
        show (ms.performOperation ('P' :: sigmaF input x)).performOperation ['L'] = _
        rw [perform_print ms hbs, hgx, set_getD_self ms.tape ms.scannedSquare.toNat hlen',
          show ({ ms with tape := ms.tape } : Machine) = ms from rfl, perform_L ms hbs]
      rw [hmr, hmsr]
      refine ⟨htape, ?_, rfl, rfl, rfl, rfl, rfl, rfl, rfl, rfl, ?_⟩
      · show ms.scannedSquare - 1 = m.scannedSquare - 1
        rw [hscan]
      · intro sq hsq
        exact Or.inl hsq
    · have hps : rowPrintSym [op1] = some (op1.drop 1) := by
        show (if op1.headD ' ' = 'P' then some (op1.drop 1)
          else if op1 = ['E'] then some noneSy else none) = some (op1.drop 1)
        rw [if_pos hp]
      have hmv : rowMove [op1] = ['N'] := by
        show (if op1.headD ' ' = 'P' ∨ op1 = ['E'] then ['N'] else op1) = ['N']
        rw [if_pos (Or.inl hp)]
      have hopseq : stdOpsFor input [op1] x
          = ['P' :: sigmaF input (op1.drop 1), ['N']] := by
        unfold stdOpsFor
        rw [hps, hmv]
      rw [hopseq]
      have hmr : [op1].foldl Machine.performOperation m
          = { m with tape := m.tape.set m.scannedSquare.toNat (op1.drop 1) } := by
        show m.performOperation op1 = _
        exact perform_P m hb op1 hp
      have hmsr : ['P' :: sigmaF input (op1.drop 1), ['N']].foldl
            Machine.performOperation ms
          = { ms with tape := ms.tape.set ms.scannedSquare.toNat (sigmaF input (op1.drop 1)) } := by
        show (ms.performOperation ('P' :: sigmaF input (op1.drop 1))).performOperation ['N'] = _
        rw [perform_print ms hbs]
        rw [perform_N { ms with tape := ms.tape.set ms.scannedSquare.toNat (sigmaF input (op1.drop 1)) } ⟨hbs.1, by
          show ms.scannedSquare
            < ((ms.tape.set ms.scannedSquare.toNat (sigmaF input (op1.drop 1))).length : Int)
          rw [List.length_set]; exact hbs.2⟩]
      rw [hmr, hmsr]
      refine ⟨?_, ?_, rfl, rfl, rfl, rfl, rfl, rfl, rfl, rfl, ?_⟩
      · show ms.tape.set ms.scannedSquare.toNat (sigmaF input (op1.drop 1))
          = (m.tape.set m.scannedSquare.toNat (op1.drop 1)).map (sigmaF input)
        rw [htape, hkk, List.map_set]
      · exact hscan
      · intro sq hsq
        rcases List.mem_or_eq_of_mem_set hsq with hmem | heq
        · exact Or.inl hmem
        · exact Or.inr ⟨op1.drop 1, hps, heq⟩
  · have hwf' : (op1 = ['E'] ∨ (op1.headD ' ' = 'P'
        ∧ (op1.drop 1 ∈ input.PossibleSymbols ∨ op1.drop 1 = noneSy)))
        ∧ (op2 = ['R'] ∨ op2 = ['L']) := hwfops
    have hps : rowPrintSym [op1, op2]
        = some (if op1.headD ' ' = 'P' then op1.drop 1 else noneSy) := by
      rcases hwf'.1 with hE | ⟨hp, _⟩
      · subst hE
        show some noneSy = some (if (['E'] : GoStr).headD ' ' = 'P' then (['E'] : GoStr).drop 1 else noneSy)
        rfl
      · show (if op1.headD ' ' = 'P' then some (op1.drop 1)
          else if op1 = ['E'] then some noneSy else none) = _
        rw [if_pos hp, if_pos hp]
    have hprintedVal : [op1, op2].foldl Machine.performOperation m
          = ({ m with tape := m.tape.set m.scannedSquare.toNat (if op1.headD ' ' = 'P' then op1.drop 1 else noneSy) } : Machine).performOperation op2 := by
      rcases hwf'.1 with hE | ⟨hp, _⟩
      · subst hE
        show (m.performOperation ['E']).performOperation op2 = _
        rw [perform_E m hb, hmnone]
        rw [if_neg (show ¬ ((['E'] : GoStr).headD ' ') = 'P' by decide)]
      · show (m.performOperation op1).performOperation op2 = _
        rw [perform_P m hb op1 hp, if_pos hp]
    have hmvr : rowMove [op1, op2] = op2 := rfl
    have hopseq : stdOpsFor input [op1, op2] x
        = ['P' :: sigmaF input (if op1.headD ' ' = 'P' then op1.drop 1 else noneSy), op2] := by
      unfold stdOpsFor
      rw [hps, hmvr]
    rw [hopseq, hprintedVal]
    have hbm2 : 0 ≤ ({ m with tape := m.tape.set m.scannedSquare.toNat (if op1.headD ' ' = 'P' then op1.drop 1 else noneSy) } : Machine).scannedSquare
        ∧ ({ m with tape := m.tape.set m.scannedSquare.toNat (if op1.headD ' ' = 'P' then op1.drop 1 else noneSy) } : Machine).scannedSquare
          < ((({ m with tape := m.tape.set m.scannedSquare.toNat (if op1.headD ' ' = 'P' then op1.drop 1 else noneSy) } : Machine)).tape.length : Int) := by
      refine ⟨hb.1, ?_⟩
      show m.scannedSquare < ((m.tape.set m.scannedSquare.toNat _).length : Int)
      rw [List.length_set]
      exact hb.2
    have hms1 : ['P' :: sigmaF input (if op1.headD ' ' = 'P' then op1.drop 1 else noneSy),
          op2].foldl Machine.performOperation ms
        = ({ ms with tape := ms.tape.set ms.scannedSquare.toNat (sigmaF input (if op1.headD ' ' = 'P' then op1.drop 1 else noneSy)) } : Machine).performOperation op2 := by
      show ((ms.performOperation _).performOperation op2) = _
      rw [perform_print ms hbs]
    rw [hms1]
    have hbs2 : 0 ≤ ({ ms with tape := ms.tape.set ms.scannedSquare.toNat (sigmaF input (if op1.headD ' ' = 'P' then op1.drop 1 else noneSy)) } : Machine).scannedSquare
        ∧ ({ ms with tape := ms.tape.set ms.scannedSquare.toNat (sigmaF input (if op1.headD ' ' = 'P' then op1.drop 1 else noneSy)) } : Machine).scannedSquare
          < ((({ ms with tape := ms.tape.set ms.scannedSquare.toNat (sigmaF input (if op1.headD ' ' = 'P' then op1.drop 1 else noneSy)) } : Machine)).tape.length : Int) := by
      refine ⟨hbs.1, ?_⟩
      show ms.scannedSquare < ((ms.tape.set ms.scannedSquare.toNat _).length : Int)
      rw [List.length_set]
      exact hbs.2
    have htape2 : ({ ms with tape := ms.tape.set ms.scannedSquare.toNat (sigmaF input (if op1.headD ' ' = 'P' then op1.drop 1 else noneSy)) } : Machine).tape
        = (({ m with tape := m.tape.set m.scannedSquare.toNat (if op1.headD ' ' = 'P' then op1.drop 1 else noneSy) } : Machine)).tape.map
            (sigmaF input) := by
      show ms.tape.set ms.scannedSquare.toNat _ = (m.tape.set m.scannedSquare.toNat _).map _
      rw [htape, hkk, List.map_set]
    rcases hwf'.2 with h2 | h2 <;> subst h2
    · rw [perform_R _ hbm2, perform_R _ hbs2]
      refine ⟨htape2, ?_, rfl, rfl, rfl, rfl, rfl, rfl, rfl, rfl, ?_⟩
      · show ms.scannedSquare + 1 = m.scannedSquare + 1
        rw [hscan]
      · intro sq hsq
        rcases List.mem_or_eq_of_mem_set hsq with hmem | heq
        · exact Or.inl hmem
        · exact Or.inr ⟨_, hps, heq⟩
    · rw [perform_L _ hbm2, perform_L _ hbs2]
      refine ⟨htape2, ?_, rfl, rfl, rfl, rfl, rfl, rfl, rfl, rfl, ?_⟩
      · show ms.scannedSquare - 1 = m.scannedSquare - 1
        rw [hscan]
      · intro sq hsq
        rcases List.mem_or_eq_of_mem_set hsq with hmem | heq
        · exact Or.inl hmem
        · exact Or.inr ⟨_, hps, heq⟩
  · exact absurd hwfops (by intro h; exact h)

theorem rowPrintSym_mem (vocab : List GoStr) (ops : List GoStr) (sy : GoStr)
    (hwf : stdFormOps vocab ops) (hps : rowPrintSym ops = some sy) :
    sy ∈ vocab ∨ sy = noneSy := by
  rcases ops with _ | ⟨op1, _ | ⟨op2, _ | _⟩⟩
  · exact Option.noConfusion hps
  · have hwf' : op1 = ['E'] ∨ op1 = ['R'] ∨ op1 = ['L']
        ∨ (op1.headD ' ' = 'P' ∧ (op1.drop 1 ∈ vocab ∨ op1.drop 1 = noneSy)) := hwf
    rcases hwf' with hE | hR | hL | ⟨hp, hmem⟩
    · subst hE
      exact Or.inr (Option.some.inj (hps : some noneSy = some sy)).symm
    · subst hR
      exact Option.noConfusion (hps : none = some sy)
    · subst hL
      exact Option.noConfusion (hps : none = some sy)
    · have hval : rowPrintSym [op1] = some (op1.drop 1) := by
        show (if op1.headD ' ' = 'P' then some (op1.drop 1)
          else if op1 = ['E'] then some noneSy else none) = some (op1.drop 1)
        rw [if_pos hp]
      rw [hval] at hps
      rw [← Option.some.inj hps]
      exact hmem
  · have hwf' : (op1 = ['E'] ∨ (op1.headD ' ' = 'P'
        ∧ (op1.drop 1 ∈ vocab ∨ op1.drop 1 = noneSy)))
        ∧ (op2 = ['R'] ∨ op2 = ['L']) := hwf
    rcases hwf'.1 with hE | ⟨hp, hmem⟩
    · subst hE
      exact Or.inr (Option.some.inj (hps : some noneSy = some sy)).symm
    · have hval : rowPrintSym [op1, op2] = some (op1.drop 1) := by
        show (if op1.headD ' ' = 'P' then some (op1.drop 1)
          else if op1 = ['E'] then some noneSy else none) = some (op1.drop 1)
        rw [if_pos hp]
      rw [hval] at hps
      rw [← Option.some.inj hps]
      exact hmem
  · exact absurd hwf (fun h => h)

theorem getD_mem (l : List GoStr) (i : Nat) (h : i < l.length) : l.getD i [] ∈ l := by
  rw [List.getD_eq_getElem l [] h]
  exact List.getElem_mem h

/-- The simulation relation between the original machine and the
standardized machine. -/
def SimR (input : MachineInput) (m ms : Machine) : Prop :=
  m.mConfigurations = input.MConfigurations
  ∧ ms.mConfigurations = stdRowsOf input
  ∧ m.noneSymbol = noneSy
  ∧ ms.noneSymbol = sigmaF input noneSy
  ∧ ms.tape = m.tape.map (sigmaF input)
  ∧ ms.scannedSquare = m.scannedSquare
  ∧ ms.currentMConfigurationName = nuF input m.currentMConfigurationName
  ∧ ms.halted = m.halted
  ∧ nameDom (finalState input) m.currentMConfigurationName
  ∧ (∀ sq ∈ m.tape, (sq ∈ input.PossibleSymbols ∨ sq = noneSy)
      ∧ symDom (finalSymState input) sq)
  ∧ Inv m

set_option maxHeartbeats 1000000 in
/-- One `Move` preserves the simulation relation. -/
theorem SimR_step (input : MachineInput) (h : WellFormed input) (F : StdFacts input)
    (m ms : Machine) (hs : SimR input m ms) : SimR input m.Move ms.Move := by
  obtain ⟨hmrows, hsrows, hmnone, hsnone, htape, hscan, hname, hhalt, hdomn, htmem, hInv⟩ := hs
  by_cases hh : m.halted = true
  · rw [Move_of_halted m hh, Move_of_halted ms (by rw [hhalt]; exact hh)]
    exact ⟨hmrows, hsrows, hmnone, hsnone, htape, hscan, hname, hhalt, hdomn, htmem, hInv⟩
  · have hh' : ¬ ms.halted = true := by rw [hhalt]; exact hh
    unfold Machine.Move
    rw [if_neg hh, if_neg hh']
    dsimp only
    obtain ⟨hextt, hexts⟩ := extend_sim input m ms htape hscan hmnone hsnone
    have hEInv := extend_bounds m hInv
    obtain ⟨hekm1, hekm2, hekm3, hekm4⟩ := extend_keeps m
    obtain ⟨heks1, heks2, heks3, heks4⟩ := extend_keeps ms
    have hkx : m.extendTapeIfNeeded.scannedSquare.toNat < m.extendTapeIfNeeded.tape.length := by
      have h1 := hEInv.1
      have h2 := hEInv.2
      omega
    have hsymb : ms.extendTapeIfNeeded.tape.getD ms.extendTapeIfNeeded.scannedSquare.toNat []
        = sigmaF input (m.extendTapeIfNeeded.tape.getD
            m.extendTapeIfNeeded.scannedSquare.toNat []) := by
      rw [hextt, hexts, getD_map _ _ _ hkx]
    have htmem1 : ∀ sq ∈ m.extendTapeIfNeeded.tape,
        (sq ∈ input.PossibleSymbols ∨ sq = noneSy) ∧ symDom (finalSymState input) sq := by
      intro sq hsq
      rcases extend_tape_mem m sq hsq with hin | hnone2
      · exact htmem sq hin
      · rw [hnone2, hmnone]
        exact ⟨Or.inr rfl, F.noneDom⟩
    have hxfacts := htmem1 _ (getD_mem m.extendTapeIfNeeded.tape
      m.extendTapeIfNeeded.scannedSquare.toNat hkx)
    have hdomn1 : nameDom (finalState input)
        m.extendTapeIfNeeded.currentMConfigurationName := by
      rw [hekm3]
      exact hdomn
    rw [hekm1, hmrows, hekm3, hekm2, hmnone]
    rw [heks1, hsrows, heks3, hname, heks2, hsnone, hsymb]
    rw [find_std input F h.2.2.1 m.currentMConfigurationName
      (m.extendTapeIfNeeded.tape.getD m.extendTapeIfNeeded.scannedSquare.toNat [])
      hdomn hxfacts.2 hxfacts.1]
    cases hfo : findMConfiguration input.MConfigurations m.currentMConfigurationName
        (m.extendTapeIfNeeded.tape.getD m.extendTapeIfNeeded.scannedSquare.toNat [])
        noneSy with
    | none =>
      refine ⟨rfl, rfl, rfl, rfl, hextt, hexts, rfl, rfl, ?_, htmem1, ?_⟩
      · exact hdomn
      · refine ⟨?_, ?_⟩
        · show (-1 : Int) ≤ m.extendTapeIfNeeded.scannedSquare
          have h1 := hEInv.1
          omega
        · show m.extendTapeIfNeeded.scannedSquare ≤ (m.extendTapeIfNeeded.tape.length : Int)
          have h2 := hEInv.2
          omega
    | some mc =>
      have hmcmem : mc ∈ input.MConfigurations := by
        rw [findMConfiguration_eq_find?] at hfo
        exact List.mem_of_find?_eq_some hfo
      have hwfops : stdFormOps input.PossibleSymbols mc.Operations :=
        (h.2.2.2.1 mc hmcmem).2
      have hopseq : (stdRowFor (sigmaF input) (nuF input) mc
          (m.extendTapeIfNeeded.tape.getD m.extendTapeIfNeeded.scannedSquare.toNat [])).Operations
          = stdOpsFor input mc.Operations
              (m.extendTapeIfNeeded.tape.getD m.extendTapeIfNeeded.scannedSquare.toNat []) := rfl
      obtain ⟨o1, o2, o3, o4, o5, o6, o7, o8, o9, o10, o11⟩ :=
        ops_sim input m.extendTapeIfNeeded ms.extendTapeIfNeeded mc.Operations
          (m.extendTapeIfNeeded.tape.getD m.extendTapeIfNeeded.scannedSquare.toNat [])
          hwfops hextt hexts (by rw [hekm2]; exact hmnone) hEInv rfl
      refine ⟨?_, ?_, ?_, ?_, ?_, ?_, ?_, ?_, ?_, ?_, ?_⟩
      · show (mc.Operations.foldl Machine.performOperation
            m.extendTapeIfNeeded).mConfigurations = input.MConfigurations
        rw [o3, hekm1, hmrows]
      · show ((stdRowFor (sigmaF input) (nuF input) mc _).Operations.foldl
            Machine.performOperation ms.extendTapeIfNeeded).mConfigurations = stdRowsOf input
        rw [hopseq, o7, heks1, hsrows]
      · show (mc.Operations.foldl Machine.performOperation
            m.extendTapeIfNeeded).noneSymbol = noneSy
        rw [o4, hekm2, hmnone]
      · show ((stdRowFor (sigmaF input) (nuF input) mc _).Operations.foldl
            Machine.performOperation ms.extendTapeIfNeeded).noneSymbol = sigmaF input noneSy
        rw [hopseq, o8, heks2, hsnone]
      · show ((stdRowFor (sigmaF input) (nuF input) mc _).Operations.foldl
            Machine.performOperation ms.extendTapeIfNeeded).tape
          = (mc.Operations.foldl Machine.performOperation m.extendTapeIfNeeded).tape.map
              (sigmaF input)
        rw [hopseq]
        exact o1
      · show ((stdRowFor (sigmaF input) (nuF input) mc _).Operations.foldl
            Machine.performOperation ms.extendTapeIfNeeded).scannedSquare
          = (mc.Operations.foldl Machine.performOperation
              m.extendTapeIfNeeded).scannedSquare
        rw [hopseq]
        exact o2
      · show (stdRowFor (sigmaF input) (nuF input) mc
            (m.extendTapeIfNeeded.tape.getD
              m.extendTapeIfNeeded.scannedSquare.toNat [])).FinalMConfiguration
          = nuF input mc.FinalMConfiguration
        rfl
      · show ((stdRowFor (sigmaF input) (nuF input) mc _).Operations.foldl
            Machine.performOperation ms.extendTapeIfNeeded).halted
          = (mc.Operations.foldl Machine.performOperation m.extendTapeIfNeeded).halted
        rw [hopseq, o10, o6, heks4, hekm4, hhalt]
      · show nameDom (finalState input) mc.FinalMConfiguration
        exact (F.nameDoms mc hmcmem).2
      · intro sq hsq
        rcases o11 sq hsq with hin | ⟨sy, hps, heq⟩
        · exact htmem1 sq hin
        · rw [heq]
          exact ⟨rowPrintSym_mem input.PossibleSymbols mc.Operations sy hwfops hps,
            F.printDoms mc hmcmem sy hps⟩
      · have hI := foldl_performOperation_Inv mc.Operations m.extendTapeIfNeeded
          (extend_Inv m hInv)
        exact ⟨hI.1, hI.2⟩

theorem nuF_shape (input : MachineInput) (hn : NameInv (finalState input))
    {n : GoStr} (hd : nameDom (finalState input) n) :
    ∃ i, nuF input n = 'q' :: itoa (i + 1) := by
  obtain ⟨v, hv⟩ := Option.isSome_iff_exists.mp hd
  obtain ⟨i, hi⟩ := nameVal_shape hn hv
  refine ⟨i, ?_⟩
  show (alookup (namesOf (finalState input)) n).getD [] = 'q' :: itoa (i + 1)
  rw [hv, hi]
  rfl

/-- The initial machines are in simulation. -/
theorem SimR_init (input : MachineInput) (h : WellFormed input) (F : StdFacts input) :
    SimR input (NewMachine input) (NewMachine (NewStandardTable input).MachineInput) := by
  refine ⟨rfl, F.rows_eq, ?_, ?_, F.tape_eq, rfl, ?_, rfl, ?_, ?_, NewMachine_Inv input⟩
  · show (if input.NoneSymbol = [] then noneSy else input.NoneSymbol) = noneSy
    rw [if_pos h.2.1]
  · obtain ⟨i, hi⟩ := sigmaF_shape input F.symInv F.noneDom
    show (if (NewStandardTable input).MachineInput.NoneSymbol = []
        then noneSy else (NewStandardTable input).MachineInput.NoneSymbol)
      = sigmaF input noneSy
    rw [F.none_eq, hi, if_neg (sshape_ne_nil i), ← hi]
  · by_cases hst : input.StartingMConfiguration = []
    · obtain ⟨e, he, hec, hea⟩ := h.2.2.2.2.1 hst
      rcases hrows : input.MConfigurations with _ | ⟨mc1, rest⟩
      · exact absurd hrows h.1
      have he1 : e ∈ mc1.Symbols := by
        rw [hrows] at he
        exact he
      have hme : e ∈ matchList mc1.Symbols input.PossibleSymbols := by
        rw [matchList_eq]
        refine List.mem_flatMap.mpr ⟨e, he1, ?_⟩
        unfold mEntry
        rw [if_neg hec, if_neg hea]
        exact List.mem_singleton.mpr rfl
      rcases hml : matchList mc1.Symbols input.PossibleSymbols with _ | ⟨y0, ys⟩
      · rw [hml] at hme
        exact absurd hme (List.not_mem_nil e)
      have hstd : stdRowsOf input
          = stdRowFor (sigmaF input) (nuF input) mc1 y0
            :: (ys.map (stdRowFor (sigmaF input) (nuF input) mc1)
                ++ rest.flatMap (fun mc =>
                  (matchList mc.Symbols input.PossibleSymbols).map
                    (stdRowFor (sigmaF input) (nuF input) mc))) := by
        unfold stdRowsOf
        rw [hrows, List.flatMap_cons, hml, List.map_cons, List.cons_append]
      show (if (NewStandardTable input).MachineInput.StartingMConfiguration = []
          then match (NewStandardTable input).MachineInput.MConfigurations with
            | [] => []
            | mc :: _ => mc.Name
          else (NewStandardTable input).MachineInput.StartingMConfiguration)
        = nuF input (if input.StartingMConfiguration = []
            then match input.MConfigurations with
              | [] => []
              | mc :: _ => mc.Name
            else input.StartingMConfiguration)
      rw [F.start_nil hst, if_pos rfl, if_pos hst, F.rows_eq, hstd, hrows]
      rfl
    · obtain ⟨hsv, hsd⟩ := F.start_some hst
      obtain ⟨i, hi⟩ := nuF_shape input F.nameInv hsd
      show (if (NewStandardTable input).MachineInput.StartingMConfiguration = []
          then match (NewStandardTable input).MachineInput.MConfigurations with
            | [] => []
            | mc :: _ => mc.Name
          else (NewStandardTable input).MachineInput.StartingMConfiguration)
        = nuF input (if input.StartingMConfiguration = []
            then match input.MConfigurations with
              | [] => []
              | mc :: _ => mc.Name
            else input.StartingMConfiguration)
      rw [hsv, hi, if_neg (qshape_ne_nil (i + 1)), if_neg hst, ← hi]
  · by_cases hst : input.StartingMConfiguration = []
    · rcases hrows : input.MConfigurations with _ | ⟨mc1, rest⟩
      · exact absurd hrows h.1
      show nameDom (finalState input) (if input.StartingMConfiguration = []
          then match input.MConfigurations with
            | [] => []
            | mc :: _ => mc.Name
          else input.StartingMConfiguration)
      rw [if_pos hst, hrows]
      exact (F.nameDoms mc1 (by rw [hrows]; exact List.mem_cons_self _ _)).1
    · show nameDom (finalState input) (if input.StartingMConfiguration = []
          then match input.MConfigurations with
            | [] => []
            | mc :: _ => mc.Name
          else input.StartingMConfiguration)
      rw [if_neg hst]
      exact (F.start_some hst).2
  · intro sq hsq
    exact h.2.2.2.2.2 sq hsq

theorem alookup_swap (l : List (GoStr × GoStr)) :
    ∀ (j : Nat) (hj : j < l.length) (a v : GoStr), (l[j]).1 = a → (l[j]).2 = v
    → (∀ (i : Nat) (hi : i < j), (l.get ⟨i, by omega⟩).2 ≠ v)
    → alookup (l.map (fun kv => (kv.2, kv.1))) v = some a := by
  induction l with
  | nil =>
    intro j hj
    simp at hj
  | cons kv rest ih =>
    intro j hj a v hk hv hprev
    obtain ⟨k1, v1⟩ := kv
    rw [List.map_cons]
    cases j with
    | zero =>
      have hv1 : v1 = v := hv
      have hk1 : k1 = a := hk
      rw [alookup_cons, if_pos hv1, hk1]
    | succ j' =>
      have hne : v1 ≠ v := hprev 0 (Nat.succ_pos j')
      rw [alookup_cons, if_neg hne]
      refine ih j' (by simpa using hj) a v hk hv ?_
      intro i hi
      exact hprev (i + 1) (by omega)

/-- Looking up an interned value in the reversed map returns the original
symbol: the interned values are pairwise distinct. -/
theorem rev_lookup {s : STState} (hinv : SymInv s) {a v : GoStr}
    (ha : alookup (symsOf s) a = some v) :
    alookup ((symsOf s).map (fun kv => (kv.2, kv.1))) v = some a := by
  obtain ⟨j, hj, hje⟩ := List.mem_iff_getElem.mp (alookup_mem ha)
  have hvj : v = 'S' :: itoa j := by
    have := hinv.2 j hj
    rw [hje] at this
    exact this
  refine alookup_swap (symsOf s) j hj a v ?_ ?_ ?_
  · rw [hje]
  · rw [hje]
  · intro i hi
    have hib : i < (symsOf s).length := by omega
    show ((symsOf s)[i]).2 ≠ v
    have hvi := hinv.2 i hib
    rw [hvi, hvj]
    intro hcon
    have := itoa_injective (List.cons.inj hcon).2
    omega

/-- Translating a simulated tape back through the symbol map recovers the
original tape string. -/
theorem SimR_translate (input : MachineInput) (F : StdFacts input) (m ms : Machine)
    (hs : SimR input m ms) :
    TranslateTape (NewStandardTable input).SymbolMap ms.tape = m.TapeString := by
  obtain ⟨-, -, -, -, htape, -, -, -, -, htmem, -⟩ := hs
  unfold TranslateTape Machine.TapeString
  rw [F.sm_eq, htape, List.map_map]
  congr 1
  have hpt : ∀ sq ∈ m.tape,
      ((fun square => (alookup ((symsOf (finalSymState input)).map
        (fun kv => (kv.2, kv.1))) square).getD []) ∘ sigmaF input) sq = id sq := by
    intro sq hsq
    obtain ⟨v, hv⟩ := Option.isSome_iff_exists.mp (htmem sq hsq).2
    show (alookup ((symsOf (finalSymState input)).map (fun kv => (kv.2, kv.1)))
        (sigmaF input sq)).getD [] = sq
    have hσ : sigmaF input sq = v := by
      show (alookup (symsOf (finalSymState input)) sq).getD [] = v
      rw [hv]
      rfl
    rw [hσ, rev_lookup F.symInv hv]
    rfl
  rw [List.map_congr_left hpt, List.map_id]

/-- The README table with its vocabulary made explicit, so that every
printed symbol belongs to the declared possible symbols. -/
def exampleVocabInput : MachineInput :=
  { MConfigurations :=
      [ ⟨gs "b", [gs " "], [gs "P0", gs "R"], gs "c"⟩,
        ⟨gs "c", [gs " "], [gs "R"], gs "e"⟩,
        ⟨gs "e", [gs " "], [gs "P1", gs "R"], gs "k"⟩,
        ⟨gs "k", [gs " "], [gs "R"], gs "b"⟩ ]
    PossibleSymbols := [gs "0", gs "1"] }

/-- C1 (amended): for every well-formed flat table whose rows are already
in Turing's acceptable single print/move form (at most one print or erase
followed by at most one move, printed symbols and tape squares drawn from
the declared vocabulary or the blank), running the machine built from
`NewStandardTable(T).MachineInput` for `k` moves and translating the
resulting tape through the returned `SymbolMap` yields exactly the tape
string of the machine built directly from `T` after the same `k` moves.
The restriction to single-pair rows is necessary: multi-operation rows are
expanded through hidden m-configurations that each consume an extra move
(see the counterexample). -/
theorem C1_standardize_refines (input : MachineInput) (h : WellFormed input) (k : Nat) :
    TranslateTape (NewStandardTable input).SymbolMap
        ((NewMachine (NewStandardTable input).MachineInput).MoveN k).1.tape
      = ((NewMachine input).MoveN k).1.TapeString := by
  have F := stdFacts_of_wf input h
  have hsim : ∀ j : Nat,
      SimR input (Machine.Move^[j] (NewMachine input))
        (Machine.Move^[j] (NewMachine (NewStandardTable input).MachineInput)) := by
    intro j
    induction j with
    | zero => exact SimR_init input h F
    | succ j ih =>
      rw [Function.iterate_succ_apply', Function.iterate_succ_apply']
      exact SimR_step input h F _ _ ih
  rw [MoveN_fst, MoveN_fst]
  exact SimR_translate input F _ _ (hsim k)

set_option maxRecDepth 100000 in
/-- Witness for the amended C1 at the README table with explicit
vocabulary, after 6 moves. -/
theorem C1_standardize_refines_witness :
    WellFormed exampleVocabInput
    ∧ TranslateTape (NewStandardTable exampleVocabInput).SymbolMap
        ((NewMachine (NewStandardTable exampleVocabInput).MachineInput).MoveN 6).1.tape
      = ((NewMachine exampleVocabInput).MoveN 6).1.TapeString :=
  ⟨by decide, C1_standardize_refines exampleVocabInput (by decide) 6⟩

/-- Witness for the amended C5: a signature already in the interpreted set
is skipped, returning its assigned name with no new rows. -/
theorem C5_memoized_signatures_witness :
    interpretMFunction selfNestingInput 5 (gs "b") []
        (markAsInterpreted initATState (gs "b") [])
      = some ((atNewMConfigurationName (markAsInterpreted initATState (gs "b") [])
                (gs "b") []).1,
              (atNewMConfigurationName (markAsInterpreted initATState (gs "b") [])
                (gs "b") []).2) :=
  (C5_memoized_signatures selfNestingInput 4 (gs "b") []
    (markAsInterpreted initATState (gs "b") []) (by decide)).1

end TuringGo

